import Mathlib

/-!
# CSV record reader (`encoding/csv.ts` as cached by Deno for planet-csv-deno)

A shallow embedding of `chkOptions`, `readLine`, `readRecord`, `readMatrix` and `parse`,
followed by theorems about them.

JavaScript strings are modelled as lists of UTF-16 code units.  The two loops of
`readRecord` (the labelled loop `parseField` and the inner loop of a quoted field)
are modelled as one step function on the scanner state; `run` iterates it with a
fuel counter, so that a loop that would not terminate shows up as `outOfFuel`.
-/

namespace Csv

/-! ## Strings -/

/-- A UTF-16 code unit of a JavaScript string. -/
abbrev CodeUnit := Nat

/-- A JavaScript string, as the list of its UTF-16 code units. -/
abbrev Str := List CodeUnit

/-- Carriage return. -/
abbrev CR : CodeUnit := 13
/-- Line feed. -/
abbrev LF : CodeUnit := 10
/-- The quote character of `readRecord` (`const quote`). -/
abbrev QUOTE : CodeUnit := 34
/-- The default delimiter. -/
abbrev COMMA : CodeUnit := 44

/-- `INVALID_RUNE` of the source. -/
def INVALID_RUNE : List Str := [[CR], [LF], [QUOTE]]

/-- `s.startsWith(p)`. -/
def startsWith (s p : Str) : Bool := p.isPrefixOf s

/-- `s.indexOf(p)`: the least position at which `p` occurs in `s`; `none` stands for -1. -/
def indexOf : Str → Str → Option Nat
  | [], p => if startsWith [] p then some 0 else none
  | c :: t, p => if startsWith (c :: t) p then some 0 else (indexOf t p).map (· + 1)

/-- White space and line terminators of ECMAScript, as removed by `trimLeft`. -/
def isWhiteSpace (c : CodeUnit) : Bool :=
  c == 9 || c == 10 || c == 11 || c == 12 || c == 13 || c == 32 || c == 160 ||
  c == 5760 || (8192 ≤ c && c ≤ 8202) || c == 8232 || c == 8233 || c == 8239 ||
  c == 8287 || c == 12288 || c == 65279

/-- `s.trimLeft()`. -/
def trimLeft (s : Str) : Str := s.dropWhile isWhiteSpace

/-- `s.slice(0, e)`, where a negative `e` counts from the end of `s`. -/
def sliceTo (s : Str) (e : Int) : Str :=
  if e < 0 then s.take ((s.length : Int) + e).toNat else s.take e.toNat

/-- `s.slice(b, e)` for non-negative `b` and `e`. -/
def slice (s : Str) (b e : Nat) : Str := (s.take e).drop b

/-- Whether a code unit is a high (leading) surrogate. -/
def isHighSurrogate (c : CodeUnit) : Bool := 55296 ≤ c && c ≤ 56319

/-- Whether a code unit is a low (trailing) surrogate. -/
def isLowSurrogate (c : CodeUnit) : Bool := 56320 ≤ c && c ≤ 57343

/-- `runeCount(s)`, that is `Array.from(s).length`: the number of code points of `s`,
a well-formed surrogate pair counting once. -/
def runeCount : Str → Nat
  | [] => 0
  | [_] => 1
  | c :: d :: u =>
    if isHighSurrogate c && isLowSurrogate d then 1 + runeCount u else 1 + runeCount (d :: u)

/-! ## Errors and options -/

/-- The four message constants of the source. -/
inductive Message
  | ERR_BARE_QUOTE
  | ERR_QUOTE
  | ERR_INVALID_DELIM
  | ERR_FIELD_COUNT
  deriving DecidableEq, Repr

/-- `ParseError`: the arguments of its constructor, in the order `start, line, column, message`. -/
structure ParseError where
  startLine : Nat
  line : Nat
  column : Option Nat
  message : Message
  deriving DecidableEq, Repr

/-- What a call can throw.  `outOfFuel` is not a JavaScript error: it marks a run of the
model whose fuel was used up, which is how a loop that does not terminate would appear. -/
inductive CsvError
  | parseError (e : ParseError)
  | error (message : Message)
  | assertion
  | outOfFuel
  deriving DecidableEq, Repr

/-- The options read by `chkOptions`, `readRecord` and `readMatrix`; `none` is `undefined`. -/
structure ReadOptions where
  comma : Option Str
  comment : Option Str
  trimLeadingSpace : Option Bool
  lazyQuotes : Option Bool
  fieldsPerRecord : Option Nat
  deriving DecidableEq, Repr

/-- Truthiness of an optional string: defined and not empty. -/
def truthyStr : Option Str → Bool
  | none => false
  | some s => !s.isEmpty

/-- Truthiness of an optional boolean. -/
def truthyBool : Option Bool → Bool
  | none => false
  | some b => b

/-- Truthiness of an optional number: defined and not zero. -/
def truthyNat : Option Nat → Bool
  | none => false
  | some n => n != 0

/-- The first statement of `chkOptions`: `if (!opt.comma) opt.comma = ","`. -/
def defaultComma (opt : ReadOptions) : ReadOptions :=
  if !truthyStr opt.comma then { opt with comma := some [COMMA] } else opt

/-- The second statement of `chkOptions`:
`if (!opt.trimLeadingSpace) opt.trimLeadingSpace = false`. -/
def defaultTrim (opt : ReadOptions) : ReadOptions :=
  if !truthyBool opt.trimLeadingSpace then { opt with trimLeadingSpace := some false } else opt

/-- The test `typeof x === "string" && INVALID_RUNE.includes(x)`, which for an `x` that is
`undefined` is false. -/
def isInvalidRune : Option Str → Bool
  | some c => INVALID_RUNE.contains c
  | none => false

/-- `chkOptions(opt)`: the two defaults are written into `opt`, then the delimiter and the
comment character are checked.  The updated options are returned. -/
def chkOptions (opt : ReadOptions) : Except CsvError ReadOptions :=
  let opt := defaultTrim (defaultComma opt)
  if isInvalidRune opt.comma || isInvalidRune opt.comment || opt.comma == opt.comment then
    .error (.error .ERR_INVALID_DELIM)
  else
    .ok opt

/-! ## The reader -/

/-- Modelled from the spec: `BufReader` and `TextProtoReader` are not part of the sources at hand.
The state of the reader is the list of the physical lines that are still to be read, each
without its line terminator. -/
abbrev Reader := List Str

/-- Modelled from the spec: `tp.readLine()` hands out the next physical line, or `null`
(here `none`) when none is left. -/
def tpReadLine : Reader → Option Str × Reader
  | [] => (none, [])
  | r :: tp => (some r, tp)

/-- `isEOF(tp)`.  Modelled from the spec for `tp.r.peek(0) === null`: the stream is at its end
when no physical line is left. -/
def isEOF (tp : Reader) : Bool := tp.isEmpty

/-- The first adjustment of `readLine`: when the stream is at its end, a carriage return that
ends the line is dropped. -/
def dropFinalCR (atEOF : Bool) (line : Str) : Str :=
  if atEOF && line.length > 0 && line.get? (line.length - 1) == some CR then
    line.take (line.length - 1)
  else line

/-- The second adjustment of `readLine`: a line that ends in carriage return and line feed
ends in a line feed only. -/
def foldCRLF (line : Str) : Str :=
  if line.length ≥ 2 && line.get? (line.length - 2) == some CR &&
      line.get? (line.length - 1) == some LF then
    line.take (line.length - 2) ++ [LF]
  else line

/-- `readLine(tp)`. -/
def readLine (tp : Reader) : Option Str × Reader :=
  match tpReadLine tp with
  | (none, tp) => (none, tp)
  | (some r, tp) => (some (foldCRLF (dropFinalCR (isEOF tp) r)), tp)

/-! ## `readRecord` -/

/-- Which loop of `readRecord` the scanner is at the head of. -/
inductive Mode
  | parseField
  | quoted
  deriving DecidableEq, Repr

/-- The local variables of `readRecord` that change while a record is scanned. -/
structure Scan where
  mode : Mode
  line : Str
  fullLine : Str
  lineIndex : Nat
  recordBuffer : Str
  fieldIndexes : List Nat
  tp : Reader
  deriving DecidableEq, Repr

/-- The outcome of one pass of a loop: go on, leave `parseField` without an error, or leave it
with `quoteError` set. -/
inductive Step
  | next (s : Scan)
  | done (recordBuffer : Str) (fieldIndexes : List Nat) (tp : Reader)
  | fail (quoteError : ParseError) (tp : Reader)
  deriving DecidableEq, Repr

/-- The line buffer after `if (opt.trimLeadingSpace) line = line.trimLeft()`. -/
def trimmed (opt : ReadOptions) (line : Str) : Str :=
  if truthyBool opt.trimLeadingSpace then trimLeft line else line

/-- The unquoted field at the head of `line`: `line.substring(0, i)` when the delimiter was
found at `i`, the whole of `line` otherwise. -/
def fieldUpTo (line : Str) : Option Nat → Str
  | some i => line.take i
  | none => line

/-- The position of a bare quote in an unquoted field, looked for only when `lazyQuotes` is off. -/
def bareQuote (opt : ReadOptions) (field : Str) : Option Nat :=
  if !truthyBool opt.lazyQuotes then indexOf field [QUOTE] else none

/-- One pass of the loop `parseField`, from its head to the `continue`, the `break` or the
entry into the inner loop. -/
def stepField (opt : ReadOptions) (comma : Str) (startLine : Nat) (s : Scan) : Step :=
  let line := trimmed opt s.line
  if line.length == 0 || !startsWith line [QUOTE] then
    let i := indexOf line comma
    let field := fieldUpTo line i
    match bareQuote opt field with
    | some j =>
      let col := runeCount (sliceTo s.fullLine ((s.fullLine.length : Int) - ((line.drop j).length : Int)))
      .fail ⟨startLine + 1, s.lineIndex, some col, .ERR_BARE_QUOTE⟩ s.tp
    | none =>
      let recordBuffer := s.recordBuffer ++ field
      let fieldIndexes := s.fieldIndexes ++ [recordBuffer.length]
      match i with
      | some i =>
        .next { s with line := line.drop (i + comma.length), recordBuffer := recordBuffer,
                       fieldIndexes := fieldIndexes }
      | none => .done recordBuffer fieldIndexes s.tp
  else
    .next { s with mode := .quoted, line := line.drop 1 }

/-- One pass of the inner loop of a quoted field. -/
def stepQuoted (opt : ReadOptions) (comma : Str) (startLine : Nat) (s : Scan) : Step :=
  match indexOf s.line [QUOTE] with
  | some i =>
    let recordBuffer := s.recordBuffer ++ s.line.take i
    let line := s.line.drop (i + 1)
    if startsWith line [QUOTE] then
      .next { s with line := line.drop 1, recordBuffer := recordBuffer ++ [QUOTE] }
    else if startsWith line comma then
      .next { s with mode := .parseField, line := line.drop comma.length,
                     recordBuffer := recordBuffer,
                     fieldIndexes := s.fieldIndexes ++ [recordBuffer.length] }
    else if line.length == 0 then
      .done recordBuffer (s.fieldIndexes ++ [recordBuffer.length]) s.tp
    else if truthyBool opt.lazyQuotes then
      .next { s with line := line, recordBuffer := recordBuffer ++ [QUOTE] }
    else
      let col := runeCount (sliceTo s.fullLine ((s.fullLine.length : Int) - (line.length : Int) - 1))
      .fail ⟨startLine + 1, s.lineIndex, some col, .ERR_QUOTE⟩ s.tp
  | none =>
    if s.line.length > 0 || !isEOF s.tp then
      let recordBuffer := s.recordBuffer ++ s.line
      match readLine s.tp with
      | (none, tp) =>
        if !truthyBool opt.lazyQuotes then
          .fail ⟨startLine + 1, s.lineIndex + 1, some (runeCount []), .ERR_QUOTE⟩ tp
        else
          .done recordBuffer (s.fieldIndexes ++ [recordBuffer.length]) tp
      | (some r, tp) =>
        .next { s with line := r, fullLine := r, lineIndex := s.lineIndex + 1,
                       recordBuffer := recordBuffer ++ [LF], tp := tp }
    else
      if !truthyBool opt.lazyQuotes then
        .fail ⟨startLine + 1, s.lineIndex, some (runeCount s.fullLine), .ERR_QUOTE⟩ s.tp
      else
        .done s.recordBuffer (s.fieldIndexes ++ [s.recordBuffer.length]) s.tp

/-- One pass of whichever loop the scanner is in. -/
def step (opt : ReadOptions) (comma : Str) (startLine : Nat) (s : Scan) : Step :=
  match s.mode with
  | .parseField => stepField opt comma startLine s
  | .quoted => stepQuoted opt comma startLine s

/-- What the loops leave behind: the error, or the record buffer and the field offsets, and
in both cases the state of the reader. -/
abbrev ScanResult := Except CsvError (Str × List Nat) × Reader

/-- The loops of `readRecord`, run for at most `fuel` passes. -/
def run (opt : ReadOptions) (comma : Str) (startLine : Nat) : Nat → Scan → ScanResult
  | 0, s => (.error .outOfFuel, s.tp)
  | fuel + 1, s =>
    match step opt comma startLine s with
    | .next s => run opt comma startLine fuel s
    | .done recordBuffer fieldIndexes tp => (.ok (recordBuffer, fieldIndexes), tp)
    | .fail quoteError tp => (.error (.parseError quoteError), tp)

/-- The final loop of `readRecord`: the record buffer is cut at the field offsets. -/
def sliceFields (recordBuffer : Str) : Nat → List Nat → List Str
  | _, [] => []
  | preIdx, i :: rest => slice recordBuffer preIdx i :: sliceFields recordBuffer i rest

/-- The number of code units still to be scanned, every physical line counting one more. -/
def scanSize (line : Str) (tp : Reader) : Nat :=
  line.length + (tp.map (fun l => l.length + 1)).sum

/-- The test `opt.comment && line[0] === opt.comment` on a line that is not empty. -/
def isCommentLine (opt : ReadOptions) (line : Str) : Bool :=
  truthyStr opt.comment && (line.take 1 == opt.comment.getD [])

/-- The end of `readRecord`, after the loops: `quoteError` is thrown if it was set, otherwise
the record buffer is cut into the fields. -/
def finishRecord : ScanResult → Except CsvError (Option (List Str)) × Reader
  | (.error e, tp) => (.error e, tp)
  | (.ok (recordBuffer, fieldIndexes), tp) =>
    (.ok (some (sliceFields recordBuffer 0 fieldIndexes)), tp)

/-- `readRecord(startLine, reader, opt)`: the record (`none` for `null`) or the error, and the
state in which the reader is left. -/
def readRecord (startLine : Nat) (reader : Reader) (opt : ReadOptions) :
    Except CsvError (Option (List Str)) × Reader :=
  match readLine reader with
  | (none, tp) => (.ok none, tp)
  | (some line, tp) =>
    if line.length == 0 then (.ok (some []), tp)
    else if isCommentLine opt line then (.ok (some []), tp)
    else
      match opt.comma with
      | none => (.error .assertion, tp)
      | some comma =>
        finishRecord (run opt comma startLine (scanSize line tp + 1)
          ⟨.parseField, line, line, startLine + 1, [], [], tp⟩)

/-! ## `readMatrix` -/

/-- The variable `_nbFields` after the block `if (first) { ... }` of the loop of `readMatrix`. -/
def nbFieldsAfter (opt : ReadOptions) (first : Bool) (nbFields : Option Nat)
    (lineResult : List Str) : Option Nat :=
  if first then
    match opt.fieldsPerRecord with
    | none => nbFields
    | some n => if n == 0 then some lineResult.length else some n
  else nbFields

/-- The test `_nbFields && _nbFields !== lineResult.length`. -/
def wrongCount (nbFields : Option Nat) (lineResult : List Str) : Bool :=
  truthyNat nbFields && nbFields != some lineResult.length

/-- The loop of `readMatrix`, run for at most `fuel` passes. -/
def readMatrixLoop (opt : ReadOptions) :
    Nat → Reader → List (List Str) → Option Nat → Bool → Nat →
      Except CsvError (List (List Str)) × Reader
  | 0, reader, _, _, _, _ => (.error .outOfFuel, reader)
  | fuel + 1, reader, result, nbFields, first, lineIndex =>
    match readRecord lineIndex reader opt with
    | (.error e, reader) => (.error e, reader)
    | (.ok none, reader) => (.ok result, reader)
    | (.ok (some lineResult), reader) =>
      if lineResult.length > 0 then
        if wrongCount (nbFieldsAfter opt first nbFields lineResult) lineResult then
          (.error (.parseError ⟨lineIndex + 1, lineIndex + 1, none, .ERR_FIELD_COUNT⟩), reader)
        else
          readMatrixLoop opt fuel reader (result ++ [lineResult])
            (nbFieldsAfter opt first nbFields lineResult) false (lineIndex + 1)
      else
        readMatrixLoop opt fuel reader result
          (nbFieldsAfter opt first nbFields lineResult) false (lineIndex + 1)

/-- `readMatrix(reader, opt)`. -/
def readMatrix (reader : Reader) (opt : ReadOptions) :
    Except CsvError (List (List Str)) × Reader :=
  match chkOptions opt with
  | .error e => (.error e, reader)
  | .ok opt => readMatrixLoop opt (reader.length + 1) reader [] none true 0

/-! ## The lines of a string -/

/-- Modelled from the spec: the end of a physical line as `BufReader` (not part of the sources
at hand) cuts it: a carriage return right before the line feed belongs to the line
terminator. -/
def dropTerminatorCR (l : Str) : Str :=
  if l.getLast? = some CR then l.dropLast else l

/-- Modelled from the spec: `BufReader` and `TextProtoReader`, which cut the input into
physical lines, are not part of the sources at hand.  A text is cut at every line feed; a
carriage return right before the line feed goes with it; what follows the last line feed is a
line when it is not empty.  `cur` is the part of the current line that has been passed. -/
def splitLinesAux : Str → Str → Reader
  | cur, [] => if cur.isEmpty then [] else [cur]
  | cur, c :: t =>
    if c = LF then dropTerminatorCR cur :: splitLinesAux [] t else splitLinesAux (cur ++ [c]) t

/-- Modelled from the spec: the physical lines of a text, as the reader hands them out. -/
def splitLines (text : Str) : Reader := splitLinesAux [] text

/-! ## `parse` -/

/-- `HeaderOptions`: the name of a field and, when there is one, the converter of the field.
A converter is modelled as a function; `V` is the type of what the converters return. -/
structure HeaderOptions (V : Type) where
  name : Str
  parse : Option (Str → V)

/-- The option `header`: `undefined`, a boolean, an array of names or an array of
descriptors. -/
inductive Header (V : Type)
  | absent
  | flag (b : Bool)
  | names (h : List Str)
  | descriptors (h : List (HeaderOptions V))

/-- What is stored under a name: the field as it was read, or what a converter made of it. -/
inductive Value (V : Type)
  | str (s : Str)
  | converted (v : V)
  deriving DecidableEq, Repr

/-- The object `out`: its own properties, each with its value, in the order in which they
were created. -/
abbrev Obj (V : Type) := List (Str × Value V)

/-- The assignment `out[k] = v` on an object created by `{}`, every name being the name of
an ordinary property: a property that exists gets the new value and keeps its place, a new
one is added at the end. -/
def Obj.set {V : Type} (out : Obj V) (k : Str) (v : Value V) : Obj V :=
  if out.any (fun p => p.1 == k) then out.map (fun p => if p.1 = k then (k, v) else p)
  else out ++ [(k, v)]

/-- The value of the own property `k` of an object, `none` when it has none. -/
def Obj.get {V : Type} (out : Obj V) (k : Str) : Option (Value V) :=
  (out.find? (fun p => p.1 == k)).map (fun p => p.2)

/-- The names of the own properties of an object. -/
def Obj.keys {V : Type} (out : Obj V) : List Str := out.map (fun p => p.1)

/-- What the whole-record converter `opt.parse` is applied to: a raw record, or in header mode
the object made from it. -/
inductive Row (V : Type)
  | fields (e : List Str)
  | object (out : Obj V)
  deriving DecidableEq, Repr

/-- An element of what `parse` returns: a row as it is, or what the whole-record converter
returned for it; `E` is the type of what that converter returns. -/
inductive Out (V E : Type)
  | row (r : Row V)
  | converted (e : E)
  deriving DecidableEq, Repr

/-- `ParseOptions`: the options of `readMatrix`, `header` and the whole-record converter
`parse`. -/
structure ParseOptions (V E : Type) extends ReadOptions where
  header : Header V
  parse : Option (Row V → E)

/-- What `parse` can throw: what `readMatrix` and `assert` throw, or the string
`Error number of fields line:` followed by the number `line`. -/
inductive ParseFailure
  | csv (e : CsvError)
  | numberOfFields (line : Nat)
  deriving DecidableEq, Repr

/-- The argument `input` of `parse`: a `BufReader`, or a string. -/
inductive Input
  | reader (r : Reader)
  | text (s : Str)
  deriving DecidableEq, Repr

/-- The descriptor `{ name: e }` that `parse` makes of a name. -/
def named {V : Type} (e : Str) : HeaderOptions V := ⟨e, none⟩

/-- The value that the body of the loop over `j` stores under `h.name`. -/
def cellValue {V : Type} (h : HeaderOptions V) (f : Str) : Value V :=
  match h.parse with
  | some p => .converted (p f)
  | none => .str f

/-- The loop `for (let j = 0; j < e.length; j++)` of `parse`, on the descriptors and the
fields from position `j` on.  It is run only when there are as many fields as descriptors. -/
def fillObject {V : Type} : List (HeaderOptions V) → List Str → Obj V → Obj V
  | h :: headers, f :: e, out => fillObject headers e (out.set h.name (cellValue h f))
  | _, _, out => out

/-- The end of the function mapped over the records in header mode:
`if (opt.parse) return opt.parse(out); return out`. -/
def finishRow {V E : Type} (conv : Option (Row V → E)) (out : Obj V) : Out V E :=
  match conv with
  | some p => .converted (p (.object out))
  | none => .row (.object out)

/-- The call `r.map(...)` of header mode, on the records that are left and the counter `i`:
the first record of another width than the header ends it with an error. -/
def mapRows {V E : Type} (headers : List (HeaderOptions V)) (conv : Option (Row V → E)) :
    List (List Str) → Nat → Except ParseFailure (List (Out V E))
  | [], _ => .ok []
  | e :: r, i =>
    if e.length ≠ headers.length then .error (.numberOfFields i)
    else
      match mapRows headers conv r (i + 1) with
      | .error x => .error x
      | .ok rest => .ok (finishRow conv (fillObject headers e []) :: rest)

/-- The block of `parse` that sets `headers`, takes the header row off `r` when `header` is
not an array, and sets the counter `i`: the three of them, or the error of `assert`. -/
def headerBlock {V : Type} (header : Header V) (r : List (List Str)) :
    Except ParseFailure (List (HeaderOptions V) × List (List Str) × Nat) :=
  match header with
  | .descriptors h => .ok (h, r, 0)
  | .names h => .ok (h.map named, r, 0)
  | _ =>
    match r with
    | [] => .error (.csv .assertion)
    | head :: r => .ok (head.map named, r, 1)

/-- The test `if (opt.header)`: true for `true` and for every array. -/
def truthyHeader {V : Type} : Header V → Bool
  | .absent => false
  | .flag b => b
  | .names _ => true
  | .descriptors _ => true

/-- Modelled from the spec: `new BufReader(new StringReader(input))` is not part of the
sources at hand; the reader made of a string holds the physical lines of the string. -/
def Input.toReader : Input → Reader
  | .reader r => r
  | .text s => splitLines s

/-- `parse(input, opt)`: what it returns or throws, and the state in which the reader is
left. -/
def parse {V E : Type} (input : Input) (opt : ParseOptions V E) :
    Except ParseFailure (List (Out V E)) × Reader :=
  match readMatrix input.toReader opt.toReadOptions with
  | (.error e, reader) => (.error (.csv e), reader)
  | (.ok r, reader) =>
    if truthyHeader opt.header then
      match headerBlock opt.header r with
      | .error x => (.error x, reader)
      | .ok (headers, r, i) => (mapRows headers opt.parse r i, reader)
    else
      match opt.parse with
      | some p => (.ok (r.map (fun e => .converted (p (.fields e)))), reader)
      | none => (.ok (r.map (fun e => .row (.fields e))), reader)

/-! ## Definitions used to state the properties -/

/-- The offsets at which the fields `fs` end, one after the other, in a record buffer that
holds `b` code units before them. -/
def fieldEnds (b : Nat) : List Str → List Nat
  | [] => []
  | f :: fs => (b + f.length) :: fieldEnds (b + f.length) fs

/-- The scanner state `s` with `b` put in front of its record buffer and `idx` in front of its
field offsets, the offsets of `s` being moved by the length of `b`. -/
def Scan.shift (b : Str) (idx : List Nat) (s : Scan) : Scan :=
  { s with recordBuffer := b ++ s.recordBuffer,
           fieldIndexes := idx ++ s.fieldIndexes.map (· + b.length) }

/-- The outcome of a pass, moved in the same way as `Scan.shift` moves a state. -/
def Step.shift (b : Str) (idx : List Nat) : Step → Step
  | .next s => .next (s.shift b idx)
  | .done recordBuffer fieldIndexes tp =>
    .done (b ++ recordBuffer) (idx ++ fieldIndexes.map (· + b.length)) tp
  | .fail e tp => .fail e tp

/-- `Reach s t`: the loops, started in `s`, come to `t` after a fixed number of passes. -/
def Reach (opt : ReadOptions) (comma : Str) (n : Nat) (s t : Scan) : Prop :=
  ∃ c, ∀ f, run opt comma n (f + c) s = run opt comma n f t

/-- The content of a field written between quotes: every quote character is doubled. -/
def escapeQuotes : Str → Str
  | [] => []
  | c :: t => if c = QUOTE then QUOTE :: QUOTE :: escapeQuotes t else c :: escapeQuotes t

/-- A field as it is written in quotes: a quote, the content with its quotes doubled, a quote. -/
def quoteField (s : Str) : Str := QUOTE :: escapeQuotes s ++ [QUOTE]

/-- The records that successive calls of `readRecord` yield, the empty ones included, up to the
call that returns `null`; the calls are numbered as `readMatrix` numbers them.  The first error
ends the sequence. -/
def readRecordsLoop (opt : ReadOptions) :
    Nat → Reader → Nat → Except CsvError (List (List Str)) × Reader
  | 0, reader, _ => (.error .outOfFuel, reader)
  | fuel + 1, reader, lineIndex =>
    match readRecord lineIndex reader opt with
    | (.error e, reader) => (.error e, reader)
    | (.ok none, reader) => (.ok [], reader)
    | (.ok (some lineResult), reader) =>
      match readRecordsLoop opt fuel reader (lineIndex + 1) with
      | (.error e, reader) => (.error e, reader)
      | (.ok rest, reader) => (.ok (lineResult :: rest), reader)

/-- The records that `readRecord` yields on a reader, read to its end. -/
def readRecords (reader : Reader) (opt : ReadOptions) :
    Except CsvError (List (List Str)) × Reader :=
  readRecordsLoop opt (reader.length + 1) reader 0

/-- The field-count error that `readMatrix` raises at the record numbered `lineIndex`. -/
def fieldCountError (lineIndex : Nat) : CsvError :=
  .parseError ⟨lineIndex, lineIndex, none, .ERR_FIELD_COUNT⟩

/-- The body of the loop of `readMatrix` on a list of records already read: what it collects,
or the field-count error it raises. -/
def checkCounts (opt : ReadOptions) :
    List (List Str) → List (List Str) → Option Nat → Bool → Nat →
      Except CsvError (List (List Str))
  | [], result, _, _, _ => .ok result
  | r :: rs, result, nbFields, first, lineIndex =>
    if r.length > 0 then
      if wrongCount (nbFieldsAfter opt first nbFields r) r then
        .error (fieldCountError (lineIndex + 1))
      else
        checkCounts opt rs (result ++ [r]) (nbFieldsAfter opt first nbFields r) false
          (lineIndex + 1)
    else
      checkCounts opt rs result (nbFieldsAfter opt first nbFields r) false (lineIndex + 1)

/-- The outcome of a pass leaves at most `k` lines in the reader and, when it is an error, is
one of the two quote errors. -/
def Step.within (k : Nat) : Step → Prop
  | .next s => s.tp.length ≤ k
  | .done _ _ tp => tp.length ≤ k
  | .fail e tp => tp.length ≤ k ∧ (e.message = .ERR_BARE_QUOTE ∨ e.message = .ERR_QUOTE)

/-- A pass that leaves the loops without an error has recorded the end of a field. -/
def Step.pushed : Step → Prop
  | .done _ fieldIndexes _ => fieldIndexes ≠ []
  | _ => True

/-- A record written out: every field in quotes with its quotes doubled, and the delimiter
between the fields. -/
def serializeRecord (comma : Str) (r : List Str) : Str :=
  comma.intercalate (r.map quoteField)

/-- Records written out, with a line feed between them. -/
def serialize (comma : Str) (records : List (List Str)) : Str :=
  [LF].intercalate (records.map (serializeRecord comma))

/-- The text that a line buffer and the lines left in the reader stand for. -/
def spell : Str → Reader → Str
  | line, [] => line
  | line, r :: tp => line ++ LF :: spell r tp

/-- Every line left in the reader is handed out by `readLine` as it is. -/
def Verbatim : Reader → Prop
  | [] => True
  | r :: tp => readLine (r :: tp) = (some r, tp) ∧ Verbatim tp

/-- The line buffer and the lines left in the reader hold no line feed, and `readLine` hands
the lines out as they are. -/
def Lines (line : Str) (tp : Reader) : Prop :=
  LF ∉ line ∧ (∀ l ∈ tp, LF ∉ l) ∧ Verbatim tp

/-- The reader `tp` holds what the text `more` holds after the end of a record: nothing, or a
line feed and the lines that follow it. -/
def EndsAt (tp : Reader) (more : Str) : Prop :=
  (more = [] ∧ tp = []) ∨
    ∃ r t, tp = r :: t ∧ more = LF :: spell r t ∧ Lines r t ∧ readLine (r :: t) = (some r, t)

/-- No carriage return of the string is followed at once by a line feed. -/
abbrev NoCRLF (s : Str) : Prop := s.Chain' (fun a b => ¬ (a = CR ∧ b = LF))

/-- A text that begins and ends with a quote and has no carriage return right before a line
feed, as every field, record and list of records written out has. -/
def Quoted (s : Str) : Prop :=
  s.head? = some QUOTE ∧ s.getLast? = some QUOTE ∧ NoCRLF s

/-- The lines of a reader as successive calls of `readLine` hand them out. -/
def handedOut : Reader → List Str
  | [] => []
  | r :: tp => foldCRLF (dropFinalCR (isEOF tp) r) :: handedOut tp

/-- Each of the lines `pre` at the head of the reader `pre ++ rest` is read by one call of
`readRecord`, the calls being numbered from `li` on, and gives one record, the empty one for
a line that is skipped; `rs` are these records. -/
def RecordPerLine (opt : ReadOptions) : Nat → List Str → Reader → List (List Str) → Prop
  | _, [], _, rs => rs = []
  | li, l :: pre, rest, rs =>
    ∃ r rs1, rs = r :: rs1 ∧
      readRecord li (l :: (pre ++ rest)) opt = (.ok (some r), pre ++ rest) ∧
      RecordPerLine opt (li + 1) pre rest rs1

/-! ## Basic facts about the string functions and the reader -/

theorem startsWith_iff (s p : Str) : startsWith s p = true ↔ p <+: s := by
  simp [startsWith]

theorem startsWith_quote_cons (c : CodeUnit) (t : Str) :
    startsWith (c :: t) [QUOTE] = decide (c = QUOTE) := by
  by_cases h : c = QUOTE
  · subst h; simp [startsWith]
  · have h2 : ¬ (QUOTE = c) := fun h2 => h h2.symm
    simp [startsWith, List.isPrefixOf, h, h2]

theorem startsWith_nil_quote : startsWith [] [QUOTE] = false := by
  simp [startsWith]

theorem indexOf_bound (s p : Str) (i : Nat) (h : indexOf s p = some i) :
    i + p.length ≤ s.length := by
  induction s generalizing i with
  | nil =>
    simp only [indexOf] at h
    split at h
    · rename_i hp
      have := (startsWith_iff _ _).1 hp
      simp at h; subst h
      have hp2 : p = [] := by simpa using this
      subst hp2; simp
    · simp at h
  | cons c t ih =>
    simp only [indexOf] at h
    split at h
    · rename_i hp
      have hp1 := (startsWith_iff _ _).1 hp
      simp at h; subst h
      have := hp1.length_le
      simpa using this
    · cases hq : indexOf t p with
      | none => simp [hq] at h
      | some j =>
        simp [hq] at h; subst h
        have h2 := ih j hq
        simp; omega

theorem trimLeft_length_le (s : Str) : (trimLeft s).length ≤ s.length := by
  unfold trimLeft
  exact (List.dropWhile_sublist _).length_le

theorem trimmed_length_le (opt : ReadOptions) (s : Str) : (trimmed opt s).length ≤ s.length := by
  unfold trimmed
  split
  · exact trimLeft_length_le s
  · exact le_refl _

theorem readLine_nil : readLine [] = (none, []) := rfl

theorem dropFinalCR_length_le (b : Bool) (l : Str) : (dropFinalCR b l).length ≤ l.length := by
  unfold dropFinalCR
  split
  · simp
  · exact le_refl _

theorem foldCRLF_length_le (l : Str) : (foldCRLF l).length ≤ l.length := by
  unfold foldCRLF
  split
  · rename_i h
    simp at h
    simp; omega
  · exact le_refl _

theorem readLine_cons_eq (r0 : Str) (tp : Reader) :
    readLine (r0 :: tp) = (some (foldCRLF (dropFinalCR (isEOF tp) r0)), tp) := rfl

theorem readLine_some (tp tp1 : Reader) (r : Str) (h : readLine tp = (some r, tp1)) :
    ∃ r0, tp = r0 :: tp1 ∧ r.length ≤ r0.length := by
  cases tp with
  | nil => simp [readLine, tpReadLine] at h
  | cons r0 t =>
    rw [readLine_cons_eq] at h
    simp only [Prod.mk.injEq, Option.some.injEq] at h
    obtain ⟨h1, h2⟩ := h
    subst h2
    refine ⟨r0, rfl, ?_⟩
    subst h1
    exact le_trans (foldCRLF_length_le _) (dropFinalCR_length_le _ _)

theorem readLine_cons (r0 : Str) (tp : Reader) :
    ∃ r, readLine (r0 :: tp) = (some r, tp) ∧ r.length ≤ r0.length := by
  cases h : readLine (r0 :: tp) with
  | mk a b =>
    cases a with
    | none => simp [readLine, tpReadLine] at h
    | some r =>
      obtain ⟨r1, h1, h2⟩ := readLine_some _ _ _ h
      simp at h1
      obtain ⟨h3, h4⟩ := h1
      subst h3; subst h4
      exact ⟨r, rfl, h2⟩

/-! ### The cases of one pass -/

theorem stepField_quote (opt : ReadOptions) (comma : Str) (n : Nat) (s : Scan)
    (h : startsWith (trimmed opt s.line) [QUOTE] = true) :
    stepField opt comma n s =
      .next { s with mode := .quoted, line := (trimmed opt s.line).drop 1 } := by
  have hne : (trimmed opt s.line).length ≠ 0 := by
    intro h0
    have : trimmed opt s.line = [] := List.length_eq_zero.1 h0
    rw [this] at h
    simp [startsWith] at h
  simp [stepField, h, hne]

theorem stepField_bare (opt : ReadOptions) (comma : Str) (n : Nat) (s : Scan) (j : Nat)
    (h : startsWith (trimmed opt s.line) [QUOTE] = false)
    (hb : bareQuote opt (fieldUpTo (trimmed opt s.line) (indexOf (trimmed opt s.line) comma)) = some j) :
    stepField opt comma n s =
      .fail ⟨n + 1, s.lineIndex,
        some (runeCount (sliceTo s.fullLine
          ((s.fullLine.length : Int) - (((trimmed opt s.line).drop j).length : Int)))),
        .ERR_BARE_QUOTE⟩ s.tp := by
  simp [stepField, h, hb]

theorem stepField_sep (opt : ReadOptions) (comma : Str) (n : Nat) (s : Scan) (i : Nat)
    (h : startsWith (trimmed opt s.line) [QUOTE] = false)
    (hi : indexOf (trimmed opt s.line) comma = some i)
    (hb : bareQuote opt ((trimmed opt s.line).take i) = none) :
    stepField opt comma n s =
      .next { s with line := (trimmed opt s.line).drop (i + comma.length),
                     recordBuffer := s.recordBuffer ++ (trimmed opt s.line).take i,
                     fieldIndexes := s.fieldIndexes ++
                       [(s.recordBuffer ++ (trimmed opt s.line).take i).length] } := by
  simp [stepField, h, hi, fieldUpTo, hb]

theorem stepField_last (opt : ReadOptions) (comma : Str) (n : Nat) (s : Scan)
    (h : startsWith (trimmed opt s.line) [QUOTE] = false)
    (hi : indexOf (trimmed opt s.line) comma = none)
    (hb : bareQuote opt (trimmed opt s.line) = none) :
    stepField opt comma n s =
      .done (s.recordBuffer ++ trimmed opt s.line)
        (s.fieldIndexes ++ [(s.recordBuffer ++ trimmed opt s.line).length]) s.tp := by
  simp [stepField, h, hi, fieldUpTo, hb]

theorem stepQuoted_escaped (opt : ReadOptions) (comma : Str) (n : Nat) (s : Scan) (i : Nat)
    (hi : indexOf s.line [QUOTE] = some i)
    (h : startsWith (s.line.drop (i + 1)) [QUOTE] = true) :
    stepQuoted opt comma n s =
      .next { s with line := (s.line.drop (i + 1)).drop 1,
                     recordBuffer := s.recordBuffer ++ s.line.take i ++ [QUOTE] } := by
  simp [stepQuoted, hi, h]

theorem stepQuoted_sep (opt : ReadOptions) (comma : Str) (n : Nat) (s : Scan) (i : Nat)
    (hi : indexOf s.line [QUOTE] = some i)
    (h : startsWith (s.line.drop (i + 1)) [QUOTE] = false)
    (hc : startsWith (s.line.drop (i + 1)) comma = true) :
    stepQuoted opt comma n s =
      .next { s with mode := .parseField, line := (s.line.drop (i + 1)).drop comma.length,
                     recordBuffer := s.recordBuffer ++ s.line.take i,
                     fieldIndexes := s.fieldIndexes ++
                       [(s.recordBuffer ++ s.line.take i).length] } := by
  simp [stepQuoted, hi, h, hc]

theorem stepQuoted_close (opt : ReadOptions) (comma : Str) (n : Nat) (s : Scan) (i : Nat)
    (hi : indexOf s.line [QUOTE] = some i)
    (hc : startsWith [] comma = false)
    (hl : s.line.drop (i + 1) = []) :
    stepQuoted opt comma n s =
      .done (s.recordBuffer ++ s.line.take i)
        (s.fieldIndexes ++ [(s.recordBuffer ++ s.line.take i).length]) s.tp := by
  simp [stepQuoted, hi, hl, hc, startsWith_nil_quote]

theorem stepQuoted_stray (opt : ReadOptions) (comma : Str) (n : Nat) (s : Scan) (i : Nat)
    (hi : indexOf s.line [QUOTE] = some i)
    (h : startsWith (s.line.drop (i + 1)) [QUOTE] = false)
    (hc : startsWith (s.line.drop (i + 1)) comma = false)
    (hl : s.line.drop (i + 1) ≠ []) :
    stepQuoted opt comma n s =
      if truthyBool opt.lazyQuotes then
        .next { s with line := s.line.drop (i + 1),
                       recordBuffer := s.recordBuffer ++ s.line.take i ++ [QUOTE] }
      else
        .fail ⟨n + 1, s.lineIndex,
          some (runeCount (sliceTo s.fullLine
            ((s.fullLine.length : Int) - ((s.line.drop (i + 1)).length : Int) - 1))),
          .ERR_QUOTE⟩ s.tp := by
  have h2 : ¬ (s.line.length ≤ i + 1) := by
    intro h1
    exact hl (List.drop_eq_nil_of_le h1)
  have h3 : ¬ (s.line.length - (i + 1) = 0) := by omega
  simp [stepQuoted, hi, h, hc, h3]

theorem stepQuoted_nextLine (opt : ReadOptions) (comma : Str) (n : Nat) (s : Scan)
    (r : Str) (tp1 : Reader)
    (hi : indexOf s.line [QUOTE] = none)
    (hr : readLine s.tp = (some r, tp1)) :
    stepQuoted opt comma n s =
      .next { s with line := r, fullLine := r, lineIndex := s.lineIndex + 1,
                     recordBuffer := s.recordBuffer ++ s.line ++ [LF], tp := tp1 } := by
  have : isEOF s.tp = false := by
    obtain ⟨r0, h1, _⟩ := readLine_some _ _ _ hr
    simp [isEOF, h1]
  simp [stepQuoted, hi, hr, this]

theorem stepQuoted_eof (opt : ReadOptions) (comma : Str) (n : Nat) (s : Scan)
    (hi : indexOf s.line [QUOTE] = none)
    (hr : s.tp = []) :
    stepQuoted opt comma n s =
      if truthyBool opt.lazyQuotes then
        .done (s.recordBuffer ++ s.line)
          (s.fieldIndexes ++ [(s.recordBuffer ++ s.line).length]) []
      else if s.line = [] then
        .fail ⟨n + 1, s.lineIndex, some (runeCount s.fullLine), .ERR_QUOTE⟩ []
      else
        .fail ⟨n + 1, s.lineIndex + 1, some 0, .ERR_QUOTE⟩ [] := by
  unfold stepQuoted
  rw [hi]
  by_cases hl : s.line = []
  · by_cases hz : truthyBool opt.lazyQuotes = true <;>
      simp [hr, hl, isEOF, hz, readLine_nil, runeCount]
  · have : 0 < s.line.length := List.length_pos.2 hl
    by_cases hz : truthyBool opt.lazyQuotes = true <;>
      simp [hr, hl, isEOF, hz, readLine_nil, runeCount, this]

/-! ### Termination of the loops -/

theorem scanSize_cons (line r : Str) (tp : Reader) :
    scanSize line (r :: tp) = line.length + (r.length + 1) + scanSize [] tp := by
  simp [scanSize]; omega

theorem scanSize_nil (line : Str) (tp : Reader) :
    scanSize line tp = line.length + scanSize [] tp := by
  simp [scanSize]

theorem startsWith_length (s p : Str) (h : startsWith s p = true) : p.length ≤ s.length :=
  ((startsWith_iff s p).1 h).length_le

/-- Every pass that goes on leaves strictly less to scan, provided the delimiter is not empty. -/
theorem step_decreases (opt : ReadOptions) (comma : Str) (n : Nat) (s s1 : Scan)
    (hc : comma ≠ []) (h : step opt comma n s = .next s1) :
    scanSize s1.line s1.tp < scanSize s.line s.tp := by
  have hcl : 0 < comma.length := List.length_pos.2 hc
  cases hm : s.mode with
  | parseField =>
    simp only [step, hm] at h
    have htl := trimmed_length_le opt s.line
    cases hq : startsWith (trimmed opt s.line) [QUOTE] with
    | true =>
      rw [stepField_quote _ _ _ _ hq] at h
      have := startsWith_length _ _ hq
      simp only [List.length_singleton] at this
      simp only [Step.next.injEq] at h
      subst h
      rw [scanSize_nil, scanSize_nil s.line]
      simp only [List.length_drop]; omega
    | false =>
      cases hb : bareQuote opt (fieldUpTo (trimmed opt s.line) (indexOf (trimmed opt s.line) comma)) with
      | some j => rw [stepField_bare _ _ _ _ _ hq hb] at h; simp at h
      | none =>
        cases hi : indexOf (trimmed opt s.line) comma with
        | none =>
          rw [hi] at hb
          rw [stepField_last _ _ _ _ hq hi hb] at h; simp at h
        | some i =>
          rw [hi] at hb
          rw [stepField_sep _ _ _ _ _ hq hi hb] at h
          have := indexOf_bound _ _ _ hi
          simp only [Step.next.injEq] at h
          subst h
          rw [scanSize_nil, scanSize_nil s.line]
          simp only [List.length_drop]; omega
  | quoted =>
    simp only [step, hm] at h
    cases hi : indexOf s.line [QUOTE] with
    | some i =>
      have hb := indexOf_bound _ _ _ hi
      simp only [List.length_singleton] at hb
      cases hq : startsWith (s.line.drop (i + 1)) [QUOTE] with
      | true =>
        rw [stepQuoted_escaped _ _ _ _ _ hi hq] at h
        simp only [Step.next.injEq] at h
        subst h
        rw [scanSize_nil, scanSize_nil s.line]
        simp only [List.length_drop]; omega
      | false =>
        cases hs : startsWith (s.line.drop (i + 1)) comma with
        | true =>
          rw [stepQuoted_sep _ _ _ _ _ hi hq hs] at h
          simp only [Step.next.injEq] at h
          subst h
          rw [scanSize_nil, scanSize_nil s.line]
          simp only [List.length_drop]; omega
        | false =>
          by_cases hl : s.line.drop (i + 1) = []
          · rw [hl] at hs
            rw [stepQuoted_close _ _ _ _ _ hi hs hl] at h; simp at h
          · rw [stepQuoted_stray _ _ _ _ _ hi hq hs hl] at h
            split at h
            · simp only [Step.next.injEq] at h
              subst h
              rw [scanSize_nil, scanSize_nil s.line]
              simp only [List.length_drop]; omega
            · simp at h
    | none =>
      cases htp : s.tp with
      | nil =>
        rw [stepQuoted_eof _ _ _ _ hi htp] at h
        split at h
        · simp at h
        · split at h <;> simp at h
      | cons r0 tp1 =>
        have hr := readLine_cons_eq r0 tp1
        rw [← htp] at hr
        rw [stepQuoted_nextLine _ _ _ _ _ _ hi hr] at h
        simp only [Step.next.injEq] at h
        subst h
        simp only
        rw [scanSize_cons, scanSize_nil (foldCRLF _)]
        have := le_trans (foldCRLF_length_le (dropFinalCR (isEOF tp1) r0)) (dropFinalCR_length_le _ _)
        omega

/-- More fuel does not change the outcome of a run that did not use up its fuel. -/
theorem run_mono (opt : ReadOptions) (comma : Str) (n : Nat) (f k : Nat) (s : Scan)
    (h : (run opt comma n f s).1 ≠ .error .outOfFuel) :
    run opt comma n (f + k) s = run opt comma n f s := by
  induction f generalizing s with
  | zero => simp [run] at h
  | succ f ih =>
    have : f + 1 + k = (f + k) + 1 := by omega
    rw [this]
    simp only [run] at h ⊢
    cases hs : step opt comma n s with
    | next s1 =>
      rw [hs] at h
      simp only at h ⊢
      exact ih s1 h
    | done b i tp => rfl
    | fail e tp => rfl

/-- With a non-empty delimiter, fuel beyond the size of what is left to scan is never used up:
the loops of `readRecord` terminate. -/
theorem run_terminates (opt : ReadOptions) (comma : Str) (n : Nat) (hc : comma ≠ []) (f : Nat)
    (s : Scan) (h : scanSize s.line s.tp < f) :
    (run opt comma n f s).1 ≠ .error .outOfFuel := by
  induction f generalizing s with
  | zero => omega
  | succ f ih =>
    simp only [run]
    cases hs : step opt comma n s with
    | next s1 =>
      simp only
      apply ih
      have := step_decreases opt comma n s s1 hc hs
      omega
    | done b i tp => simp
    | fail e tp => simp

/-- A run that ends within some amount of fuel ends in the same way with the fuel that
`readRecord` provides. -/
theorem run_eq_of_run (opt : ReadOptions) (comma : Str) (n : Nat) (hc : comma ≠ []) (f g : Nat)
    (s : Scan) (h : (run opt comma n f s).1 ≠ .error .outOfFuel)
    (hg : scanSize s.line s.tp < g) :
    run opt comma n g s = run opt comma n f s := by
  have hg1 := run_terminates opt comma n hc g s hg
  rcases Nat.le_total f g with hfg | hfg
  · obtain ⟨k, rfl⟩ := Nat.exists_eq_add_of_le hfg
    exact run_mono opt comma n f k s h
  · obtain ⟨k, rfl⟩ := Nat.exists_eq_add_of_le hfg
    exact (run_mono opt comma n g k s hg1).symm

theorem foldCRLF_of_not_mem (l : Str) (h : LF ∉ l) : foldCRLF l = l := by
  unfold foldCRLF
  split
  · rename_i hc
    simp only [ge_iff_le, Bool.and_eq_true, decide_eq_true_eq, beq_iff_eq] at hc
    obtain ⟨⟨_, _⟩, h3⟩ := hc
    exact absurd (List.get?_mem h3) h
  · rfl

theorem dropFinalCR_false (l : Str) : dropFinalCR false l = l := by
  simp [dropFinalCR]

theorem not_mem_dropFinalCR (b : Bool) (l : Str) (c : CodeUnit) (h : c ∉ l) :
    c ∉ dropFinalCR b l := by
  unfold dropFinalCR
  split
  · intro hc; exact h (List.mem_of_mem_take hc)
  · exact h

theorem readRecord_nil (n : Nat) (opt : ReadOptions) : readRecord n [] opt = (.ok none, []) := rfl

theorem finishRecord_ne_null (r : ScanResult) : (finishRecord r).1 ≠ .ok none := by
  obtain ⟨a, tp⟩ := r
  cases a with
  | error e => simp [finishRecord]
  | ok v => obtain ⟨b, i⟩ := v; simp [finishRecord]

theorem finishRecord_error (r : ScanResult) (e : CsvError) (tp : Reader)
    (h : finishRecord r = (.error e, tp)) : r = (.error e, tp) := by
  obtain ⟨a, tp1⟩ := r
  cases a with
  | error e1 => simpa [finishRecord] using h
  | ok v => obtain ⟨b, i⟩ := v; simp [finishRecord] at h

theorem readRecord_cons_ne_null (opt : ReadOptions) (startLine : Nat) (r : Str) (tp : Reader) :
    (readRecord startLine (r :: tp) opt).1 ≠ .ok none := by
  unfold readRecord
  rw [readLine_cons_eq]
  simp only
  split
  · simp
  · split
    · simp
    · split
      · simp
      · exact finishRecord_ne_null _

theorem readRecord_blank (n : Nat) (opt : ReadOptions) (tp : Reader) :
    readRecord n ([] :: tp) opt = (.ok (some []), tp) := by
  unfold readRecord
  rw [readLine_cons_eq]
  simp [dropFinalCR, foldCRLF]

theorem readRecord_comment (n : Nat) (opt : ReadOptions) (tp : Reader) (c : CodeUnit) (rest : Str)
    (hc : opt.comment = some [c]) (hl : LF ∉ c :: rest) :
    readRecord n ((c :: rest) :: tp) opt = (.ok (some []), tp) := by
  unfold readRecord
  rw [readLine_cons_eq, foldCRLF_of_not_mem _ (not_mem_dropFinalCR _ _ _ hl)]
  simp only
  split
  · rfl
  · rename_i hne
    have h2 : ∃ rest1, dropFinalCR (isEOF tp) (c :: rest) = c :: rest1 := by
      unfold dropFinalCR at hne ⊢
      split
      · rename_i h3
        rw [if_pos h3] at hne
        cases rest with
        | nil => simp at hne
        | cons d u => exact ⟨List.take u.length (d :: u), by simp⟩
      · exact ⟨rest, rfl⟩
    obtain ⟨rest1, h3⟩ := h2
    rw [h3]
    simp [isCommentLine, hc, truthyStr]

/-- C4. `readRecord` returns `null` exactly when no physical line is left, and then leaves the
reader as it is; it returns the empty field list, consuming exactly one physical line and
raising no error, when the next line is empty and when the next line begins with the
configured comment character, whatever follows that character on the line. -/
theorem readRecord_null_and_empty (startLine : Nat) (opt : ReadOptions) (tp : Reader) :
    readRecord startLine [] opt = (.ok none, []) ∧
    (∀ l, (readRecord startLine (l :: tp) opt).1 ≠ .ok none) ∧
    readRecord startLine ([] :: tp) opt = (.ok (some []), tp) ∧
    (∀ c rest, opt.comment = some [c] → LF ∉ c :: rest →
      readRecord startLine ((c :: rest) :: tp) opt = (.ok (some []), tp)) :=
  ⟨readRecord_nil startLine opt, fun l => readRecord_cons_ne_null opt startLine l tp,
    readRecord_blank startLine opt tp,
    fun c rest hc hl => readRecord_comment startLine opt tp c rest hc hl⟩

/-- C4 at the comment line `#x"` followed by the line `a`: the quote on the comment line raises
no error and the line `a` is left in the reader. -/
theorem readRecord_null_and_empty_witness :
    readRecord 0 [[35, 120, 34], [97]] ⟨some [44], some [35], none, none, none⟩ =
      (.ok (some []), [[97]]) :=
  (readRecord_null_and_empty 0 ⟨some [44], some [35], none, none, none⟩ [[97]]).2.2.2
    35 [120, 34] rfl (by decide)

/-! ### Which errors the loops can raise -/

theorem run_error_ne (opt : ReadOptions) (comma : Str) (n f : Nat) (s : Scan) (m : Message)
    (e : CsvError) (tp : Reader) (h : run opt comma n f s = (.error e, tp)) :
    e ≠ .error m := by
  induction f generalizing s with
  | zero => simp only [run, Prod.mk.injEq, Except.error.injEq] at h; rw [← h.1]; simp
  | succ f ih =>
    simp only [run] at h
    cases hs : step opt comma n s with
    | next s1 => rw [hs] at h; exact ih s1 h
    | done b i tp => rw [hs] at h; simp at h
    | fail e tp =>
      rw [hs] at h
      simp only [Prod.mk.injEq, Except.error.injEq] at h
      rw [← h.1]; simp

theorem readRecord_error_ne (n : Nat) (reader : Reader) (opt : ReadOptions) (m : Message)
    (e : CsvError) (tp : Reader) (h : readRecord n reader opt = (.error e, tp)) :
    e ≠ .error m := by
  unfold readRecord at h
  split at h
  · simp at h
  · split at h
    · simp at h
    · split at h
      · simp at h
      · split at h
        · simp only [Prod.mk.injEq, Except.error.injEq] at h
          rw [← h.1]; simp
        · rename_i comma _
          exact run_error_ne opt comma n _ _ m e tp (finishRecord_error _ _ _ h)

theorem readMatrixLoop_error_ne (opt : ReadOptions) (f : Nat) (reader : Reader)
    (result : List (List Str)) (nb : Option Nat) (first : Bool) (li : Nat) (m : Message) :
    (readMatrixLoop opt f reader result nb first li).1 ≠ .error (.error m) := by
  induction f generalizing reader result nb first li with
  | zero => simp [readMatrixLoop]
  | succ f ih =>
    simp only [readMatrixLoop]
    split
    · rename_i e tp1 h
      have := readRecord_error_ne li reader opt m e tp1 h
      simpa using this
    · simp
    · split
      · split
        · simp
        · exact ih _ _ _ _ _
      · exact ih _ _ _ _ _

theorem defaultComma_eq (opt : ReadOptions) :
    defaultComma opt =
      { opt with comma := some (if truthyStr opt.comma then opt.comma.getD [] else [COMMA]) } := by
  obtain ⟨comma, comment, trim, lazy, fpr⟩ := opt
  cases comma with
  | none => simp [defaultComma, truthyStr]
  | some c =>
    cases c with
    | nil => simp [defaultComma, truthyStr]
    | cons a l => simp [defaultComma, truthyStr]

theorem defaultTrim_eq (opt : ReadOptions) :
    defaultTrim opt = { opt with trimLeadingSpace := some (truthyBool opt.trimLeadingSpace) } := by
  obtain ⟨comma, comment, trim, lazy, fpr⟩ := opt
  cases trim with
  | none => simp [defaultTrim, truthyBool]
  | some b => cases b <;> simp [defaultTrim, truthyBool]

theorem isInvalidRune_iff (c : Option Str) :
    isInvalidRune c = true ↔ c = some [CR] ∨ c = some [LF] ∨ c = some [QUOTE] := by
  cases c with
  | none => simp [isInvalidRune]
  | some c => simp [isInvalidRune, INVALID_RUNE]

/-- C6. `chkOptions` writes the two defaults (`","` for an absent or empty delimiter, `false`
for an absent `trimLeadingSpace`) and throws the invalid-delimiter error exactly when the
delimiter is one of carriage return, line feed and quote, or the comment character is one of
these, or the two are equal; `readMatrix` then fails with that error and leaves the reader
untouched, whatever it holds.  Otherwise `chkOptions` returns the options with the two defaults
and nothing else changed, and `readMatrix` does not fail with the invalid-delimiter error. -/
theorem chkOptions_validation (opt : ReadOptions) (reader : Reader) :
    let d : Str := if truthyStr opt.comma then opt.comma.getD [] else [COMMA]
    let t : Bool := truthyBool opt.trimLeadingSpace
    let invalid : Prop :=
      (d = [CR] ∨ d = [LF] ∨ d = [QUOTE]) ∨
      (opt.comment = some [CR] ∨ opt.comment = some [LF] ∨ opt.comment = some [QUOTE]) ∨
      opt.comment = some d
    (invalid →
      chkOptions opt = .error (.error .ERR_INVALID_DELIM) ∧
      readMatrix reader opt = (.error (.error .ERR_INVALID_DELIM), reader)) ∧
    (¬ invalid →
      chkOptions opt = .ok { opt with comma := some d, trimLeadingSpace := some t } ∧
      (readMatrix reader opt).1 ≠ .error (.error .ERR_INVALID_DELIM)) := by
  intro d t invalid
  have hopt : defaultTrim (defaultComma opt) =
      { opt with comma := some d, trimLeadingSpace := some t } := by
    rw [defaultTrim_eq, defaultComma_eq]
  have hinv : (isInvalidRune (some d) || isInvalidRune opt.comment || some d == opt.comment) = true
      ↔ invalid := by
    simp only [Bool.or_eq_true, isInvalidRune_iff, beq_iff_eq, Option.some.injEq, invalid]
    constructor
    · rintro ((h | h) | h)
      · exact Or.inl h
      · exact Or.inr (Or.inl h)
      · exact Or.inr (Or.inr h.symm)
    · rintro (h | h | h)
      · exact Or.inl (Or.inl h)
      · exact Or.inl (Or.inr h)
      · exact Or.inr h.symm
  have key : chkOptions opt =
      if (isInvalidRune (some d) || isInvalidRune opt.comment || some d == opt.comment) = true
      then .error (.error .ERR_INVALID_DELIM)
      else .ok { opt with comma := some d, trimLeadingSpace := some t } := by
    unfold chkOptions
    simp only [hopt]
  constructor
  · intro h
    rw [if_pos (hinv.2 h)] at key
    exact ⟨key, by simp [readMatrix, key]⟩
  · intro h
    rw [if_neg (fun h2 => h (hinv.1 h2))] at key
    refine ⟨key, ?_⟩
    simp only [readMatrix, key]
    exact readMatrixLoop_error_ne _ _ _ _ _ _ _ _

/-- C6 at the delimiter `"` with the input line `a`, where the call fails before the line is
read, and at the delimiter `;` with the comment character `#`, where validation succeeds. -/
theorem chkOptions_validation_witness :
    (chkOptions ⟨some [QUOTE], none, none, none, none⟩ = .error (.error .ERR_INVALID_DELIM) ∧
      readMatrix [[97]] ⟨some [QUOTE], none, none, none, none⟩ =
        (.error (.error .ERR_INVALID_DELIM), [[97]])) ∧
    (chkOptions ⟨some [59], some [35], none, none, none⟩ =
        .ok ⟨some [59], some [35], some false, none, none⟩ ∧
      (readMatrix [[97]] ⟨some [59], some [35], none, none, none⟩).1 ≠
        .error (.error .ERR_INVALID_DELIM)) :=
  ⟨(chkOptions_validation ⟨some [QUOTE], none, none, none, none⟩ [[97]]).1
      (Or.inl (Or.inr (Or.inr rfl))),
    (chkOptions_validation ⟨some [59], some [35], none, none, none⟩ [[97]]).2 (by decide)⟩

/-! ### The record buffer and the field offsets -/

theorem sliceFields_fieldEnds (pre : Str) (fs : List Str) (post : Str) :
    sliceFields (pre ++ fs.flatten ++ post) pre.length (fieldEnds pre.length fs) = fs := by
  induction fs generalizing pre with
  | nil => simp [sliceFields, fieldEnds]
  | cons f fs ih =>
    simp only [fieldEnds, sliceFields, List.flatten_cons]
    have h1 : slice (pre ++ (f ++ fs.flatten) ++ post) pre.length (pre.length + f.length) = f := by
      unfold slice
      have : pre ++ (f ++ fs.flatten) ++ post = (pre ++ f) ++ (fs.flatten ++ post) := by simp
      rw [this, List.take_left' (by simp), List.drop_left' rfl]
    rw [h1]
    have h2 := ih (pre ++ f)
    simp only [List.length_append, List.append_assoc] at h2 ⊢
    rw [h2]

theorem sliceFields_shift (b buf : Str) (p : Nat) (idx : List Nat) :
    sliceFields (b ++ buf) (p + b.length) (idx.map (· + b.length)) = sliceFields buf p idx := by
  induction idx generalizing p with
  | nil => simp [sliceFields]
  | cons i idx ih =>
    simp only [List.map_cons, sliceFields]
    rw [ih i]
    congr 1
    unfold slice
    rw [Nat.add_comm i, Nat.add_comm p, List.take_append, List.drop_append]

theorem fieldEnds_append (b : Nat) (fs gs : List Str) :
    fieldEnds b (fs ++ gs) = fieldEnds b fs ++ fieldEnds (b + fs.flatten.length) gs := by
  induction fs generalizing b with
  | nil => simp [fieldEnds]
  | cons f fs ih =>
    have h := ih (b + f.length)
    simp only [List.cons_append, fieldEnds, List.flatten_cons, List.length_append, List.cons.injEq,
      true_and]
    rw [Nat.add_assoc] at h
    exact h

/-! ### The passes do not look at the record buffer -/

theorem step_shift (opt : ReadOptions) (comma : Str) (n : Nat) (b : Str) (idx : List Nat)
    (s : Scan) :
    step opt comma n (s.shift b idx) = (step opt comma n s).shift b idx := by
  obtain ⟨mode, line, fullLine, lineIndex, rb, fi, tp⟩ := s
  cases mode with
  | parseField =>
    simp only [step, Scan.shift, stepField]
    split
    · split
      · simp [Step.shift]
      · split <;> simp [Step.shift, Scan.shift, Nat.add_assoc, Nat.add_comm]
    · simp [Step.shift, Scan.shift]
  | quoted =>
    simp only [step, Scan.shift, stepQuoted]
    split
    · split
      · simp [Step.shift, Scan.shift]
      · split
        · simp [Step.shift, Scan.shift, Nat.add_assoc, Nat.add_comm]
        · split
          · simp [Step.shift, Scan.shift, Nat.add_assoc, Nat.add_comm]
          · split <;> simp [Step.shift, Scan.shift]
    · split
      · split
        · split <;> simp [Step.shift, Scan.shift, Nat.add_assoc, Nat.add_comm]
        · simp [Step.shift, Scan.shift]
      · split <;> simp [Step.shift, Scan.shift, Nat.add_assoc, Nat.add_comm]

/-- What `sliceFields` receives from a run, moved like `Scan.shift`. -/
theorem run_shift (opt : ReadOptions) (comma : Str) (n : Nat) (b : Str) (idx : List Nat)
    (f : Nat) (s : Scan) :
    run opt comma n f (s.shift b idx) =
      match run opt comma n f s with
      | (.ok (rb, fi), tp) => (.ok (b ++ rb, idx ++ fi.map (· + b.length)), tp)
      | (.error e, tp) => (.error e, tp) := by
  induction f generalizing s with
  | zero => simp [run, Scan.shift]
  | succ f ih =>
    simp only [run, step_shift]
    cases hs : step opt comma n s with
    | next s1 => simp only [Step.shift]; exact ih s1
    | done rb fi tp => simp [Step.shift]
    | fail e tp => simp [Step.shift]

/-! ### Runs that reach a state -/


theorem Reach.refl (opt : ReadOptions) (comma : Str) (n : Nat) (s : Scan) :
    Reach opt comma n s s := ⟨0, fun _ => rfl⟩

theorem Reach.trans {opt : ReadOptions} {comma : Str} {n : Nat} {s t u : Scan}
    (h1 : Reach opt comma n s t) (h2 : Reach opt comma n t u) : Reach opt comma n s u := by
  obtain ⟨c1, h1⟩ := h1
  obtain ⟨c2, h2⟩ := h2
  refine ⟨c2 + c1, fun f => ?_⟩
  rw [← Nat.add_assoc, h1, h2]

theorem Reach.of_step {opt : ReadOptions} {comma : Str} {n : Nat} {s t : Scan}
    (h : step opt comma n s = .next t) : Reach opt comma n s t :=
  ⟨1, fun f => by simp only [run, h]⟩

/-- Two states with the same next pass and the same reader behave alike. -/
theorem Reach.of_step_eq {opt : ReadOptions} {comma : Str} {n : Nat} {s t : Scan}
    (h : step opt comma n s = step opt comma n t) (htp : s.tp = t.tp) :
    Reach opt comma n s t :=
  ⟨0, fun f => by
    cases f with
    | zero => simp [run, htp]
    | succ f => simp only [Nat.add_zero, run, h]⟩

/-- A run that reaches a state whose pass leaves the loops gives the record of that pass, with
the fuel that `readRecord` provides. -/
theorem run_of_reach_done {opt : ReadOptions} {comma : Str} {n : Nat} (hc : comma ≠ [])
    {s t : Scan} (h : Reach opt comma n s t) {b : Str} {i : List Nat} {tp : Reader}
    (hd : step opt comma n t = .done b i tp) (g : Nat) (hg : scanSize s.line s.tp < g) :
    run opt comma n g s = (.ok (b, i), tp) := by
  obtain ⟨c, h⟩ := h
  have h1 : run opt comma n (1 + c) s = (.ok (b, i), tp) := by
    rw [h 1]; simp only [run, hd]
  rw [run_eq_of_run opt comma n hc (1 + c) g s (by rw [h1]; simp) hg, h1]

theorem run_of_reach_fail {opt : ReadOptions} {comma : Str} {n : Nat} (hc : comma ≠ [])
    {s t : Scan} (h : Reach opt comma n s t) {e : ParseError} {tp : Reader}
    (hd : step opt comma n t = .fail e tp) (g : Nat) (hg : scanSize s.line s.tp < g) :
    run opt comma n g s = (.error (.parseError e), tp) := by
  obtain ⟨c, h⟩ := h
  have h1 : run opt comma n (1 + c) s = (.error (.parseError e), tp) := by
    rw [h 1]; simp only [run, hd]
  rw [run_eq_of_run opt comma n hc (1 + c) g s (by rw [h1]; simp) hg, h1]

/-- A run that reaches a state continues as the run from that state, each with the fuel that
`readRecord` provides for it. -/
theorem run_of_reach {opt : ReadOptions} {comma : Str} {n : Nat} (hc : comma ≠ [])
    {s t : Scan} (h : Reach opt comma n s t) (g k : Nat) (hg : scanSize s.line s.tp < g)
    (hk : scanSize t.line t.tp < k) :
    run opt comma n g s = run opt comma n k t := by
  obtain ⟨c, h⟩ := h
  have hk1 := run_terminates opt comma n hc k t hk
  have h1 : run opt comma n (k + c) s = run opt comma n k t := h k
  rw [run_eq_of_run opt comma n hc (k + c) g s (by rw [h1]; exact hk1) hg, h1]

/-- `readRecord` on a reader whose first line is a line of data. -/
theorem readRecord_data (n : Nat) (reader : Reader) (opt : ReadOptions) (line : Str)
    (tp : Reader) (comma : Str) (hr : readLine reader = (some line, tp)) (hne : line ≠ [])
    (hcm : isCommentLine opt line = false) (hc : opt.comma = some comma) :
    readRecord n reader opt =
      finishRecord (run opt comma n (scanSize line tp + 1)
        ⟨.parseField, line, line, n + 1, [], [], tp⟩) := by
  unfold readRecord
  rw [hr]
  have : ¬ (line.length = 0) := fun h => hne (List.length_eq_zero.1 h)
  simp [this, hcm, hc]

/-! ### Looking for a quote -/

theorem indexOf_nil_quote : indexOf [] [QUOTE] = none := by
  simp [indexOf, startsWith]

theorem indexOf_quote_cons_eq (l : Str) : indexOf (QUOTE :: l) [QUOTE] = some 0 := by
  simp [indexOf, startsWith]

theorem indexOf_quote_cons_ne (c : CodeUnit) (l : Str) (h : c ≠ QUOTE) :
    indexOf (c :: l) [QUOTE] = (indexOf l [QUOTE]).map (· + 1) := by
  simp [indexOf, startsWith_quote_cons, h]

theorem indexOf_quote_eq_none (l : Str) (h : QUOTE ∉ l) : indexOf l [QUOTE] = none := by
  induction l with
  | nil => exact indexOf_nil_quote
  | cons c t ih =>
    have h1 : c ≠ QUOTE := fun h2 => h (by simp [h2])
    have h2 : QUOTE ∉ t := fun h3 => h (List.mem_cons_of_mem _ h3)
    rw [indexOf_quote_cons_ne c t h1, ih h2]; rfl

theorem indexOf_quote_append (p t : Str) (h : QUOTE ∉ p) :
    indexOf (p ++ QUOTE :: t) [QUOTE] = some p.length := by
  induction p with
  | nil => exact indexOf_quote_cons_eq t
  | cons c p ih =>
    have h1 : c ≠ QUOTE := fun h2 => h (by simp [h2])
    have h2 : QUOTE ∉ p := fun h3 => h (List.mem_cons_of_mem _ h3)
    rw [List.cons_append, indexOf_quote_cons_ne c _ h1, ih h2]; rfl

theorem indexOf_quote_isSome (l : Str) (h : QUOTE ∈ l) : ∃ i, indexOf l [QUOTE] = some i := by
  obtain ⟨p, t, rfl, hp⟩ := List.eq_append_cons_of_mem h
  exact ⟨p.length, indexOf_quote_append p t hp⟩

/-! ### The content of a quoted field -/

/-- Inside a quoted field, a character other than the quote in front of the line buffer may as
well be in the record buffer already, as long as the field does not end with the stream. -/
theorem stepQuoted_char (opt : ReadOptions) (comma : Str) (n : Nat) (c : CodeUnit) (l fl : Str)
    (li : Nat) (buf : Str) (idx : List Nat) (tp : Reader) (hc : c ≠ QUOTE)
    (h : QUOTE ∈ l ∨ tp ≠ []) :
    stepQuoted opt comma n ⟨.quoted, c :: l, fl, li, buf, idx, tp⟩ =
      stepQuoted opt comma n ⟨.quoted, l, fl, li, buf ++ [c], idx, tp⟩ := by
  cases hi : indexOf l [QUOTE] with
  | some i =>
    simp [stepQuoted, indexOf_quote_cons_ne c l hc, hi]
  | none =>
    have htp : tp ≠ [] := by
      rcases h with h | h
      · obtain ⟨i, h2⟩ := indexOf_quote_isSome l h
        rw [hi] at h2; simp at h2
      · exact h
    obtain ⟨r, tp1, rfl⟩ := List.exists_cons_of_ne_nil htp
    simp [stepQuoted, indexOf_quote_cons_ne c l hc, hi, isEOF, readLine_cons_eq]

theorem reach_char (opt : ReadOptions) (comma : Str) (n : Nat) (c : CodeUnit) (l fl : Str)
    (li : Nat) (buf : Str) (idx : List Nat) (tp : Reader) (hc : c ≠ QUOTE)
    (h : QUOTE ∈ l ∨ tp ≠ []) :
    Reach opt comma n ⟨.quoted, c :: l, fl, li, buf, idx, tp⟩
      ⟨.quoted, l, fl, li, buf ++ [c], idx, tp⟩ :=
  Reach.of_step_eq (by simp only [step]; exact stepQuoted_char opt comma n c l fl li buf idx tp hc h)
    rfl

theorem reach_escaped (opt : ReadOptions) (comma : Str) (n : Nat) (l fl : Str)
    (li : Nat) (buf : Str) (idx : List Nat) (tp : Reader) :
    Reach opt comma n ⟨.quoted, QUOTE :: QUOTE :: l, fl, li, buf, idx, tp⟩
      ⟨.quoted, l, fl, li, buf ++ [QUOTE], idx, tp⟩ :=
  Reach.of_step (by
    simp only [step]
    rw [stepQuoted_escaped opt comma n _ 0 (indexOf_quote_cons_eq _) (by simp [startsWith])]
    simp)

/-- The scanner takes the escaped content of a quoted field that lies on one line into the
record buffer, every doubled quote as one quote, and stops in front of the closing quote. -/
theorem reach_escapeQuotes (opt : ReadOptions) (comma : Str) (n : Nat) (s after fl : Str)
    (li : Nat) (buf : Str) (idx : List Nat) (tp : Reader) :
    Reach opt comma n ⟨.quoted, escapeQuotes s ++ QUOTE :: after, fl, li, buf, idx, tp⟩
      ⟨.quoted, QUOTE :: after, fl, li, buf ++ s, idx, tp⟩ := by
  induction s generalizing buf with
  | nil => simpa [escapeQuotes] using Reach.refl opt comma n _
  | cons c s ih =>
    by_cases hc : c = QUOTE
    · subst hc
      have h1 := reach_escaped opt comma n (escapeQuotes s ++ QUOTE :: after) fl li buf idx tp
      have h2 := ih (buf ++ [QUOTE])
      simp only [escapeQuotes, if_true, List.cons_append, List.append_assoc,
        List.singleton_append] at h1 h2 ⊢
      exact h1.trans h2
    · have h1 := reach_char opt comma n c (escapeQuotes s ++ QUOTE :: after) fl li buf idx tp hc
        (Or.inl (by simp))
      have h2 := ih (buf ++ [c])
      simp only [escapeQuotes, if_neg hc, List.cons_append, List.append_assoc,
        List.singleton_append] at h1 h2 ⊢
      exact h1.trans h2

/-! ### Options that `chkOptions` accepts -/

theorem chkOptions_ok (opt0 opt : ReadOptions) (h : chkOptions opt0 = .ok opt) :
    ∃ comma, opt.comma = some comma ∧ comma ≠ [] ∧
      comma ≠ [CR] ∧ comma ≠ [LF] ∧ comma ≠ [QUOTE] ∧
      opt.comment ≠ some [CR] ∧ opt.comment ≠ some [LF] ∧ opt.comment ≠ some [QUOTE] ∧
      opt.comment ≠ some comma ∧
      opt.comment = opt0.comment ∧ opt.lazyQuotes = opt0.lazyQuotes ∧
      opt.fieldsPerRecord = opt0.fieldsPerRecord ∧
      opt.trimLeadingSpace = some (truthyBool opt0.trimLeadingSpace) := by
  have key := chkOptions_validation opt0 []
  simp only at key
  obtain ⟨k1, k2⟩ := key
  by_cases hinv :
      ((if truthyStr opt0.comma then opt0.comma.getD [] else [COMMA]) = [CR] ∨
        (if truthyStr opt0.comma then opt0.comma.getD [] else [COMMA]) = [LF] ∨
        (if truthyStr opt0.comma then opt0.comma.getD [] else [COMMA]) = [QUOTE]) ∨
      (opt0.comment = some [CR] ∨ opt0.comment = some [LF] ∨ opt0.comment = some [QUOTE]) ∨
      opt0.comment = some (if truthyStr opt0.comma then opt0.comma.getD [] else [COMMA])
  · rw [(k1 hinv).1] at h; simp at h
  · rw [(k2 hinv).1] at h
    simp only [Except.ok.injEq] at h
    subst h
    simp only [not_or] at hinv
    obtain ⟨⟨h1, h2, h3⟩, ⟨h4, h5, h6⟩, h7⟩ := hinv
    refine ⟨_, rfl, ?_, h1, h2, h3, h4, h5, h6, h7, rfl, rfl, rfl, rfl⟩
    cases hc : opt0.comma with
    | none => simp [truthyStr]
    | some c =>
      cases c with
      | nil => simp [truthyStr]
      | cons a l => simp [truthyStr]

/-! ### Lines that `readLine` hands out unchanged -/

theorem get?_last (l : Str) : l.get? (l.length - 1) = l.getLast? := by
  rw [List.getLast?_eq_getElem?, List.get?_eq_getElem?]

theorem dropFinalCR_of_getLast (b : Bool) (l : Str) (h : l.getLast? ≠ some CR) :
    dropFinalCR b l = l := by
  unfold dropFinalCR
  rw [get?_last]
  simp [h]

theorem foldCRLF_of_getLast (l : Str) (h : l.getLast? ≠ some LF) : foldCRLF l = l := by
  unfold foldCRLF
  rw [get?_last]
  simp [h]

theorem readLine_verbatim (r : Str) (tp : Reader) (h1 : r.getLast? ≠ some CR)
    (h2 : r.getLast? ≠ some LF) : readLine (r :: tp) = (some r, tp) := by
  rw [readLine_cons_eq, dropFinalCR_of_getLast _ _ h1, foldCRLF_of_getLast _ h2]

theorem readLine_more (r r1 : Str) (tp : Reader) (h : LF ∉ r) :
    readLine (r :: r1 :: tp) = (some r, r1 :: tp) := by
  rw [readLine_cons_eq]
  simp only [isEOF, List.isEmpty_cons, dropFinalCR_false]
  rw [foldCRLF_of_not_mem _ h]

theorem trimmed_quote (opt : ReadOptions) (l : Str) : trimmed opt (QUOTE :: l) = QUOTE :: l := by
  have hw : isWhiteSpace QUOTE = false := by decide
  unfold trimmed trimLeft
  split
  · simp [List.dropWhile, hw]
  · rfl

theorem isCommentLine_quote (opt : ReadOptions) (l : Str) (h : opt.comment ≠ some [QUOTE]) :
    isCommentLine opt (QUOTE :: l) = false := by
  unfold isCommentLine
  cases hc : opt.comment with
  | none => simp [truthyStr]
  | some c =>
    have h1 : c ≠ [QUOTE] := fun h2 => h (by rw [hc, h2])
    have h2 : ¬ ([QUOTE] = c) := fun h3 => h1 h3.symm
    simp [truthyStr, h2]

theorem sliceFields_single (s : Str) : sliceFields s 0 [s.length] = [s] := by
  simp [sliceFields, slice]

/-- `readRecord` when the loops reach a state whose pass leaves them without an error. -/
theorem readRecord_of_reach_done (n : Nat) (reader : Reader) (opt : ReadOptions) (line : Str)
    (tp : Reader) (comma : Str) (hr : readLine reader = (some line, tp)) (hne : line ≠ [])
    (hcm : isCommentLine opt line = false) (hc : opt.comma = some comma) (hc0 : comma ≠ [])
    (t : Scan) (h : Reach opt comma n ⟨.parseField, line, line, n + 1, [], [], tp⟩ t)
    (b : Str) (i : List Nat) (tp1 : Reader) (hd : step opt comma n t = .done b i tp1) :
    readRecord n reader opt = (.ok (some (sliceFields b 0 i)), tp1) := by
  rw [readRecord_data n reader opt line tp comma hr hne hcm hc,
    run_of_reach_done hc0 h hd _ (Nat.lt_succ_self _)]
  rfl

/-- The first pass on a line that begins with a quote enters the quoted field. -/
theorem reach_open (opt : ReadOptions) (comma : Str) (n : Nat) (l fl : Str) (li : Nat)
    (buf : Str) (idx : List Nat) (tp : Reader) :
    Reach opt comma n ⟨.parseField, QUOTE :: l, fl, li, buf, idx, tp⟩
      ⟨.quoted, l, fl, li, buf, idx, tp⟩ :=
  Reach.of_step (by
    simp only [step]
    rw [stepField_quote opt comma n _ (by simp [trimmed_quote, startsWith])]
    simp [trimmed_quote])

theorem startsWith_nil (comma : Str) (h : comma ≠ []) : startsWith [] comma = false := by
  cases comma with
  | nil => exact absurd rfl h
  | cons a l => simp [startsWith]

/-- C1. For every string `s` and all options that `chkOptions` accepts, `readRecord` on the
line made of a quote, `s` with each of its quotes doubled, and a quote returns the record with
the one field `s`, and consumes that line only: delimiters in `s` do not cut the field and a
doubled quote is read as one quote.  This holds in particular for every `s` without carriage
return and line feed. -/
theorem readRecord_quoted_field (n : Nat) (s : Str) (tp : Reader) (opt0 opt : ReadOptions)
    (hopt : chkOptions opt0 = .ok opt) :
    readRecord n (quoteField s :: tp) opt = (.ok (some [s]), tp) := by
  obtain ⟨comma, hc, hc0, _, _, _, _, _, hq, _⟩ := chkOptions_ok opt0 opt hopt
  have hlast : (quoteField s).getLast? = some QUOTE := by
    rw [show quoteField s = (QUOTE :: escapeQuotes s) ++ [QUOTE] from rfl, List.getLast?_concat]
  have hr : readLine (quoteField s :: tp) = (some (quoteField s), tp) :=
    readLine_verbatim _ _ (by rw [hlast]; decide) (by rw [hlast]; decide)
  have h1 := reach_open opt comma n (escapeQuotes s ++ [QUOTE]) (quoteField s) (n + 1) [] [] tp
  have h2 := reach_escapeQuotes opt comma n s [] (quoteField s) (n + 1) [] [] tp
  have hd : step opt comma n ⟨.quoted, [QUOTE], quoteField s, n + 1, [] ++ s, [], tp⟩ =
      .done s [s.length] tp := by
    simp only [step]
    rw [stepQuoted_close opt comma n _ 0 (indexOf_quote_cons_eq _) (startsWith_nil comma hc0)
      (by simp)]
    simp
  rw [readRecord_of_reach_done n _ opt (quoteField s) tp comma hr (by simp [quoteField])
    (isCommentLine_quote opt _ hq) hc hc0 _ (h1.trans h2) s [s.length] tp hd, sliceFields_single]

/-- C1 at the field `a,"b` with the default options: the line `"a,""b"`. -/
theorem readRecord_quoted_field_witness :
    readRecord 0 [quoteField [97, 44, 34, 98]] ⟨some [44], none, some false, none, none⟩ =
      (.ok (some [[97, 44, 34, 98]]), []) :=
  readRecord_quoted_field 0 [97, 44, 34, 98] [] ⟨none, none, none, none, none⟩
    ⟨some [44], none, some false, none, none⟩ rfl

/-! ### Looking for the delimiter -/

theorem indexOf_split (s p : Str) (i : Nat) (h : indexOf s p = some i) :
    s = s.take i ++ p ++ s.drop (i + p.length) := by
  induction s generalizing i with
  | nil =>
    simp only [indexOf] at h
    split at h
    · rename_i hp
      have hp2 : p = [] := by simpa using (startsWith_iff _ _).1 hp
      subst hp2; simp
    · simp at h
  | cons c t ih =>
    simp only [indexOf] at h
    split at h
    · rename_i hp
      obtain ⟨u, hu⟩ := (startsWith_iff _ _).1 hp
      simp only [Option.some.injEq] at h
      subst h
      rw [← hu]
      simp
    · cases hq : indexOf t p with
      | none => simp [hq] at h
      | some j =>
        simp only [hq, Option.map_some', Option.some.injEq] at h
        subst h
        have h2 := ih j hq
        have : j + 1 + p.length = (j + p.length) + 1 := by omega
        rw [this]
        simp only [List.take_succ_cons, List.drop_succ_cons, List.cons_append, List.cons.injEq,
          true_and]
        exact h2

theorem indexOf_none_not_infix (s p : Str) (h : indexOf s p = none) : ¬ p <:+: s := by
  induction s with
  | nil =>
    simp only [indexOf] at h
    split at h
    · simp at h
    · rename_i hp
      intro hi
      apply hp
      rw [startsWith_iff]
      exact List.infix_nil.1 hi ▸ List.prefix_refl _
  | cons c t ih =>
    simp only [indexOf] at h
    split at h
    · simp at h
    · rename_i hp
      have h2 : indexOf t p = none := by
        cases hq : indexOf t p with
        | none => rfl
        | some j => simp [hq] at h
      rw [List.infix_cons_iff]
      rintro (h3 | h3)
      · exact hp ((startsWith_iff _ _).2 h3)
      · exact ih h2 h3

theorem indexOf_some_not_infix (s p : Str) (i : Nat) (hp0 : p ≠ []) (h : indexOf s p = some i) :
    ¬ p <:+: s.take i := by
  induction s generalizing i with
  | nil =>
    simp only [List.take_nil, List.infix_nil]
    exact hp0
  | cons c t ih =>
    simp only [indexOf] at h
    split at h
    · simp only [Option.some.injEq] at h
      subst h
      simp only [List.take_zero, List.infix_nil]
      exact hp0
    · rename_i hp
      cases hq : indexOf t p with
      | none => simp [hq] at h
      | some j =>
        simp only [hq, Option.map_some', Option.some.injEq] at h
        subst h
        rw [List.take_succ_cons, List.infix_cons_iff]
        rintro (h3 | h3)
        · apply hp
          rw [startsWith_iff]
          exact h3.trans (List.prefix_cons_inj c |>.2 (List.take_prefix j t))
        · exact ih j hq h3

theorem intercalate_cons_cons (sep x y : Str) (ys : List Str) :
    sep.intercalate (x :: y :: ys) = x ++ sep ++ sep.intercalate (y :: ys) := by
  simp [List.intercalate]

theorem intercalate_singleton (sep x : Str) : sep.intercalate [x] = x := by
  simp [List.intercalate]

theorem count_intercalate (c : CodeUnit) (fs : List Str) (h : ∀ f ∈ fs, c ∉ f) (hne : fs ≠ []) :
    ([c].intercalate fs).count c + 1 = fs.length := by
  induction fs with
  | nil => exact absurd rfl hne
  | cons f fs ih =>
    cases fs with
    | nil =>
      rw [intercalate_singleton]
      simp [List.count_eq_zero_of_not_mem (h f (by simp))]
    | cons g gs =>
      rw [intercalate_cons_cons]
      have h1 := ih (fun x hx => h x (List.mem_cons_of_mem _ hx)) (by simp)
      simp only [List.count_append, List.count_eq_zero_of_not_mem (h f (by simp)),
        List.count_singleton_self, List.length_cons] at h1 ⊢
      omega

/-! ### Unquoted fields -/

theorem trimmed_off (opt : ReadOptions) (l : Str) (h : truthyBool opt.trimLeadingSpace = false) :
    trimmed opt l = l := by
  simp [trimmed, h]

theorem startsWith_quote_of_not_mem (l : Str) (h : QUOTE ∉ l) : startsWith l [QUOTE] = false := by
  cases l with
  | nil => exact startsWith_nil_quote
  | cons c t =>
    rw [startsWith_quote_cons]
    have : c ≠ QUOTE := fun h2 => h (by simp [h2])
    simp [this]

theorem bareQuote_of_not_mem (opt : ReadOptions) (l : Str) (h : QUOTE ∉ l) :
    bareQuote opt l = none := by
  unfold bareQuote
  split
  · exact indexOf_quote_eq_none l h
  · rfl

theorem isCommentLine_false (opt : ReadOptions) (line : Str) (hne : line ≠ [])
    (h : ∀ c, opt.comment = some [c] → line.head? ≠ some c) : isCommentLine opt line = false := by
  obtain ⟨a, l, rfl⟩ := List.exists_cons_of_ne_nil hne
  unfold isCommentLine
  cases hc : opt.comment with
  | none => simp [truthyStr]
  | some cm =>
    have h1 : ¬ ([a] = cm) := by
      intro h2
      subst h2
      exact h a hc rfl
    simp [truthyStr, h1]

/-- The passes of `parseField` over a line without quotes, with `trimLeadingSpace` off: the
line is cut at the delimiter, from the left, until no delimiter is left. -/
theorem reach_unquoted (opt : ReadOptions) (comma : Str) (n : Nat) (hc0 : comma ≠ [])
    (ht : truthyBool opt.trimLeadingSpace = false) (m : Nat) :
    ∀ (line : Str), line.length ≤ m → QUOTE ∉ line →
      ∀ (fl : Str) (li : Nat) (buf : Str) (idx : List Nat) (tp : Reader),
        ∃ fields t, fields ≠ [] ∧
          Reach opt comma n ⟨.parseField, line, fl, li, buf, idx, tp⟩ t ∧
          step opt comma n t =
            .done (buf ++ fields.flatten) (idx ++ fieldEnds buf.length fields) tp ∧
          comma.intercalate fields = line ∧ ∀ f ∈ fields, ¬ comma <:+: f := by
  have hcl : 0 < comma.length := List.length_pos.2 hc0
  induction m with
  | zero =>
    intro line hl hq fl li buf idx tp
    have hnil : line = [] := List.length_eq_zero.1 (Nat.le_zero.1 hl)
    subst hnil
    have hi : indexOf [] comma = none := by simp [indexOf, startsWith_nil comma hc0]
    refine ⟨[[]], _, by simp, Reach.refl _ _ _ _, ?_, by simp [List.intercalate], ?_⟩
    · simp only [step]
      rw [stepField_last opt comma n _ (by simp [trimmed_off _ _ ht, startsWith_nil_quote])
        (by simpa [trimmed_off _ _ ht] using hi)
        (by simpa [trimmed_off _ _ ht] using bareQuote_of_not_mem opt [] hq)]
      simp [trimmed_off _ _ ht, fieldEnds]
    · intro f hf
      simp only [List.mem_singleton] at hf
      subst hf
      simpa using hc0
  | succ m ih =>
    intro line hl hq fl li buf idx tp
    cases hi : indexOf line comma with
    | none =>
      refine ⟨[line], _, by simp, Reach.refl _ _ _ _, ?_, by simp [List.intercalate], ?_⟩
      · simp only [step]
        rw [stepField_last opt comma n _
          (by simpa [trimmed_off _ _ ht] using startsWith_quote_of_not_mem line hq)
          (by simpa [trimmed_off _ _ ht] using hi)
          (by simpa [trimmed_off _ _ ht] using bareQuote_of_not_mem opt line hq)]
        simp [trimmed_off _ _ ht, fieldEnds]
      · intro f hf
        simp only [List.mem_singleton] at hf
        subst hf
        exact indexOf_none_not_infix f comma hi
    | some i =>
      have hb := indexOf_bound line comma i hi
      have hq1 : QUOTE ∉ line.take i := fun h => hq (List.mem_of_mem_take h)
      have hq2 : QUOTE ∉ line.drop (i + comma.length) := fun h => hq (List.mem_of_mem_drop h)
      have hlen : (line.drop (i + comma.length)).length ≤ m := by
        simp only [List.length_drop]; omega
      obtain ⟨fields, t, hne, hreach, hdone, hint, hinf⟩ :=
        ih (line.drop (i + comma.length)) hlen hq2 fl li (buf ++ line.take i)
          (idx ++ [(buf ++ line.take i).length]) tp
      have hstep : step opt comma n ⟨.parseField, line, fl, li, buf, idx, tp⟩ =
          .next ⟨.parseField, line.drop (i + comma.length), fl, li, buf ++ line.take i,
            idx ++ [(buf ++ line.take i).length], tp⟩ := by
        simp only [step]
        rw [stepField_sep opt comma n _ i
          (by simpa [trimmed_off _ _ ht] using startsWith_quote_of_not_mem line hq)
          (by simpa [trimmed_off _ _ ht] using hi)
          (by simpa [trimmed_off _ _ ht] using bareQuote_of_not_mem opt _ hq1)]
        simp [trimmed_off _ _ ht]
      refine ⟨line.take i :: fields, t, by simp, (Reach.of_step hstep).trans hreach, ?_, ?_, ?_⟩
      · rw [hdone]
        simp [fieldEnds, List.append_assoc]
      · obtain ⟨g, gs, rfl⟩ := List.exists_cons_of_ne_nil hne
        rw [intercalate_cons_cons, hint]
        exact (indexOf_split line comma i hi).symm
      · intro f hf
        rcases List.mem_cons.1 hf with rfl | hf
        · exact indexOf_some_not_infix line comma i hc0 hi
        · exact hinf f hf

/-- C3. On a non-empty line without a quote that does not begin with the comment character,
with `trimLeadingSpace` off, `readRecord` consumes the line and returns fields which, put
together with the delimiter between them, are the line, and none of which contains the
delimiter; for a delimiter of one code unit these are the pieces of the line between the
occurrences of the delimiter, empty pieces included, one more than there are occurrences. -/
theorem readRecord_unquoted_line (n : Nat) (reader : Reader) (line : Str) (tp : Reader)
    (opt : ReadOptions) (comma : Str)
    (hr : readLine reader = (some line, tp)) (hne : line ≠ []) (hq : QUOTE ∉ line)
    (hcm : ∀ c, opt.comment = some [c] → line.head? ≠ some c)
    (hc : opt.comma = some comma) (hc0 : comma ≠ [])
    (ht : truthyBool opt.trimLeadingSpace = false) :
    ∃ fields, readRecord n reader opt = (.ok (some fields), tp) ∧
      comma.intercalate fields = line ∧ (∀ f ∈ fields, ¬ comma <:+: f) ∧
      ∀ c, comma = [c] → fields = line.splitOn c ∧ fields.length = line.count c + 1 := by
  obtain ⟨fields, t, hfne, hreach, hdone, hint, hinf⟩ :=
    reach_unquoted opt comma n hc0 ht line.length line (le_refl _) hq line (n + 1) [] [] tp
  refine ⟨fields, ?_, hint, hinf, ?_⟩
  · rw [readRecord_of_reach_done n reader opt line tp comma hr hne
      (isCommentLine_false opt line hne hcm) hc hc0 t hreach _ _ tp hdone]
    have := sliceFields_fieldEnds [] fields []
    simp only [List.nil_append, List.append_nil, List.length_nil] at this ⊢
    rw [this]
  · intro c hcc
    subst hcc
    have hmem : ∀ f ∈ fields, c ∉ f := by
      intro f hf hcf
      obtain ⟨a, b, rfl⟩ := List.append_of_mem hcf
      exact hinf _ hf ⟨a, b, by simp⟩
    constructor
    · rw [← hint, List.splitOn_intercalate _ c hmem hfne]
    · rw [← hint, ← count_intercalate c fields hmem hfne]

/-- C3 at the line `a,,b,` with the default options: four fields, two of them empty. -/
theorem readRecord_unquoted_line_witness :
    ∃ fields, readRecord 0 [[97, 44, 44, 98, 44]] ⟨some [44], none, some false, none, none⟩ =
        (.ok (some fields), []) ∧
      [44].intercalate fields = [97, 44, 44, 98, 44] ∧ (∀ f ∈ fields, ¬ [44] <:+: f) ∧
      ∀ c, [44] = [c] → fields = [97, 44, 44, 98, 44].splitOn c ∧
        fields.length = [97, 44, 44, 98, 44].count c + 1 :=
  readRecord_unquoted_line 0 [[97, 44, 44, 98, 44]] [97, 44, 44, 98, 44] []
    ⟨some [44], none, some false, none, none⟩ [44] rfl (by decide) (by decide)
    (by intro c h; simp at h) rfl (by decide) rfl

/-! ### Quoted fields over several lines -/

theorem readLine_of_ne_nil (r : Str) (tp : Reader) (htp : tp ≠ []) (h : LF ∉ r) :
    readLine (r :: tp) = (some r, tp) := by
  obtain ⟨r1, tp1, rfl⟩ := List.exists_cons_of_ne_nil htp
  exact readLine_more r r1 tp1 h

theorem intercalate_concat (sep : Str) (xs : List Str) (y : Str) (h : xs ≠ []) :
    sep.intercalate (xs ++ [y]) = sep.intercalate xs ++ sep ++ y := by
  induction xs with
  | nil => exact absurd rfl h
  | cons x xs ih =>
    cases xs with
    | nil => simp [List.intercalate]
    | cons z zs =>
      have h1 := ih (by simp)
      rw [List.cons_append, List.cons_append, intercalate_cons_cons, ← List.cons_append, h1,
        intercalate_cons_cons]
      simp

/-- Inside a quoted field, a line without a quote is taken whole and the next line is read. -/
theorem reach_nextLine (opt : ReadOptions) (comma : Str) (n : Nat) (l fl : Str) (li : Nat)
    (buf : Str) (idx : List Nat) (tp : Reader) (r : Str) (tp1 : Reader) (hq : QUOTE ∉ l)
    (hr : readLine tp = (some r, tp1)) :
    Reach opt comma n ⟨.quoted, l, fl, li, buf, idx, tp⟩
      ⟨.quoted, r, r, li + 1, buf ++ l ++ [LF], idx, tp1⟩ :=
  Reach.of_step (by
    simp only [step]
    rw [stepQuoted_nextLine opt comma n _ r tp1 (indexOf_quote_eq_none l hq) hr])

theorem reach_lines (opt : ReadOptions) (comma : Str) (n : Nat) (mids : List Str)
    (last lastN : Str) (rest : Reader) (idx : List Nat)
    (hqm : ∀ l ∈ mids, QUOTE ∉ l) (hlm : ∀ l ∈ mids, LF ∉ l)
    (hlast : readLine (last :: rest) = (some lastN, rest)) :
    ∀ (l fl : Str) (li : Nat) (buf : Str), QUOTE ∉ l →
      Reach opt comma n ⟨.quoted, l, fl, li, buf, idx, mids ++ last :: rest⟩
        ⟨.quoted, lastN, lastN, li + (mids.length + 1),
          buf ++ [LF].intercalate (l :: mids) ++ [LF], idx, rest⟩ := by
  induction mids with
  | nil =>
    intro l fl li buf hq
    have := reach_nextLine opt comma n l fl li buf idx (last :: rest) lastN rest hq hlast
    simpa [intercalate_singleton] using this
  | cons x xs ih =>
    intro l fl li buf hq
    have hx : readLine (x :: (xs ++ last :: rest)) = (some x, xs ++ last :: rest) :=
      readLine_of_ne_nil x _ (by simp) (hlm x (by simp))
    have h1 := reach_nextLine opt comma n l fl li buf idx _ x _ hq hx
    have h2 := ih (fun l hl => hqm l (List.mem_cons_of_mem _ hl))
      (fun l hl => hlm l (List.mem_cons_of_mem _ hl)) x x (li + 1) (buf ++ l ++ [LF])
      (hqm x (by simp))
    have h3 := h1.trans h2
    rw [intercalate_cons_cons]
    simp only [List.cons_append, List.length_cons, List.append_assoc] at h3 ⊢
    have e : li + 1 + (xs.length + 1) = li + (xs.length + 1 + 1) := by omega
    rw [e] at h3
    exact h3

/-- The record that `readRecord` makes of a run that started with the field `b` already in the
record buffer: `b` followed by the fields of the run. -/
theorem finishRecord_run_shift (opt : ReadOptions) (comma : Str) (n f : Nat) (b : Str)
    (s : Scan) :
    finishRecord (run opt comma n f (s.shift b [b.length])) =
      match run opt comma n f s with
      | (.ok (rb, fi), tp) => (.ok (some (b :: sliceFields rb 0 fi)), tp)
      | (.error e, tp) => (.error e, tp) := by
  rw [run_shift]
  cases hr : run opt comma n f s with
  | mk a tp =>
    cases a with
    | error e => simp [finishRecord]
    | ok v =>
      obtain ⟨rb, fi⟩ := v
      have h := sliceFields_shift b rb 0 fi
      simp only [Nat.zero_add] at h
      simp [finishRecord, sliceFields, slice, h]

theorem startsWith_append_self (comma l : Str) : startsWith (comma ++ l) comma = true := by
  simp [startsWith]

theorem startsWith_comma_quote (comma l : Str) (hc0 : comma ≠ [])
    (hcq : comma.head? ≠ some QUOTE) : startsWith (comma ++ l) [QUOTE] = false := by
  obtain ⟨a, t, rfl⟩ := List.exists_cons_of_ne_nil hc0
  rw [List.cons_append, startsWith_quote_cons]
  have : a ≠ QUOTE := fun h => hcq (by simp [h])
  simp [this]

/-- The passes from the opening quote of a field that goes over several lines to the pass at
its closing quote, wherever in the record the field opens. -/
theorem reach_multiline (opt : ReadOptions) (comma : Str) (n : Nat)
    (l0 : Str) (mids : List Str) (lastN last : Str) (rest : Reader)
    (hq0 : QUOTE ∉ l0) (hqm : ∀ l ∈ mids, QUOTE ∉ l) (hlm : ∀ l ∈ mids, LF ∉ l)
    (hlast : readLine (last :: rest) = (some lastN, rest))
    (fl : Str) (li : Nat) (buf : Str) (idx : List Nat) :
    Reach opt comma n ⟨.parseField, QUOTE :: l0, fl, li, buf, idx, mids ++ last :: rest⟩
      ⟨.quoted, lastN, lastN, li + (mids.length + 1),
        buf ++ [LF].intercalate (l0 :: mids) ++ [LF], idx, rest⟩ :=
  (reach_open opt comma n l0 fl li buf idx (mids ++ last :: rest)).trans
    (reach_lines opt comma n mids last lastN rest idx hqm hlm hlast l0 fl li buf hq0)

theorem intercalate_lines (l0 : Str) (mids : List Str) (lk : Str) :
    [LF].intercalate (l0 :: (mids ++ [lk])) = [LF].intercalate (l0 :: mids) ++ [LF] ++ lk := by
  rw [← List.cons_append, intercalate_concat _ _ _ (by simp)]

/-- C2. A quoted field that opens with the quote-free content `l0`, goes on over the quote-free
lines `mids` and closes on a last line after the quote-free `lk` is read as the one field made
of `l0`, the lines of `mids` and `lk` with a line feed between them: the lines in between are
taken as they are, be they empty or begin with the comment character.  When the field opens the
record and its closing quote ends the last line, that field is the record; when the delimiter
follows the closing quote, the record is that field followed by the fields that the loop
`parseField` reads from the rest of the last line.  The last two parts say the same for a
field that opens anywhere in a record: the scanner leaves the loops, or is back at the head of
`parseField` on the rest of the last line, with the field added to the record.  The delimiter
is one that does not begin with a quote, as every delimiter of one character that `chkOptions`
accepts. -/
theorem readRecord_multiline_field (n : Nat) (opt : ReadOptions) (comma : Str)
    (l0 : Str) (mids : List Str) (lk after last : Str) (rest : Reader)
    (hc : opt.comma = some comma) (hc0 : comma ≠ []) (hcq : comma.head? ≠ some QUOTE)
    (hcm : opt.comment ≠ some [QUOTE])
    (hq0 : QUOTE ∉ l0) (hqm : ∀ l ∈ mids, QUOTE ∉ l) (hqk : QUOTE ∉ lk)
    (hl0 : LF ∉ l0) (hlm : ∀ l ∈ mids, LF ∉ l)
    (hlast : readLine (last :: rest) = (some (lk ++ QUOTE :: after), rest)) :
    (after = [] →
      readRecord n ((QUOTE :: l0) :: (mids ++ last :: rest)) opt =
        (.ok (some [[LF].intercalate (l0 :: (mids ++ [lk]))]), rest)) ∧
    (∀ tail, after = comma ++ tail →
      readRecord n ((QUOTE :: l0) :: (mids ++ last :: rest)) opt =
        match run opt comma n (scanSize tail rest + 1)
            ⟨.parseField, tail, lk ++ QUOTE :: after, n + 1 + (mids.length + 1), [], [], rest⟩ with
        | (.ok (rb, fi), tp) =>
          (.ok (some ([LF].intercalate (l0 :: (mids ++ [lk])) :: sliceFields rb 0 fi)), tp)
        | (.error e, tp) => (.error e, tp)) ∧
    (∀ (fl : Str) (li : Nat) (buf : Str) (idx : List Nat),
      (after = [] →
        ∃ t, Reach opt comma n
            ⟨.parseField, QUOTE :: l0, fl, li, buf, idx, mids ++ last :: rest⟩ t ∧
          step opt comma n t =
            .done (buf ++ [LF].intercalate (l0 :: (mids ++ [lk])))
              (idx ++ [(buf ++ [LF].intercalate (l0 :: (mids ++ [lk]))).length]) rest) ∧
      (∀ tail, after = comma ++ tail →
        Reach opt comma n ⟨.parseField, QUOTE :: l0, fl, li, buf, idx, mids ++ last :: rest⟩
          ⟨.parseField, tail, lk ++ QUOTE :: after, li + (mids.length + 1),
            buf ++ [LF].intercalate (l0 :: (mids ++ [lk])),
            idx ++ [(buf ++ [LF].intercalate (l0 :: (mids ++ [lk]))).length], rest⟩)) := by
  have hr : readLine ((QUOTE :: l0) :: (mids ++ last :: rest)) =
      (some (QUOTE :: l0), mids ++ last :: rest) :=
    readLine_of_ne_nil _ _ (by simp) (by
      intro h
      rcases List.mem_cons.1 h with h | h
      · exact absurd h (by decide)
      · exact hl0 h)
  have hi : indexOf (lk ++ QUOTE :: after) [QUOTE] = some lk.length :=
    indexOf_quote_append lk after hqk
  have hreach := reach_multiline opt comma n l0 mids (lk ++ QUOTE :: after) last rest hq0 hqm hlm
    hlast
  -- the pass at the closing quote, when it ends the line
  have hend : ∀ (li : Nat) (buf : Str) (idx : List Nat), after = [] →
      step opt comma n ⟨.quoted, lk ++ QUOTE :: after, lk ++ QUOTE :: after, li,
          buf ++ [LF].intercalate (l0 :: mids) ++ [LF], idx, rest⟩ =
        .done (buf ++ [LF].intercalate (l0 :: (mids ++ [lk])))
          (idx ++ [(buf ++ [LF].intercalate (l0 :: (mids ++ [lk]))).length]) rest := by
    intro li buf idx ha
    subst ha
    simp only [step]
    rw [stepQuoted_close opt comma n _ lk.length hi (startsWith_nil comma hc0) (by simp)]
    simp [intercalate_lines]
  -- the pass at the closing quote, when the delimiter follows
  have hsep : ∀ (li : Nat) (buf : Str) (idx : List Nat) (tail : Str), after = comma ++ tail →
      step opt comma n ⟨.quoted, lk ++ QUOTE :: after, lk ++ QUOTE :: after, li,
          buf ++ [LF].intercalate (l0 :: mids) ++ [LF], idx, rest⟩ =
        .next ⟨.parseField, tail, lk ++ QUOTE :: after, li,
          buf ++ [LF].intercalate (l0 :: (mids ++ [lk])),
          idx ++ [(buf ++ [LF].intercalate (l0 :: (mids ++ [lk]))).length], rest⟩ := by
    intro li buf idx tail ha
    subst ha
    simp only [step]
    rw [stepQuoted_sep opt comma n _ lk.length hi
      (by simpa using startsWith_comma_quote comma tail hc0 hcq)
      (by simp [startsWith])]
    simp [intercalate_lines]
  refine ⟨?_, ?_, fun fl li buf idx => ⟨?_, ?_⟩⟩
  · intro ha
    have hd := hend (n + 1 + (mids.length + 1)) [] [] ha
    rw [readRecord_of_reach_done n _ opt (QUOTE :: l0) _ comma hr (by simp)
      (isCommentLine_quote opt _ hcm) hc hc0 _ (hreach (QUOTE :: l0) (n + 1) [] []) _ _ rest
      (by simpa using hd)]
    simp [sliceFields, slice]
  · intro tail ha
    have hst := hsep (n + 1 + (mids.length + 1)) [] [] tail ha
    have hsh : (⟨.parseField, tail, lk ++ QUOTE :: after, n + 1 + (mids.length + 1),
        [] ++ [LF].intercalate (l0 :: (mids ++ [lk])),
        [] ++ [([] ++ [LF].intercalate (l0 :: (mids ++ [lk]))).length], rest⟩ : Scan) =
        Scan.shift ([LF].intercalate (l0 :: (mids ++ [lk])))
          [([LF].intercalate (l0 :: (mids ++ [lk]))).length]
          ⟨.parseField, tail, lk ++ QUOTE :: after, n + 1 + (mids.length + 1), [], [], rest⟩ := by
      simp [Scan.shift]
    rw [hsh] at hst
    rw [readRecord_data n _ opt (QUOTE :: l0) _ comma hr (by simp)
      (isCommentLine_quote opt _ hcm) hc,
      run_of_reach hc0 ((hreach (QUOTE :: l0) (n + 1) [] []).trans (Reach.of_step hst)) _
        (scanSize tail rest + 1) (Nat.lt_succ_self _) (by simp [Scan.shift]),
      finishRecord_run_shift]
  · intro ha
    exact ⟨_, hreach fl li buf idx, hend _ buf idx ha⟩
  · intro tail ha
    exact (hreach fl li buf idx).trans (Reach.of_step (hsep _ buf idx tail ha))

/-- C2 at the four lines `"a`, the empty line, `#c` and `b",x`, followed by the line `y`, with
the comment character `#`: the record has the fields `a\n\n#c\nb` and `x`, and the line `y` is
left in the reader. -/
theorem readRecord_multiline_field_witness :
    readRecord 0 [[34, 97], [], [35, 99], [98, 34, 44, 120], [121]]
        ⟨some [44], some [35], some false, none, none⟩ =
      (.ok (some [[97, 10, 10, 35, 99, 10, 98], [120]]), [[121]]) :=
  (readRecord_multiline_field 0 ⟨some [44], some [35], some false, none, none⟩ [44]
    [97] [[], [35, 99]] [98] [44, 120] [98, 34, 44, 120] [[121]] rfl (by decide) (by decide)
    (by decide) (by decide) (by decide) (by decide) (by decide) (by decide) rfl).2.1 [120] rfl

/-! ### `readMatrix` in terms of the records read -/

theorem readMatrixLoop_of_records (opt : ReadOptions) (f : Nat) :
    ∀ (reader : Reader) (li : Nat) (rs : List (List Str)) (reader1 : Reader),
      readRecordsLoop opt f reader li = (.ok rs, reader1) →
      ∀ (result : List (List Str)) (nb : Option Nat) (first : Bool),
        (readMatrixLoop opt f reader result nb first li).1 = checkCounts opt rs result nb first li ∧
        ∀ R, checkCounts opt rs result nb first li = .ok R →
          readMatrixLoop opt f reader result nb first li = (.ok R, reader1) := by
  induction f with
  | zero => intro reader li rs reader1 h; simp [readRecordsLoop] at h
  | succ f ih =>
    intro reader li rs reader1 h result nb first
    simp only [readRecordsLoop] at h
    simp only [readMatrixLoop]
    cases hr : readRecord li reader opt with
    | mk a tp =>
      rw [hr] at h
      cases a with
      | error e => simp at h
      | ok v =>
        cases v with
        | none =>
          simp only [Prod.mk.injEq, Except.ok.injEq] at h
          obtain ⟨h1, h2⟩ := h
          subst h1; subst h2
          simp [checkCounts]
        | some r =>
          simp only at h
          cases hl : readRecordsLoop opt f tp (li + 1) with
          | mk a2 tp2 =>
            rw [hl] at h
            cases a2 with
            | error e => simp at h
            | ok rest =>
              simp only [Prod.mk.injEq, Except.ok.injEq] at h
              obtain ⟨h1, h2⟩ := h
              subst h1; subst h2
              simp only [checkCounts, fieldCountError]
              split
              · split
                · simp
                · exact ih tp (li + 1) rest tp2 hl _ _ _
              · exact ih tp (li + 1) rest tp2 hl _ _ _

theorem checkCounts_cons_empty (opt : ReadOptions) (rs result : List (List Str))
    (nb : Option Nat) (first : Bool) (li : Nat) :
    checkCounts opt ([] :: rs) result nb first li =
      checkCounts opt rs result (nbFieldsAfter opt first nb []) false (li + 1) := by
  simp [checkCounts]

theorem checkCounts_cons_ok (opt : ReadOptions) (r : List Str) (rs result : List (List Str))
    (nb : Option Nat) (first : Bool) (li : Nat) (hr : r ≠ [])
    (hw : wrongCount (nbFieldsAfter opt first nb r) r = false) :
    checkCounts opt (r :: rs) result nb first li =
      checkCounts opt rs (result ++ [r]) (nbFieldsAfter opt first nb r) false (li + 1) := by
  have : r.length > 0 := List.length_pos.2 hr
  simp [checkCounts, this, hw]

theorem checkCounts_cons_error (opt : ReadOptions) (r : List Str) (rs result : List (List Str))
    (nb : Option Nat) (first : Bool) (li : Nat) (hr : r ≠ [])
    (hw : wrongCount (nbFieldsAfter opt first nb r) r = true) :
    checkCounts opt (r :: rs) result nb first li = .error (fieldCountError (li + 1)) := by
  have : r.length > 0 := List.length_pos.2 hr
  simp [checkCounts, this, hw]

theorem wrongCount_eq_false (k : Nat) (r : List Str) (h : r.length = k) :
    wrongCount (some k) r = false := by
  simp [wrongCount, h]

theorem wrongCount_eq_true (k : Nat) (r : List Str) (hk : 0 < k) (h : r.length ≠ k) :
    wrongCount (some k) r = true := by
  have h1 : ¬ (k = 0) := by omega
  have h2 : ¬ (k = r.length) := fun h3 => h h3.symm
  simp [wrongCount, truthyNat, h1, h2]

theorem wrongCount_of_falsy (nb : Option Nat) (r : List Str) (h : truthyNat nb = false) :
    wrongCount nb r = false := by
  simp [wrongCount, h]

theorem filter_cons_nonempty (r : List Str) (rs : List (List Str)) (hr : r ≠ []) :
    (r :: rs).filter (fun r => r.length > 0) = r :: rs.filter (fun r => r.length > 0) := by
  have : r.length > 0 := List.length_pos.2 hr
  simp [List.filter, this]

theorem filter_cons_empty (rs : List (List Str)) :
    (([] : List Str) :: rs).filter (fun r => r.length > 0) = rs.filter (fun r => r.length > 0) := by
  simp [List.filter]

/-- When no width is in force, every non-empty record is collected. -/
theorem checkCounts_unchecked (opt : ReadOptions) (rs : List (List Str)) :
    ∀ (result : List (List Str)) (nb : Option Nat) (first : Bool) (li : Nat),
      (∀ r, truthyNat (nbFieldsAfter opt first nb r) = false) →
      checkCounts opt rs result nb first li = .ok (result ++ rs.filter (fun r => r.length > 0)) := by
  induction rs with
  | nil => intro result nb first li _; simp [checkCounts]
  | cons r rs ih =>
    intro result nb first li h1
    have h3 : ∀ x, truthyNat (nbFieldsAfter opt false (nbFieldsAfter opt first nb r) x) = false := by
      intro x; simpa [nbFieldsAfter] using h1 r
    by_cases hr : r = []
    · subst hr
      rw [checkCounts_cons_empty, ih _ _ _ _ h3, filter_cons_empty]
    · rw [checkCounts_cons_ok opt r rs result nb first li hr (wrongCount_of_falsy _ _ (h1 r)),
        ih _ _ _ _ h3, filter_cons_nonempty r rs hr]
      simp

/-- With the width `k` in force, records of `k` fields are collected. -/
theorem checkCounts_fixed_ok (opt : ReadOptions) (k : Nat) (rs : List (List Str)) :
    ∀ (result : List (List Str)) (nb : Option Nat) (first : Bool) (li : Nat),
      (∀ r, nbFieldsAfter opt first nb r = some k) →
      (∀ r ∈ rs, r ≠ [] → r.length = k) →
      checkCounts opt rs result nb first li = .ok (result ++ rs.filter (fun r => r.length > 0)) := by
  induction rs with
  | nil => intro result nb first li _ _; simp [checkCounts]
  | cons r rs ih =>
    intro result nb first li h1 h2
    have h3 : ∀ x, nbFieldsAfter opt false (nbFieldsAfter opt first nb r) x = some k := by
      intro x; simpa [nbFieldsAfter] using h1 r
    have h4 : ∀ x ∈ rs, x ≠ [] → x.length = k := fun x hx => h2 x (List.mem_cons_of_mem _ hx)
    by_cases hr : r = []
    · subst hr
      rw [checkCounts_cons_empty, ih _ _ _ _ h3 h4, filter_cons_empty]
    · rw [checkCounts_cons_ok opt r rs result nb first li hr
          (by rw [h1 r]; exact wrongCount_eq_false k r (h2 r (by simp) hr)),
        ih _ _ _ _ h3 h4, filter_cons_nonempty r rs hr]
      simp

/-- With the width `k > 0` in force, the first non-empty record of another width raises the
field-count error with its number. -/
theorem checkCounts_fixed_error (opt : ReadOptions) (k : Nat) (hk : 0 < k)
    (pre : List (List Str)) (r : List Str) (post : List (List Str)) :
    ∀ (result : List (List Str)) (nb : Option Nat) (first : Bool) (li : Nat),
      (∀ x, nbFieldsAfter opt first nb x = some k) →
      (∀ x ∈ pre, x ≠ [] → x.length = k) → r ≠ [] → r.length ≠ k →
      checkCounts opt (pre ++ r :: post) result nb first li =
        .error (fieldCountError (li + pre.length + 1)) := by
  induction pre with
  | nil =>
    intro result nb first li h1 _ hr hrk
    rw [List.nil_append, checkCounts_cons_error opt r post result nb first li hr
      (by rw [h1 r]; exact wrongCount_eq_true k r hk hrk)]
    simp
  | cons p pre ih =>
    intro result nb first li h1 h2 hr hrk
    have h3 : ∀ x, nbFieldsAfter opt false (nbFieldsAfter opt first nb p) x = some k := by
      intro x; simpa [nbFieldsAfter] using h1 p
    have h4 : ∀ x ∈ pre, x ≠ [] → x.length = k := fun x hx => h2 x (List.mem_cons_of_mem _ hx)
    have e : li + 1 + pre.length + 1 = li + (p :: pre).length + 1 := by
      simp only [List.length_cons]; omega
    rw [List.cons_append, ← e]
    by_cases hp : p = []
    · subst hp
      rw [checkCounts_cons_empty, ih _ _ _ _ h3 h4 hr hrk]
    · rw [checkCounts_cons_ok opt p _ result nb first li hp
          (by rw [h1 p]; exact wrongCount_eq_false k p (h2 p (by simp) hp)),
        ih _ _ _ _ h3 h4 hr hrk]

/-! ### What a call consumes, and which errors it raises -/

theorem readLine_length (tp tp1 : Reader) (r : Option Str) (h : readLine tp = (r, tp1)) :
    tp1.length ≤ tp.length := by
  cases tp with
  | nil => simp [readLine, tpReadLine] at h; rw [← h.2]
  | cons r0 t =>
    rw [readLine_cons_eq] at h
    simp only [Prod.mk.injEq] at h
    rw [← h.2]; simp

/-- A pass does not give lines back to the reader, and an error it raises is a quote error. -/
theorem step_spec (opt : ReadOptions) (comma : Str) (n : Nat) (s : Scan) :
    (step opt comma n s).within s.tp.length := by
  obtain ⟨mode, line, fl, li, rb, fi, tp⟩ := s
  cases mode with
  | parseField =>
    simp only [step, stepField]
    split
    · split
      · simp [Step.within]
      · split <;> simp [Step.within]
    · simp [Step.within]
  | quoted =>
    simp only [step, stepQuoted]
    split
    · split
      · simp [Step.within]
      · split
        · simp [Step.within]
        · split
          · simp [Step.within]
          · split <;> simp [Step.within]
    · split
      · split
        · rename_i tp1 h
          have := readLine_length _ _ _ h
          split <;> simp [Step.within, this]
        · rename_i r tp1 h
          have := readLine_length _ _ _ h
          simpa [Step.within] using this
      · split <;> simp [Step.within]

theorem run_spec (opt : ReadOptions) (comma : Str) (n f : Nat) (s : Scan) :
    (run opt comma n f s).2.length ≤ s.tp.length ∧
    ∀ e, (run opt comma n f s).1 = .error e →
      e = .outOfFuel ∨ ∃ pe, e = .parseError pe ∧
        (pe.message = .ERR_BARE_QUOTE ∨ pe.message = .ERR_QUOTE) := by
  induction f generalizing s with
  | zero => simp [run]
  | succ f ih =>
    have hs := step_spec opt comma n s
    simp only [run]
    cases hst : step opt comma n s with
    | next s1 =>
      rw [hst] at hs
      simp only [Step.within] at hs ⊢
      exact ⟨le_trans (ih s1).1 hs, (ih s1).2⟩
    | done b i tp =>
      rw [hst] at hs
      simp only [Step.within] at hs ⊢
      exact ⟨hs, by simp⟩
    | fail e tp =>
      rw [hst] at hs
      simp only [Step.within] at hs ⊢
      refine ⟨hs.1, ?_⟩
      intro e1 he
      simp only [Except.error.injEq] at he
      exact Or.inr ⟨e, he.symm, hs.2⟩

theorem finishRecord_snd (r : ScanResult) : (finishRecord r).2 = r.2 := by
  obtain ⟨a, tp⟩ := r
  cases a with
  | error e => rfl
  | ok v => rfl

theorem finishRecord_error_iff (r : ScanResult) (e : CsvError) :
    (finishRecord r).1 = .error e ↔ r.1 = .error e := by
  obtain ⟨a, tp⟩ := r
  cases a with
  | error e1 => simp [finishRecord]
  | ok v => simp [finishRecord]

/-- A call of `readRecord` that returns a record has taken at least one line from the reader;
an error it raises is a quote error, unless the options lack a usable delimiter. -/
theorem readRecord_spec (n : Nat) (reader : Reader) (opt : ReadOptions) :
    (∀ r, (readRecord n reader opt).1 = .ok (some r) →
      (readRecord n reader opt).2.length < reader.length) ∧
    ∀ e, (readRecord n reader opt).1 = .error e →
      e = .outOfFuel ∨ e = .assertion ∨ ∃ pe, e = .parseError pe ∧
        (pe.message = .ERR_BARE_QUOTE ∨ pe.message = .ERR_QUOTE) := by
  cases reader with
  | nil => simp [readRecord_nil]
  | cons r0 tp =>
    unfold readRecord
    rw [readLine_cons_eq]
    simp only
    split
    · simp
    · split
      · simp
      · split
        · simp
        · rename_i comma _
          have h := run_spec opt comma n
            (scanSize (foldCRLF (dropFinalCR (isEOF tp) r0)) tp + 1)
            ⟨.parseField, foldCRLF (dropFinalCR (isEOF tp) r0),
              foldCRLF (dropFinalCR (isEOF tp) r0), n + 1, [], [], tp⟩
          constructor
          · intro r _
            rw [finishRecord_snd]
            have := h.1
            simp only [List.length_cons] at this ⊢
            omega
          · intro e he
            rw [finishRecord_error_iff] at he
            rcases h.2 e he with h1 | h1
            · exact Or.inl h1
            · exact Or.inr (Or.inr h1)

/-- With a delimiter that is not empty, `readRecord` does not run out of fuel. -/
theorem readRecord_terminates (n : Nat) (reader : Reader) (opt : ReadOptions) (comma : Str)
    (hc : opt.comma = some comma) (hc0 : comma ≠ []) :
    (readRecord n reader opt).1 ≠ .error .outOfFuel := by
  cases reader with
  | nil => simp [readRecord_nil]
  | cons r0 tp =>
    unfold readRecord
    rw [readLine_cons_eq]
    simp only
    split
    · simp
    · split
      · simp
      · rw [hc]
        simp only
        intro h
        rw [finishRecord_error_iff] at h
        exact run_terminates opt comma n hc0 _ _ (Nat.lt_succ_self _) h

/-- With a delimiter that is not empty, the only errors of `readRecord` are the quote errors. -/
theorem readRecord_error_kind (n : Nat) (reader : Reader) (opt : ReadOptions) (comma : Str)
    (hc : opt.comma = some comma) (hc0 : comma ≠ []) (e : CsvError)
    (h : (readRecord n reader opt).1 = .error e) :
    ∃ pe, e = .parseError pe ∧ (pe.message = .ERR_BARE_QUOTE ∨ pe.message = .ERR_QUOTE) := by
  have hterm := readRecord_terminates n reader opt comma hc hc0
  cases reader with
  | nil => simp [readRecord_nil] at h
  | cons r0 tp =>
    unfold readRecord at h
    rw [readLine_cons_eq] at h
    simp only at h
    split at h
    · simp at h
    · split at h
      · simp at h
      · rw [hc] at h
        simp only at h
        rw [finishRecord_error_iff] at h
        rcases (run_spec opt comma n _ _).2 e h with h1 | h1
        · subst h1
          exact absurd h (run_terminates opt comma n hc0 _ _ (Nat.lt_succ_self _))
        · exact h1

/-- Reading the records one after the other ends, with the records or with a quote error. -/
theorem readRecordsLoop_spec (opt : ReadOptions) (comma : Str) (hc : opt.comma = some comma)
    (hc0 : comma ≠ []) (f : Nat) :
    ∀ (reader : Reader) (li : Nat), reader.length < f →
      ∀ e, (readRecordsLoop opt f reader li).1 = .error e →
        ∃ pe, e = .parseError pe ∧ (pe.message = .ERR_BARE_QUOTE ∨ pe.message = .ERR_QUOTE) := by
  induction f with
  | zero => intro reader li h; omega
  | succ f ih =>
    intro reader li hlen e he
    simp only [readRecordsLoop] at he
    have hs := readRecord_spec li reader opt
    have hk := readRecord_error_kind li reader opt comma hc hc0
    cases hr : readRecord li reader opt with
    | mk a tp =>
      rw [hr] at he hs hk
      cases a with
      | error e1 =>
        simp only [Except.error.injEq] at he
        subst he
        exact hk e1 rfl
      | ok v =>
        cases v with
        | none => simp at he
        | some r =>
          have hlt := hs.1 r rfl
          simp only at hlt he
          cases hl : readRecordsLoop opt f tp (li + 1) with
          | mk a2 tp2 =>
            rw [hl] at he
            cases a2 with
            | error e2 =>
              simp only [Except.error.injEq] at he
              subst he
              have := ih tp (li + 1) (by omega) e2
              rw [hl] at this
              exact this rfl
            | ok rest => simp at he

/-- When no width is ever in force, `readMatrix` collects the non-empty records that
`readRecord` yields and raises the errors that `readRecord` raises. -/
theorem readMatrixLoop_unchecked (opt : ReadOptions) (hf : opt.fieldsPerRecord = none) (f : Nat) :
    ∀ (reader : Reader) (result : List (List Str)) (first : Bool) (li : Nat),
      readMatrixLoop opt f reader result none first li =
        match readRecordsLoop opt f reader li with
        | (.ok rs, tp) => (.ok (result ++ rs.filter (fun r => r.length > 0)), tp)
        | (.error e, tp) => (.error e, tp) := by
  have hnb : ∀ first r, nbFieldsAfter opt first none r = none := by
    intro first r
    cases first <;> simp [nbFieldsAfter, hf]
  induction f with
  | zero => intro reader result first li; simp [readMatrixLoop, readRecordsLoop]
  | succ f ih =>
    intro reader result first li
    simp only [readMatrixLoop, readRecordsLoop]
    cases hr : readRecord li reader opt with
    | mk a tp =>
      cases a with
      | error e => simp
      | ok v =>
        cases v with
        | none => simp
        | some r =>
          simp only [hnb, wrongCount, truthyNat, Bool.false_and]
          by_cases hr0 : r = []
          · subst hr0
            simp only [List.length_nil, gt_iff_lt, lt_self_iff_false, if_false]
            rw [ih]
            cases hl : readRecordsLoop opt f tp (li + 1) with
            | mk a2 tp2 =>
              cases a2 with
              | error e2 => simp
              | ok rest => simp [filter_cons_empty]
          · have : r.length > 0 := List.length_pos.2 hr0
            simp only [this, if_true]
            rw [ih]
            cases hl : readRecordsLoop opt f tp (li + 1) with
            | mk a2 tp2 =>
              cases a2 with
              | error e2 => simp
              | ok rest => simp [filter_cons_nonempty r rest hr0]

theorem readMatrix_eq_loop (reader : Reader) (opt0 opt : ReadOptions)
    (hopt : chkOptions opt0 = .ok opt) :
    readMatrix reader opt0 = readMatrixLoop opt (reader.length + 1) reader [] none true 0 := by
  simp [readMatrix, hopt]

/-- C10. With `fieldsPerRecord` unset, `readMatrix` returns what the successive calls of
`readRecord` yield: when none of them raises an error, the records that are not empty, in
their order and whatever their numbers of fields, and otherwise the error of the first call
that raises one; this error is a quote error, never the field-count error. -/
theorem readMatrix_unset (reader : Reader) (opt0 opt : ReadOptions)
    (hopt : chkOptions opt0 = .ok opt) (hf : opt0.fieldsPerRecord = none) :
    (readMatrix reader opt0 =
      match readRecords reader opt with
      | (.ok rs, tp) => (.ok (rs.filter (fun r => r.length > 0)), tp)
      | (.error e, tp) => (.error e, tp)) ∧
    (∀ e, (readMatrix reader opt0).1 = .error e →
      ∃ pe, e = .parseError pe ∧ (pe.message = .ERR_BARE_QUOTE ∨ pe.message = .ERR_QUOTE)) := by
  obtain ⟨comma, hc, hc0, _, _, _, _, _, _, _, _, _, hfp, _⟩ := chkOptions_ok opt0 opt hopt
  have hf1 : opt.fieldsPerRecord = none := by rw [hfp, hf]
  have h1 : readMatrix reader opt0 =
      match readRecords reader opt with
      | (.ok rs, tp) => (.ok (rs.filter (fun r => r.length > 0)), tp)
      | (.error e, tp) => (.error e, tp) := by
    rw [readMatrix_eq_loop reader opt0 opt hopt, readMatrixLoop_unchecked opt hf1]
    simp [readRecords]
  refine ⟨h1, ?_⟩
  intro e he
  rw [h1] at he
  have hs := readRecordsLoop_spec opt comma hc hc0 (reader.length + 1) reader 0
    (Nat.lt_succ_self _) e
  unfold readRecords at he
  cases hl : readRecordsLoop opt (reader.length + 1) reader 0 with
  | mk a tp =>
    rw [hl] at he hs
    cases a with
    | error e1 => exact hs he
    | ok rs => simp at he

/-- C10 at the lines `a,b`, the empty line and `c`: two records of different widths. -/
theorem readMatrix_unset_witness :
    readMatrix [[97, 44, 98], [], [99]] ⟨none, none, none, none, none⟩ =
      (.ok [[[97], [98]], [[99]]], []) :=
  (readMatrix_unset [[97, 44, 98], [], [99]] ⟨none, none, none, none, none⟩
    ⟨some [44], none, some false, none, none⟩ rfl rfl).1

/-! ### A line of data gives a record with a field -/

theorem step_pushed (opt : ReadOptions) (comma : Str) (n : Nat) (s : Scan) :
    (step opt comma n s).pushed := by
  obtain ⟨mode, line, fl, li, rb, fi, tp⟩ := s
  cases mode with
  | parseField =>
    simp only [step, stepField]
    split
    · split
      · simp [Step.pushed]
      · split <;> simp [Step.pushed]
    · simp [Step.pushed]
  | quoted =>
    simp only [step, stepQuoted]
    split
    · split
      · simp [Step.pushed]
      · split
        · simp [Step.pushed]
        · split
          · simp [Step.pushed]
          · split <;> simp [Step.pushed]
    · split
      · split
        · split <;> simp [Step.pushed]
        · simp [Step.pushed]
      · split <;> simp [Step.pushed]

theorem run_pushed (opt : ReadOptions) (comma : Str) (n f : Nat) (s : Scan) (b : Str)
    (i : List Nat) (h : (run opt comma n f s).1 = .ok (b, i)) : i ≠ [] := by
  induction f generalizing s with
  | zero => simp [run] at h
  | succ f ih =>
    have hs := step_pushed opt comma n s
    simp only [run] at h
    cases hst : step opt comma n s with
    | next s1 => rw [hst] at h; exact ih s1 h
    | done b1 i1 tp =>
      rw [hst] at h hs
      simp only [Except.ok.injEq, Prod.mk.injEq] at h
      rw [← h.2]
      exact hs
    | fail e tp => rw [hst] at h; simp at h

theorem sliceFields_ne_nil (b : Str) (p : Nat) (i : List Nat) (h : i ≠ []) :
    sliceFields b p i ≠ [] := by
  cases i with
  | nil => exact absurd rfl h
  | cons a l => simp [sliceFields]

/-- A record read from a line that is neither empty nor a comment has at least one field. -/
theorem readRecord_data_ne_nil (n : Nat) (reader : Reader) (opt : ReadOptions) (line : Str)
    (tp : Reader) (hr : readLine reader = (some line, tp)) (hne : line ≠ [])
    (hcm : isCommentLine opt line = false) (r : List Str)
    (h : (readRecord n reader opt).1 = .ok (some r)) : r ≠ [] := by
  cases hc : opt.comma with
  | none =>
    unfold readRecord at h
    have : ¬ (line.length = 0) := fun h0 => hne (List.length_eq_zero.1 h0)
    simp [hr, this, hcm, hc] at h
  | some comma =>
    rw [readRecord_data n reader opt line tp comma hr hne hcm hc] at h
    cases hrun : run opt comma n (scanSize line tp + 1)
        ⟨.parseField, line, line, n + 1, [], [], tp⟩ with
    | mk a tp1 =>
      rw [hrun] at h
      cases a with
      | error e => simp [finishRecord] at h
      | ok v =>
        obtain ⟨b, i⟩ := v
        simp only [finishRecord, Except.ok.injEq, Option.some.injEq] at h
        rw [← h]
        exact sliceFields_ne_nil b 0 i (run_pushed opt comma n _ _ b i (by rw [hrun]))

/-! ### Field counts -/

theorem readMatrix_of_records (reader : Reader) (opt0 opt : ReadOptions)
    (hopt : chkOptions opt0 = .ok opt) (rs : List (List Str)) (tp : Reader)
    (hrs : readRecords reader opt = (.ok rs, tp)) :
    (readMatrix reader opt0).1 = checkCounts opt rs [] none true 0 ∧
    ∀ R, checkCounts opt rs [] none true 0 = .ok R → readMatrix reader opt0 = (.ok R, tp) := by
  rw [readMatrix_eq_loop reader opt0 opt hopt]
  exact readMatrixLoop_of_records opt _ reader 0 rs tp hrs [] none true

theorem exists_first_bad (k : Nat) (rs : List (List Str))
    (h : ¬ ∀ r ∈ rs, r ≠ [] → r.length = k) :
    ∃ pre r post, rs = pre ++ r :: post ∧ (∀ x ∈ pre, x ≠ [] → x.length = k) ∧
      r ≠ [] ∧ r.length ≠ k := by
  induction rs with
  | nil => simp at h
  | cons a rs ih =>
    by_cases ha : a ≠ [] → a.length = k
    · have h2 : ¬ ∀ r ∈ rs, r ≠ [] → r.length = k := by
        intro h3
        apply h
        intro r hr
        rcases List.mem_cons.1 hr with rfl | hr
        · exact ha
        · exact h3 r hr
      obtain ⟨pre, r, post, h4, h5, h6, h7⟩ := ih h2
      refine ⟨a :: pre, r, post, by simp [h4], ?_, h6, h7⟩
      intro x hx
      rcases List.mem_cons.1 hx with rfl | hx
      · exact ha
      · exact h5 x hx
    · simp only [Classical.not_imp] at ha
      exact ⟨[], a, rs, rfl, by simp, ha.1, ha.2⟩

/-- What follows for `readMatrix` once the width `k` is known to be the one in force. -/
theorem readMatrix_width (reader : Reader) (opt0 opt : ReadOptions)
    (hopt : chkOptions opt0 = .ok opt) (rs : List (List Str)) (tp : Reader)
    (hrs : readRecords reader opt = (.ok rs, tp)) (k : Nat)
    (hA : (∀ r ∈ rs, r ≠ [] → r.length = k) →
      checkCounts opt rs [] none true 0 = .ok (rs.filter (fun r => r.length > 0)))
    (hB : ∀ pre r post, rs = pre ++ r :: post → (∀ x ∈ pre, x ≠ [] → x.length = k) →
      r ≠ [] → r.length ≠ k →
      checkCounts opt rs [] none true 0 = .error (fieldCountError (pre.length + 1))) :
    ((∀ r ∈ rs, r ≠ [] → r.length = k) →
      readMatrix reader opt0 = (.ok (rs.filter (fun r => r.length > 0)), tp)) ∧
    (∀ pre r post, rs = pre ++ r :: post → (∀ x ∈ pre, x ≠ [] → x.length = k) →
      r ≠ [] → r.length ≠ k →
      (readMatrix reader opt0).1 =
        .error (.parseError ⟨pre.length + 1, pre.length + 1, none, .ERR_FIELD_COUNT⟩)) ∧
    ((∃ R, (readMatrix reader opt0).1 = .ok R) ↔ ∀ r ∈ rs, r ≠ [] → r.length = k) ∧
    (∀ R, (readMatrix reader opt0).1 = .ok R → ∀ r ∈ R, r.length = k) := by
  obtain ⟨h1, h2⟩ := readMatrix_of_records reader opt0 opt hopt rs tp hrs
  have hgood : (∀ r ∈ rs, r ≠ [] → r.length = k) →
      readMatrix reader opt0 = (.ok (rs.filter (fun r => r.length > 0)), tp) :=
    fun h => h2 _ (hA h)
  have hbad : ∀ pre r post, rs = pre ++ r :: post → (∀ x ∈ pre, x ≠ [] → x.length = k) →
      r ≠ [] → r.length ≠ k →
      (readMatrix reader opt0).1 =
        .error (.parseError ⟨pre.length + 1, pre.length + 1, none, .ERR_FIELD_COUNT⟩) := by
    intro pre r post h3 h4 h5 h6
    rw [h1, hB pre r post h3 h4 h5 h6]
    rfl
  have hiff : (∃ R, (readMatrix reader opt0).1 = .ok R) → ∀ r ∈ rs, r ≠ [] → r.length = k := by
    rintro ⟨R, hR⟩
    by_contra hn
    obtain ⟨pre, r, post, h3, h4, h5, h6⟩ := exists_first_bad k rs hn
    rw [hbad pre r post h3 h4 h5 h6] at hR
    simp at hR
  refine ⟨hgood, hbad, ⟨hiff, fun h => ⟨_, by rw [hgood h]⟩⟩, ?_⟩
  intro R hR r hr
  have hall := hiff ⟨R, hR⟩
  rw [hgood hall] at hR
  simp only [Except.ok.injEq] at hR
  subst hR
  obtain ⟨hr1, hr2⟩ := List.mem_filter.1 hr
  exact hall r hr1 (List.length_pos.1 (by simpa using hr2))

/-- C9. With `fieldsPerRecord` set to `k > 0`, on an input whose records `rs` are all read
without a quote error, `readMatrix` succeeds exactly when every record of `rs` that is not
empty has `k` fields, wherever the empty records (the blank and the comment lines) are; it then
returns the non-empty records, all of `k` fields.  Otherwise it fails with the field-count
error that carries the number of the first non-empty record that has not `k` fields. -/
theorem readMatrix_fixed_width (reader : Reader) (opt0 opt : ReadOptions)
    (hopt : chkOptions opt0 = .ok opt) (k : Nat) (hk : 0 < k)
    (hf : opt0.fieldsPerRecord = some k) (rs : List (List Str)) (tp : Reader)
    (hrs : readRecords reader opt = (.ok rs, tp)) :
    ((∀ r ∈ rs, r ≠ [] → r.length = k) →
      readMatrix reader opt0 = (.ok (rs.filter (fun r => r.length > 0)), tp)) ∧
    (∀ pre r post, rs = pre ++ r :: post → (∀ x ∈ pre, x ≠ [] → x.length = k) →
      r ≠ [] → r.length ≠ k →
      (readMatrix reader opt0).1 =
        .error (.parseError ⟨pre.length + 1, pre.length + 1, none, .ERR_FIELD_COUNT⟩)) ∧
    ((∃ R, (readMatrix reader opt0).1 = .ok R) ↔ ∀ r ∈ rs, r ≠ [] → r.length = k) ∧
    (∀ R, (readMatrix reader opt0).1 = .ok R → ∀ r ∈ R, r.length = k) := by
  obtain ⟨comma, hc, hc0, _, _, _, _, _, _, _, _, _, hfp, _⟩ := chkOptions_ok opt0 opt hopt
  have hf1 : opt.fieldsPerRecord = some k := by rw [hfp, hf]
  have hk0 : ¬ (k = 0) := by omega
  have hnb : ∀ x, nbFieldsAfter opt true none x = some k := by
    intro x; simp [nbFieldsAfter, hf1, hk0]
  apply readMatrix_width reader opt0 opt hopt rs tp hrs k
  · intro h
    have := checkCounts_fixed_ok opt k rs [] none true 0 hnb h
    simpa using this
  · intro pre r post h1 h2 h3 h4
    subst h1
    have := checkCounts_fixed_error opt k hk pre r post [] none true 0 hnb h2 h3 h4
    simpa using this

/-- C9 with `fieldsPerRecord` 2 at the lines `a,b`, the empty line and `c`: the third record
read is the first of another width, and the error carries the number 3. -/
theorem readMatrix_fixed_width_witness :
    (readMatrix [[97, 44, 98], [], [99]] ⟨none, none, none, none, some 2⟩).1 =
      .error (.parseError ⟨3, 3, none, .ERR_FIELD_COUNT⟩) :=
  (readMatrix_fixed_width [[97, 44, 98], [], [99]] ⟨none, none, none, none, some 2⟩
    ⟨some [44], none, some false, none, some 2⟩ rfl 2 (by decide) rfl
    [[[97], [98]], [], [[99]]] [] rfl).2.1 [[[97], [98]], []] [[99]] [] rfl (by decide)
    (by decide) (by decide)

/-- C7. With `fieldsPerRecord` set to `0`, on an input whose first line is a line of data and
whose records `rs` are all read without a quote error, the first record is not empty and
`readMatrix` succeeds exactly when every record of `rs` that is not empty has as many fields as
the first; it then returns the non-empty records, all of that width.  Otherwise it fails with
the field-count error that carries the number of the first non-empty record of another
width. -/
theorem readMatrix_inferred_width (reader : Reader) (opt0 opt : ReadOptions)
    (hopt : chkOptions opt0 = .ok opt) (hf : opt0.fieldsPerRecord = some 0)
    (line : Str) (tp0 : Reader) (hl : readLine reader = (some line, tp0)) (hne : line ≠ [])
    (hcm : ∀ c, opt.comment = some [c] → line.head? ≠ some c)
    (rs : List (List Str)) (tp : Reader) (hrs : readRecords reader opt = (.ok rs, tp)) :
    ∃ r0 rest, rs = r0 :: rest ∧ r0 ≠ [] ∧
      ((∀ r ∈ rs, r ≠ [] → r.length = r0.length) →
        readMatrix reader opt0 = (.ok (rs.filter (fun r => r.length > 0)), tp)) ∧
      (∀ pre r post, rs = pre ++ r :: post → (∀ x ∈ pre, x ≠ [] → x.length = r0.length) →
        r ≠ [] → r.length ≠ r0.length →
        (readMatrix reader opt0).1 =
          .error (.parseError ⟨pre.length + 1, pre.length + 1, none, .ERR_FIELD_COUNT⟩)) ∧
      ((∃ R, (readMatrix reader opt0).1 = .ok R) ↔ ∀ r ∈ rs, r ≠ [] → r.length = r0.length) ∧
      (∀ R, (readMatrix reader opt0).1 = .ok R → ∀ r ∈ R, r.length = r0.length) := by
  obtain ⟨comma, hc, hc0, _, _, _, _, _, _, _, _, _, hfp, _⟩ := chkOptions_ok opt0 opt hopt
  have hf1 : opt.fieldsPerRecord = some 0 := by rw [hfp, hf]
  -- the first record
  have hfirst : ∃ r0 rest, rs = r0 :: rest ∧ r0 ≠ [] := by
    have h := hrs
    simp only [readRecords, readRecordsLoop] at h
    cases hr : readRecord 0 reader opt with
    | mk a tp1 =>
      rw [hr] at h
      cases a with
      | error e => simp at h
      | ok v =>
        cases v with
        | none =>
          have := readRecord_data_ne_nil 0 reader opt line tp0 hl hne
            (isCommentLine_false opt line hne hcm)
          cases reader with
          | nil => simp [readLine_nil] at hl
          | cons r0 t =>
            exact absurd (by rw [hr]) (readRecord_cons_ne_null opt 0 r0 t)
        | some r0 =>
          have hr0 := readRecord_data_ne_nil 0 reader opt line tp0 hl hne
            (isCommentLine_false opt line hne hcm) r0 (by rw [hr])
          simp only at h
          cases hl2 : readRecordsLoop opt reader.length tp1 (0 + 1) with
          | mk a2 tp2 =>
            rw [hl2] at h
            cases a2 with
            | error e => simp at h
            | ok rest =>
              simp only [Prod.mk.injEq, Except.ok.injEq] at h
              exact ⟨r0, rest, h.1.symm, hr0⟩
  obtain ⟨r0, rest, hrs0, hr0⟩ := hfirst
  refine ⟨r0, rest, hrs0, hr0, ?_⟩
  have hk : 0 < r0.length := List.length_pos.2 hr0
  have hnb1 : nbFieldsAfter opt true none r0 = some r0.length := by
    simp [nbFieldsAfter, hf1]
  have hnb : ∀ x, nbFieldsAfter opt false (some r0.length) x = some r0.length := by
    intro x; simp [nbFieldsAfter]
  have hstart : checkCounts opt rs [] none true 0 =
      checkCounts opt rest [r0] (some r0.length) false 1 := by
    rw [hrs0, checkCounts_cons_ok opt r0 rest [] none true 0 hr0
      (by rw [hnb1]; exact wrongCount_eq_false _ _ rfl), hnb1]
    rfl
  apply readMatrix_width reader opt0 opt hopt rs tp hrs r0.length
  · intro h
    rw [hstart, checkCounts_fixed_ok opt r0.length rest [r0] (some r0.length) false 1 hnb
      (fun r hr => h r (by rw [hrs0]; exact List.mem_cons_of_mem _ hr)),
      hrs0, filter_cons_nonempty r0 rest hr0]
    rfl
  · intro pre r post h1 h2 h3 h4
    cases pre with
    | nil =>
      rw [hrs0] at h1
      simp only [List.nil_append, List.cons.injEq] at h1
      exact absurd (by rw [h1.1]) h4
    | cons p pre1 =>
      rw [hrs0] at h1
      simp only [List.cons_append, List.cons.injEq] at h1
      obtain ⟨h5, h6⟩ := h1
      rw [hstart, h6, checkCounts_fixed_error opt r0.length hk pre1 r post [r0]
        (some r0.length) false 1 hnb (fun x hx => h2 x (List.mem_cons_of_mem _ hx)) h3 h4]
      have e : 1 + pre1.length + 1 = (p :: pre1).length + 1 := by
        simp only [List.length_cons]; omega
      rw [e]

/-- C7 at the lines `a,b,c` and `x,y`: the second record is of another width than the first,
and the call fails with the field-count error at record 2. -/
theorem readMatrix_inferred_width_witness :
    (readMatrix [[97, 44, 98, 44, 99], [120, 44, 121]] ⟨none, none, none, none, some 0⟩).1 =
      .error (.parseError ⟨2, 2, none, .ERR_FIELD_COUNT⟩) := by
  obtain ⟨r0, rest, h1, _, _, hB, _⟩ :=
    readMatrix_inferred_width [[97, 44, 98, 44, 99], [120, 44, 121]]
      ⟨none, none, none, none, some 0⟩ ⟨some [44], none, some false, none, some 0⟩ rfl rfl
      [97, 44, 98, 44, 99] [[120, 44, 121]] rfl (by decide) (by intro c h; simp at h)
      [[[97], [98], [99]], [[120], [121]]] [] rfl
  simp only [List.cons.injEq] at h1
  obtain ⟨h2, _⟩ := h1
  subst h2
  exact hB [[[97], [98], [99]]] [[120], [121]] [] rfl (by decide) (by decide) (by decide)

/-- C8, the code at the lines `a,b` and `c` with `fieldsPerRecord` 0, and at the same lines
after an empty line: the first call fails with the field-count error, the second succeeds with
two records of different widths, because the empty record read first has set the width to 0,
which switches the check off. -/
theorem readMatrix_blank_line_first :
    (readMatrix [[97, 44, 98], [99]] ⟨none, none, none, none, some 0⟩).1 =
      .error (.parseError ⟨2, 2, none, .ERR_FIELD_COUNT⟩) ∧
    (readMatrix [[], [97, 44, 98], [99]] ⟨none, none, none, none, some 0⟩).1 =
      .ok [[[97], [98]], [[99]]] ∧
    (readMatrix [[35], [97, 44, 98], [99]] ⟨none, some [35], none, none, some 0⟩).1 =
      .ok [[[97], [98]], [[99]]] := by
  refine ⟨by rfl, by rfl, by rfl⟩

/-! ### Texts and their lines -/

theorem spell_cons_ne (line : Str) (tp : Reader) (c : CodeUnit) (x : Str) (hl : LF ∉ line)
    (h : spell line tp = c :: x) (hc : c ≠ LF) : ∃ l, line = c :: l ∧ spell l tp = x := by
  cases line with
  | nil =>
    cases tp with
    | nil => simp [spell] at h
    | cons r t =>
      simp only [spell, List.nil_append, List.cons.injEq] at h
      exact absurd h.1.symm hc
  | cons a l =>
    cases tp with
    | nil =>
      simp only [spell, List.cons.injEq] at h
      exact ⟨l, by rw [h.1], by simpa [spell] using h.2⟩
    | cons r t =>
      simp only [spell, List.cons_append, List.cons.injEq] at h
      exact ⟨l, by rw [h.1], by simpa [spell] using h.2⟩

theorem spell_cons_lf (line : Str) (tp : Reader) (x : Str) (hl : LF ∉ line)
    (h : spell line tp = LF :: x) : line = [] ∧ ∃ r t, tp = r :: t ∧ spell r t = x := by
  cases line with
  | nil =>
    cases tp with
    | nil => simp [spell] at h
    | cons r t =>
      simp only [spell, List.nil_append, List.cons.injEq, true_and] at h
      exact ⟨rfl, r, t, rfl, h⟩
  | cons a l =>
    exfalso
    cases tp with
    | nil =>
      simp only [spell, List.cons.injEq] at h
      exact hl (by simp [h.1])
    | cons r t =>
      simp only [spell, List.cons_append, List.cons.injEq] at h
      exact hl (by simp [h.1])

theorem spell_nil (line : Str) (tp : Reader) (h : spell line tp = []) : line = [] ∧ tp = [] := by
  cases tp with
  | nil => exact ⟨by simpa [spell] using h, rfl⟩
  | cons r t => simp [spell] at h

theorem spell_append (p : Str) (hp : LF ∉ p) :
    ∀ (line : Str) (tp : Reader) (x : Str), LF ∉ line → spell line tp = p ++ x →
      ∃ l, line = p ++ l ∧ spell l tp = x := by
  induction p with
  | nil => intro line tp x _ h; exact ⟨line, rfl, by simpa using h⟩
  | cons a p ih =>
    intro line tp x hl h
    have ha : a ≠ LF := fun h2 => hp (by simp [h2])
    obtain ⟨l, h1, h2⟩ := spell_cons_ne line tp a (p ++ x) hl (by simpa using h) ha
    subst h1
    obtain ⟨l2, h3, h4⟩ := ih (fun h5 => hp (List.mem_cons_of_mem _ h5)) l tp x
      (fun h5 => hl (List.mem_cons_of_mem _ h5)) h2
    exact ⟨l2, by rw [h3]; rfl, h4⟩

theorem mem_spell (line : Str) (tp : Reader) (c : CodeUnit) (h : c ∈ spell line tp)
    (htp : tp = []) : c ∈ line := by
  subst htp; simpa [spell] using h

/-! ### Reading back what was written in quotes -/

theorem Lines.tail {a : CodeUnit} {l : Str} {tp : Reader} (h : Lines (a :: l) tp) :
    Lines l tp :=
  ⟨fun h1 => h.1 (List.mem_cons_of_mem _ h1), h.2.1, h.2.2⟩

theorem Lines.next {line r : Str} {t : Reader} (h : Lines line (r :: t)) :
    Lines r t ∧ readLine (r :: t) = (some r, t) :=
  ⟨⟨h.2.1 r (by simp), fun l hl => h.2.1 l (List.mem_cons_of_mem _ hl), h.2.2.2⟩, h.2.2.1⟩

/-- The scanner takes the content of a quoted field, which may go over several lines, into the
record buffer and stops in front of the closing quote. -/
theorem reach_quoted_text (opt : ReadOptions) (comma : Str) (n : Nat) (after : Str)
    (idx : List Nat) (s : Str) :
    ∀ (line : Str) (tp : Reader) (fl : Str) (li : Nat) (buf : Str),
      Lines line tp → spell line tp = escapeQuotes s ++ QUOTE :: after →
      ∃ line1 tp1 fl1 li1,
        Reach opt comma n ⟨.quoted, line, fl, li, buf, idx, tp⟩
          ⟨.quoted, line1, fl1, li1, buf ++ s, idx, tp1⟩ ∧
        Lines line1 tp1 ∧ spell line1 tp1 = QUOTE :: after := by
  induction s with
  | nil =>
    intro line tp fl li buf hL hs
    exact ⟨line, tp, fl, li, by simpa using Reach.refl opt comma n _, hL,
      by simpa [escapeQuotes] using hs⟩
  | cons c s ih =>
    intro line tp fl li buf hL hs
    by_cases hq : c = QUOTE
    · subst hq
      simp only [escapeQuotes, if_true, List.cons_append] at hs
      obtain ⟨l1, h1, h2⟩ := spell_cons_ne line tp QUOTE _ hL.1 hs (by decide)
      subst h1
      obtain ⟨l2, h3, h4⟩ := spell_cons_ne l1 tp QUOTE _ hL.tail.1 h2 (by decide)
      subst h3
      obtain ⟨line1, tp1, fl1, li1, hr, hL1, hs1⟩ :=
        ih l2 tp fl li (buf ++ [QUOTE]) hL.tail.tail h4
      refine ⟨line1, tp1, fl1, li1, ?_, hL1, hs1⟩
      have := (reach_escaped opt comma n l2 fl li buf idx tp).trans hr
      simpa using this
    · by_cases hlf : c = LF
      · subst hlf
        simp only [escapeQuotes, if_neg hq, List.cons_append] at hs
        obtain ⟨h1, r, t, h2, h3⟩ := spell_cons_lf line tp _ hL.1 hs
        subst h1; subst h2
        obtain ⟨hL2, hrl⟩ := hL.next
        obtain ⟨line1, tp1, fl1, li1, hr, hL1, hs1⟩ :=
          ih r t r (li + 1) (buf ++ [] ++ [LF]) hL2 h3
        refine ⟨line1, tp1, fl1, li1, ?_, hL1, hs1⟩
        have := (reach_nextLine opt comma n [] fl li buf idx (r :: t) r t (by simp) hrl).trans hr
        simpa using this
      · simp only [escapeQuotes, if_neg hq, List.cons_append] at hs
        obtain ⟨l1, h1, h2⟩ := spell_cons_ne line tp c _ hL.1 hs hlf
        subst h1
        obtain ⟨line1, tp1, fl1, li1, hr, hL1, hs1⟩ :=
          ih l1 tp fl li (buf ++ [c]) hL.tail h2
        refine ⟨line1, tp1, fl1, li1, ?_, hL1, hs1⟩
        have hq1 : QUOTE ∈ l1 ∨ tp ≠ [] := by
          by_cases htp : tp = []
          · left
            apply mem_spell l1 tp QUOTE _ htp
            rw [h2]; simp
          · exact Or.inr htp
        have := (reach_char opt comma n c l1 fl li buf idx tp hq hq1).trans hr
        simpa using this

theorem serializeRecord_single (comma f : Str) :
    serializeRecord comma [f] = quoteField f := by
  simp [serializeRecord, intercalate_singleton]

theorem serializeRecord_cons_cons (comma f g : Str) (gs : List Str) :
    serializeRecord comma (f :: g :: gs) =
      quoteField f ++ comma ++ serializeRecord comma (g :: gs) := by
  simp only [serializeRecord, List.map_cons, intercalate_cons_cons]

/-- The passes of the loops over a record written out: every field comes back as it was. -/
theorem reach_record (opt : ReadOptions) (comma : Str) (n : Nat) (hc0 : comma ≠ [])
    (hcq : comma.head? ≠ some QUOTE) (hcl : LF ∉ comma) (more : Str)
    (hmore : more = [] ∨ ∃ x, more = LF :: x) (fs : List Str) :
    ∀ (f line : Str) (tp : Reader) (fl : Str) (li : Nat) (buf : Str) (idx : List Nat),
      Lines line tp → spell line tp = serializeRecord comma (f :: fs) ++ more →
      ∃ t tpEnd, Reach opt comma n ⟨.parseField, line, fl, li, buf, idx, tp⟩ t ∧
        step opt comma n t =
          .done (buf ++ (f :: fs).flatten) (idx ++ fieldEnds buf.length (f :: fs)) tpEnd ∧
        EndsAt tpEnd more := by
  induction fs with
  | nil =>
    intro f line tp fl li buf idx hL hs
    rw [serializeRecord_single] at hs
    simp only [quoteField, List.cons_append, List.append_assoc, List.singleton_append] at hs
    obtain ⟨l1, h1, h2⟩ := spell_cons_ne line tp QUOTE _ hL.1 hs (by decide)
    subst h1
    obtain ⟨line1, tp1, fl1, li1, hr, hL1, hs1⟩ :=
      reach_quoted_text opt comma n more idx f l1 tp fl li buf hL.tail h2
    obtain ⟨l2, h3, h4⟩ := spell_cons_ne line1 tp1 QUOTE _ hL1.1 hs1 (by decide)
    subst h3
    have hl2 : l2 = [] := by
      rcases hmore with hm | ⟨x, hm⟩
      · rw [hm] at h4; exact (spell_nil l2 tp1 h4).1
      · rw [hm] at h4; exact (spell_cons_lf l2 tp1 x hL1.tail.1 h4).1
    subst hl2
    refine ⟨_, tp1, (reach_open opt comma n l1 fl li buf idx tp).trans hr, ?_, ?_⟩
    · simp only [step]
      rw [stepQuoted_close opt comma n _ 0 (indexOf_quote_cons_eq _) (startsWith_nil comma hc0)
        (by simp)]
      simp [fieldEnds]
    · rcases hmore with hm | ⟨x, hm⟩
      · rw [hm] at h4
        exact Or.inl ⟨hm, (spell_nil [] tp1 h4).2⟩
      · rw [hm] at h4
        obtain ⟨_, r, t, h5, h6⟩ := spell_cons_lf [] tp1 x hL1.tail.1 h4
        subst h5
        exact Or.inr ⟨r, t, rfl, by rw [hm, h6], hL1.tail.next.1, hL1.tail.next.2⟩
  | cons g gs ih =>
    intro f line tp fl li buf idx hL hs
    rw [serializeRecord_cons_cons] at hs
    simp only [quoteField, List.cons_append, List.append_assoc, List.singleton_append] at hs
    obtain ⟨l1, h1, h2⟩ := spell_cons_ne line tp QUOTE _ hL.1 hs (by decide)
    subst h1
    obtain ⟨line1, tp1, fl1, li1, hr, hL1, hs1⟩ :=
      reach_quoted_text opt comma n _ idx f l1 tp fl li buf hL.tail h2
    obtain ⟨l2, h3, h4⟩ := spell_cons_ne line1 tp1 QUOTE _ hL1.1 hs1 (by decide)
    subst h3
    obtain ⟨l3, h5, h6⟩ := spell_append comma hcl l2 tp1 _ hL1.tail.1 h4
    subst h5
    have hL3 : Lines l3 tp1 :=
      ⟨fun h => hL1.tail.1 (List.mem_append_right _ h), hL1.2.1, hL1.2.2⟩
    obtain ⟨t, tpEnd, hr2, hd, hend⟩ :=
      ih g l3 tp1 fl1 li1 (buf ++ f) (idx ++ [(buf ++ f).length]) hL3 h6
    have hst : step opt comma n ⟨.quoted, QUOTE :: (comma ++ l3), fl1, li1, buf ++ f, idx, tp1⟩ =
        .next ⟨.parseField, l3, fl1, li1, buf ++ f, idx ++ [(buf ++ f).length], tp1⟩ := by
      simp only [step]
      rw [stepQuoted_sep opt comma n _ 0 (indexOf_quote_cons_eq _)
        (by simpa using startsWith_comma_quote comma l3 hc0 hcq)
        (by simpa using startsWith_append_self comma l3)]
      simp
    refine ⟨t, tpEnd,
      ((reach_open opt comma n l1 fl li buf idx tp).trans hr).trans
        ((Reach.of_step hst).trans hr2), ?_, hend⟩
    rw [hd]
    simp [fieldEnds, List.append_assoc]

/-- `readRecord` on the lines of a record written out, followed by the end of the text or by
a line feed: the record comes back, and the reader is left at what follows. -/
theorem readRecord_serialized (opt : ReadOptions) (comma : Str) (n : Nat)
    (hc : opt.comma = some comma) (hc0 : comma ≠ []) (hcq : comma.head? ≠ some QUOTE)
    (hcl : LF ∉ comma) (hcm : opt.comment ≠ some [QUOTE]) (more : Str)
    (hmore : more = [] ∨ ∃ x, more = LF :: x) (f : Str) (fs : List Str) (line : Str)
    (tp : Reader) (hL : Lines line tp) (hv : readLine (line :: tp) = (some line, tp))
    (hs : spell line tp = serializeRecord comma (f :: fs) ++ more) :
    ∃ tpEnd, readRecord n (line :: tp) opt = (.ok (some (f :: fs)), tpEnd) ∧
      EndsAt tpEnd more := by
  obtain ⟨t, tpEnd, hr, hd, hend⟩ :=
    reach_record opt comma n hc0 hcq hcl more hmore fs f line tp line (n + 1) [] [] hL hs
  have hq : ∃ l1, line = QUOTE :: l1 := by
    cases fs with
    | nil =>
      rw [serializeRecord_single] at hs
      simp only [quoteField, List.cons_append] at hs
      obtain ⟨l1, h1, _⟩ := spell_cons_ne line tp QUOTE _ hL.1 hs (by decide)
      exact ⟨l1, h1⟩
    | cons g gs =>
      rw [serializeRecord_cons_cons] at hs
      simp only [quoteField, List.cons_append] at hs
      obtain ⟨l1, h1, _⟩ := spell_cons_ne line tp QUOTE _ hL.1 hs (by decide)
      exact ⟨l1, h1⟩
  obtain ⟨l1, hl1⟩ := hq
  refine ⟨tpEnd, ?_, hend⟩
  rw [readRecord_of_reach_done n _ opt line tp comma hv (by rw [hl1]; simp)
    (by rw [hl1]; exact isCommentLine_quote opt _ hcm) hc hc0 t hr _ _ tpEnd hd]
  have := sliceFields_fieldEnds [] (f :: fs) []
  simp only [List.nil_append, List.append_nil, List.length_nil] at this ⊢
  rw [this]

theorem serialize_single (comma : Str) (r : List Str) :
    serialize comma [r] = serializeRecord comma r := by
  simp [serialize, intercalate_singleton]

theorem serialize_cons_cons (comma : Str) (r r2 : List Str) (rs : List (List Str)) :
    serialize comma (r :: r2 :: rs) =
      serializeRecord comma r ++ LF :: serialize comma (r2 :: rs) := by
  simp only [serialize, List.map_cons, intercalate_cons_cons]
  simp

/-- The successive calls of `readRecord` on the lines of records written out give these
records back and read the lines to the end. -/
theorem readRecordsLoop_serialized (opt : ReadOptions) (comma : Str)
    (hc : opt.comma = some comma) (hc0 : comma ≠ []) (hcq : comma.head? ≠ some QUOTE)
    (hcl : LF ∉ comma) (hcm : opt.comment ≠ some [QUOTE]) (rs : List (List Str)) :
    ∀ (r : List Str), (∀ x ∈ r :: rs, x ≠ []) →
      ∀ (line : Str) (tp : Reader) (li f : Nat), Lines line tp →
        readLine (line :: tp) = (some line, tp) →
        spell line tp = serialize comma (r :: rs) → (line :: tp).length < f →
        readRecordsLoop opt f (line :: tp) li = (.ok (r :: rs), []) := by
  induction rs with
  | nil =>
    intro r hne line tp li f hL hv hs hf
    obtain ⟨a, fs, rfl⟩ := List.exists_cons_of_ne_nil (hne r (by simp))
    rw [serialize_single] at hs
    obtain ⟨tpEnd, hrr, hend⟩ :=
      readRecord_serialized opt comma li hc hc0 hcq hcl hcm [] (Or.inl rfl) a fs line tp hL hv
        (by simpa using hs)
    have htp : tpEnd = [] := by
      rcases hend with ⟨_, h⟩ | ⟨r, t, _, h, _⟩
      · exact h
      · simp at h
    subst htp
    obtain ⟨f1, rfl⟩ : ∃ f1, f = f1 + 1 + 1 := by
      simp only [List.length_cons] at hf
      exact ⟨f - 2, by omega⟩
    simp [readRecordsLoop, hrr, readRecord_nil]
  | cons r2 rs ih =>
    intro r hne line tp li f hL hv hs hf
    obtain ⟨a, fs, rfl⟩ := List.exists_cons_of_ne_nil (hne r (by simp))
    rw [serialize_cons_cons] at hs
    obtain ⟨tpEnd, hrr, hend⟩ :=
      readRecord_serialized opt comma li hc hc0 hcq hcl hcm _ (Or.inr ⟨_, rfl⟩) a fs line tp
        hL hv hs
    have hlen := (readRecord_spec li (line :: tp) opt).1 (a :: fs) (by rw [hrr])
    rw [hrr] at hlen
    simp only at hlen
    rcases hend with ⟨h, _⟩ | ⟨r1, t, h1, h2, h3, h4⟩
    · simp at h
    · subst h1
      simp only [List.cons.injEq, true_and] at h2
      obtain ⟨f1, rfl⟩ : ∃ f1, f = f1 + 1 := ⟨f - 1, by omega⟩
      have hrest := ih r2 (fun x hx => hne x (List.mem_cons_of_mem _ hx)) r1 t (li + 1) f1 h3 h4
        h2.symm (by omega)
      simp [readRecordsLoop, hrr, hrest]

/-! ### The lines of a text without carriage return before line feed -/

theorem dropTerminatorCR_of_getLast (l : Str) (h : l.getLast? ≠ some CR) :
    dropTerminatorCR l = l := by
  simp [dropTerminatorCR, h]

theorem splitLinesAux_spec (text : Str) :
    ∀ (cur : Str), LF ∉ cur → cur ++ text ≠ [] → NoCRLF (cur ++ text) →
      (cur ++ text).getLast? ≠ some CR → (cur ++ text).getLast? ≠ some LF →
      ∃ l tp, splitLinesAux cur text = l :: tp ∧ spell l tp = cur ++ text ∧ Lines l tp ∧
        readLine (l :: tp) = (some l, tp) := by
  induction text with
  | nil =>
    intro cur hlf hne hch h1 h2
    simp only [List.append_nil] at hne h1 h2
    refine ⟨cur, [], by simp [splitLinesAux, hne], by simp [spell], ⟨hlf, by simp, trivial⟩,
      readLine_verbatim cur [] h1 h2⟩
  | cons c t ih =>
    intro cur hlf hne hch h1 h2
    by_cases hc : c = LF
    · subst hc
      have hcr : cur.getLast? ≠ some CR := by
        intro h
        have := (List.chain'_append.1 hch).2.2 CR (by simp [h]) LF (by simp)
        exact this ⟨rfl, rfl⟩
      have ht : t ≠ [] := by
        intro h
        subst h
        apply h2
        simp [List.getLast?_append]
      have hlast : (cur ++ LF :: t).getLast? = t.getLast? := by
        rw [show cur ++ LF :: t = (cur ++ [LF]) ++ t by simp, List.getLast?_append_of_ne_nil _ ht]
      have hch2 : NoCRLF ([] ++ t) := by
        have := (List.chain'_append.1 hch).2.1
        exact (List.chain'_cons'.1 this).2
      obtain ⟨l, tp, h3, h4, h5, h6⟩ := ih [] (by simp) (by simpa using ht) hch2
        (by simpa [hlast] using h1) (by simpa [hlast] using h2)
      refine ⟨cur, l :: tp, by simp [splitLinesAux, dropTerminatorCR_of_getLast cur hcr, h3], ?_,
        ⟨hlf, ?_, h6, h5.2.2⟩, readLine_more cur l tp hlf⟩
      · simp only [spell, h4, List.nil_append]
      · intro x hx
        rcases List.mem_cons.1 hx with rfl | hx
        · exact h5.1
        · exact h5.2.1 x hx
    · have hlf2 : LF ∉ cur ++ [c] := by
        intro h
        rcases List.mem_append.1 h with h | h
        · exact hlf h
        · simp at h; exact hc h.symm
      have e : cur ++ [c] ++ t = cur ++ c :: t := by simp
      obtain ⟨l, tp, h3, h4, h5, h6⟩ := ih (cur ++ [c]) hlf2 (by simp) (by rw [e]; exact hch)
        (by rw [e]; exact h1) (by rw [e]; exact h2)
      exact ⟨l, tp, by simp [splitLinesAux, hc, h3], by rw [h4, e], h5, h6⟩

theorem splitLines_spec (text : Str) (hne : text ≠ []) (hch : NoCRLF text)
    (h1 : text.getLast? ≠ some CR) (h2 : text.getLast? ≠ some LF) :
    ∃ l tp, splitLines text = l :: tp ∧ spell l tp = text ∧ Lines l tp ∧
      readLine (l :: tp) = (some l, tp) := by
  have := splitLinesAux_spec text [] (by simp) (by simpa using hne) (by simpa using hch)
    (by simpa using h1) (by simpa using h2)
  simpa [splitLines] using this

/-! ### What is written out begins and ends with a quote -/

theorem escapeQuotes_head (s : Str) : (escapeQuotes s).head? = s.head? := by
  cases s with
  | nil => rfl
  | cons a t =>
    by_cases h : a = QUOTE
    · subst h; simp [escapeQuotes]
    · simp [escapeQuotes, h]

theorem NoCRLF_escapeQuotes (s : Str) (h : NoCRLF s) : NoCRLF (escapeQuotes s) := by
  induction s with
  | nil => simp [escapeQuotes]
  | cons a t ih =>
    obtain ⟨h1, h2⟩ := List.chain'_cons'.1 h
    by_cases ha : a = QUOTE
    · subst ha
      simp only [escapeQuotes, if_true]
      refine List.chain'_cons'.2 ⟨?_, List.chain'_cons'.2 ⟨?_, ih h2⟩⟩
      · intro y hy; simp at hy; subst hy; decide
      · intro y _ h3; exact absurd h3.1 (by decide)
    · simp only [escapeQuotes, if_neg ha]
      refine List.chain'_cons'.2 ⟨?_, ih h2⟩
      rw [escapeQuotes_head]
      exact h1

theorem NoCRLF_of_not_mem (l : Str) (h : LF ∉ l) : NoCRLF l := by
  induction l with
  | nil => exact List.chain'_nil
  | cons a t ih =>
    refine List.chain'_cons'.2 ⟨?_, ih (fun h1 => h (List.mem_cons_of_mem _ h1))⟩
    intro y hy h2
    apply h
    rw [← h2.2]
    exact List.mem_cons_of_mem _ (List.mem_of_mem_head? hy)

theorem Quoted.ne_nil {s : Str} (h : Quoted s) : s ≠ [] := by
  intro h1; subst h1; simp [Quoted] at h

theorem Quoted.join {x y : Str} (sep : Str) (hx : Quoted x) (hy : Quoted y) (hs : NoCRLF sep) :
    Quoted (x ++ sep ++ y) := by
  obtain ⟨x1, x2, x3⟩ := hx
  obtain ⟨y1, y2, y3⟩ := hy
  have hxne : x ≠ [] := Quoted.ne_nil ⟨x1, x2, x3⟩
  have hyne : y ≠ [] := Quoted.ne_nil ⟨y1, y2, y3⟩
  refine ⟨?_, ?_, ?_⟩
  · obtain ⟨a, t, rfl⟩ := List.exists_cons_of_ne_nil hxne
    simpa using x1
  · rw [List.getLast?_append_of_ne_nil _ hyne]; exact y2
  · refine List.chain'_append.2 ⟨List.chain'_append.2 ⟨x3, hs, ?_⟩, y3, ?_⟩
    · intro a ha b _ h
      rw [x2] at ha
      simp only [Option.mem_def, Option.some.injEq] at ha
      rw [← ha] at h
      exact absurd h.1 (by decide)
    · intro a _ b hb h
      rw [y1] at hb
      simp only [Option.mem_def, Option.some.injEq] at hb
      rw [← hb] at h
      exact absurd h.2 (by decide)

theorem Quoted.intercalate (sep : Str) (hs : NoCRLF sep) (xs : List Str) :
    ∀ x, (∀ y ∈ x :: xs, Quoted y) → Quoted (sep.intercalate (x :: xs)) := by
  induction xs with
  | nil => intro x h; rw [intercalate_singleton]; exact h x (by simp)
  | cons z zs ih =>
    intro x h
    rw [intercalate_cons_cons]
    exact Quoted.join sep (h x (by simp)) (ih z (fun y hy => h y (List.mem_cons_of_mem _ hy))) hs

theorem Quoted_quoteField (f : Str) (h : NoCRLF f) : Quoted (quoteField f) := by
  refine ⟨rfl, ?_, ?_⟩
  · rw [show quoteField f = (QUOTE :: escapeQuotes f) ++ [QUOTE] from rfl, List.getLast?_concat]
  · rw [show quoteField f = [QUOTE] ++ (escapeQuotes f ++ [QUOTE]) from rfl]
    refine List.chain'_append.2 ⟨List.chain'_singleton _, ?_, ?_⟩
    · refine List.chain'_append.2 ⟨NoCRLF_escapeQuotes f h, List.chain'_singleton _, ?_⟩
      intro a _ b hb h2
      simp only [List.head?_cons, Option.mem_def, Option.some.injEq] at hb
      rw [← hb] at h2
      exact absurd h2.2 (by decide)
    · intro a ha b _ h2
      simp only [List.getLast?_singleton, Option.mem_def, Option.some.injEq] at ha
      rw [← ha] at h2
      exact absurd h2.1 (by decide)

theorem Quoted_serializeRecord (comma : Str) (hcl : LF ∉ comma) (f : Str) (fs : List Str)
    (h : ∀ x ∈ f :: fs, NoCRLF x) : Quoted (serializeRecord comma (f :: fs)) := by
  unfold serializeRecord
  rw [List.map_cons]
  apply Quoted.intercalate comma (NoCRLF_of_not_mem comma hcl)
  intro y hy
  rw [← List.map_cons] at hy
  obtain ⟨x, hx, rfl⟩ := List.mem_map.1 hy
  exact Quoted_quoteField x (h x hx)

theorem Quoted_serialize (comma : Str) (hcl : LF ∉ comma) (r : List Str) (rs : List (List Str))
    (hne : ∀ x ∈ r :: rs, x ≠ []) (h : ∀ x ∈ r :: rs, ∀ f ∈ x, NoCRLF f) :
    Quoted (serialize comma (r :: rs)) := by
  unfold serialize
  rw [List.map_cons]
  apply Quoted.intercalate [LF] (List.chain'_singleton _)
  intro y hy
  rw [← List.map_cons] at hy
  obtain ⟨x, hx, rfl⟩ := List.mem_map.1 hy
  obtain ⟨a, fs, rfl⟩ := List.exists_cons_of_ne_nil (hne x hx)
  exact Quoted_serializeRecord comma hcl a fs (h _ hx)

/-! ### The records that `readMatrix` returns -/

theorem filter_nonempty_all (rs : List (List Str)) (h : ∀ r ∈ rs, r ≠ []) :
    rs.filter (fun r => r.length > 0) = rs := by
  apply List.filter_eq_self.2
  intro r hr
  simpa using List.length_pos.2 (h r hr)

theorem wrongCount_false_length (k : Nat) (hk : 0 < k) (r : List Str)
    (h : wrongCount (some k) r = false) : r.length = k := by
  by_contra hne
  rw [wrongCount_eq_true k r hk hne] at h
  exact absurd h (by decide)

/-- Every record that `readMatrix` returns has a field, and has `k` fields when
`fieldsPerRecord` is `k > 0`. -/
theorem readMatrixLoop_result (opt : ReadOptions) (f : Nat) :
    ∀ (reader : Reader) (result : List (List Str)) (nb : Option Nat) (first : Bool) (li : Nat)
      (R : List (List Str)) (tp : Reader),
      readMatrixLoop opt f reader result nb first li = (.ok R, tp) →
      (∀ k, opt.fieldsPerRecord = some k → 0 < k → first = true ∨ nb = some k) →
      (∀ r ∈ result, r ≠ [] ∧ ∀ k, opt.fieldsPerRecord = some k → 0 < k → r.length = k) →
      ∀ r ∈ R, r ≠ [] ∧ ∀ k, opt.fieldsPerRecord = some k → 0 < k → r.length = k := by
  induction f with
  | zero => intro reader result nb first li R tp h; simp [readMatrixLoop] at h
  | succ f ih =>
    intro reader result nb first li R tp h hJ hres
    simp only [readMatrixLoop] at h
    cases hr : readRecord li reader opt with
    | mk a tp1 =>
      rw [hr] at h
      cases a with
      | error e => simp at h
      | ok v =>
        cases v with
        | none =>
          simp only [Prod.mk.injEq, Except.ok.injEq] at h
          rw [← h.1]; exact hres
        | some r =>
          simp only at h
          have hnb : ∀ k, opt.fieldsPerRecord = some k → 0 < k →
              nbFieldsAfter opt first nb r = some k := by
            intro k hk hk0
            have hk1 : ¬ (k = 0) := by omega
            rcases hJ k hk hk0 with h1 | h1
            · simp [nbFieldsAfter, h1, hk, hk1]
            · cases first <;> simp [nbFieldsAfter, h1, hk, hk1]
          have hJ2 : ∀ k, opt.fieldsPerRecord = some k → 0 < k →
              false = true ∨ nbFieldsAfter opt first nb r = some k :=
            fun k hk hk0 => Or.inr (hnb k hk hk0)
          by_cases hr0 : r.length > 0
          · rw [if_pos hr0] at h
            by_cases hw : wrongCount (nbFieldsAfter opt first nb r) r = true
            · rw [if_pos hw] at h; simp at h
            · rw [if_neg hw] at h
              apply ih tp1 _ _ _ _ R tp h hJ2
              intro x hx
              rcases List.mem_append.1 hx with hx | hx
              · exact hres x hx
              · simp only [List.mem_singleton] at hx
                subst hx
                refine ⟨List.length_pos.1 hr0, fun k hk hk0 => ?_⟩
                rw [hnb k hk hk0] at hw
                exact wrongCount_false_length k hk0 x (by simpa using hw)
          · rw [if_neg hr0] at h
            exact ih tp1 _ _ _ _ R tp h hJ2 hres

theorem readMatrix_result (reader : Reader) (opt0 opt : ReadOptions)
    (hopt : chkOptions opt0 = .ok opt) (R : List (List Str)) (tp : Reader)
    (h : readMatrix reader opt0 = (.ok R, tp)) :
    ∀ r ∈ R, r ≠ [] ∧ ∀ k, opt.fieldsPerRecord = some k → 0 < k → r.length = k := by
  rw [readMatrix_eq_loop reader opt0 opt hopt] at h
  exact readMatrixLoop_result opt _ reader [] none true 0 R tp h (fun _ _ _ => Or.inl rfl)
    (by simp)

/-! ### Writing records out and reading them back -/

theorem readMatrix_nil (opt0 opt : ReadOptions) (hopt : chkOptions opt0 = .ok opt) :
    readMatrix [] opt0 = (.ok [], []) := by
  rw [readMatrix_eq_loop [] opt0 opt hopt]
  simp [readMatrixLoop, readRecord_nil]

/-- The field-count policy accepts records that all have a field and agree with the width
that is asked for. -/
theorem checkCounts_accepts (opt : ReadOptions) (rs : List (List Str))
    (hne : ∀ r ∈ rs, r ≠ [])
    (hk : ∀ k, opt.fieldsPerRecord = some k → 0 < k → ∀ r ∈ rs, r.length = k)
    (hz : opt.fieldsPerRecord = some 0 → ∀ r ∈ rs, ∀ x ∈ rs, r.length = x.length) :
    checkCounts opt rs [] none true 0 = .ok rs := by
  cases hf : opt.fieldsPerRecord with
  | none =>
    rw [checkCounts_unchecked opt rs [] none true 0 (by
      intro r; simp [nbFieldsAfter, hf, truthyNat]), filter_nonempty_all rs hne]
    rfl
  | some k =>
    by_cases hk0 : k = 0
    · subst hk0
      cases rs with
      | nil => simp [checkCounts]
      | cons r0 rest =>
        have hr0 : r0 ≠ [] := hne r0 (by simp)
        have hnb1 : nbFieldsAfter opt true none r0 = some r0.length := by
          simp [nbFieldsAfter, hf]
        rw [checkCounts_cons_ok opt r0 rest [] none true 0 hr0
          (by rw [hnb1]; exact wrongCount_eq_false _ _ rfl), hnb1,
          checkCounts_fixed_ok opt r0.length rest _ (some r0.length) false _
            (by intro x; simp [nbFieldsAfter])
            (fun r hr _ => hz hf r (List.mem_cons_of_mem _ hr) r0 (by simp)),
          filter_nonempty_all rest (fun r hr => hne r (List.mem_cons_of_mem _ hr))]
        rfl
    · rw [checkCounts_fixed_ok opt k rs [] none true 0 (by
        intro x; simp [nbFieldsAfter, hf, hk0])
        (fun r hr _ => hk k hf (by omega) r hr), filter_nonempty_all rs hne]
      rfl

/-- Records written out with a delimiter that holds no line feed and does not begin with a
quote are read back as they are, when every record has a field, no field holds a carriage
return right before a line feed, and the records agree with the width that is asked for. -/
theorem readMatrix_serialized (opt0 opt : ReadOptions) (comma : Str)
    (hopt : chkOptions opt0 = .ok opt) (hc : opt.comma = some comma)
    (hcq : comma.head? ≠ some QUOTE) (hcl : LF ∉ comma) (rs : List (List Str))
    (hne : ∀ r ∈ rs, r ≠ []) (hcrlf : ∀ r ∈ rs, ∀ f ∈ r, NoCRLF f)
    (hk : ∀ k, opt.fieldsPerRecord = some k → 0 < k → ∀ r ∈ rs, r.length = k)
    (hz : opt.fieldsPerRecord = some 0 → ∀ r ∈ rs, ∀ x ∈ rs, r.length = x.length) :
    readMatrix (splitLines (serialize comma rs)) opt0 = (.ok rs, []) := by
  obtain ⟨comma1, hc1, hc0, _, _, _, _, _, hcm, _⟩ := chkOptions_ok opt0 opt hopt
  have hcc : comma1 = comma := by rw [hc] at hc1; exact (Option.some.inj hc1).symm
  subst hcc
  cases rs with
  | nil => simpa [serialize, List.intercalate, splitLines, splitLinesAux] using
      readMatrix_nil opt0 opt hopt
  | cons r rest =>
    have hq := Quoted_serialize comma1 hcl r rest hne hcrlf
    obtain ⟨l, tp, h1, h2, h3, h4⟩ := splitLines_spec (serialize comma1 (r :: rest)) hq.ne_nil
      hq.2.2 (by rw [hq.2.1]; decide) (by rw [hq.2.1]; decide)
    have hrec : readRecords (l :: tp) opt = (.ok (r :: rest), []) :=
      readRecordsLoop_serialized opt comma1 hc hc0 hcq hcl hcm rest r hne l tp 0 _ h3 h4 h2
        (Nat.lt_succ_self _)
    rw [h1]
    exact (readMatrix_of_records (l :: tp) opt0 opt hopt (r :: rest) [] hrec).2 _
      (checkCounts_accepts opt (r :: rest) hne hk hz)

/-- C5, as amended.  When `readMatrix` succeeds on a text with the records `rs`, writing `rs`
out (every field in quotes with its quotes doubled, the delimiter between the fields, a line
feed between the records) and reading the result with the same options gives `rs` again,
provided that the delimiter holds no line feed and does not begin with a quote, that no field
of `rs` holds a carriage return right before a line feed, and that, when `fieldsPerRecord` is
0, the records of `rs` all have the same number of fields. -/
theorem readMatrix_roundtrip (text : Str) (opt0 opt : ReadOptions) (comma : Str)
    (rs : List (List Str)) (tp : Reader)
    (hopt : chkOptions opt0 = .ok opt) (hc : opt.comma = some comma)
    (hcq : comma.head? ≠ some QUOTE) (hcl : LF ∉ comma)
    (hparse : readMatrix (splitLines text) opt0 = (.ok rs, tp))
    (hcrlf : ∀ r ∈ rs, ∀ f ∈ r, NoCRLF f)
    (hz : opt0.fieldsPerRecord = some 0 → ∀ r ∈ rs, ∀ x ∈ rs, r.length = x.length) :
    readMatrix (splitLines (serialize comma rs)) opt0 = (.ok rs, []) := by
  have hres := readMatrix_result (splitLines text) opt0 opt hopt rs tp hparse
  obtain ⟨_, _, _, _, _, _, _, _, _, _, _, _, hfp, _⟩ := chkOptions_ok opt0 opt hopt
  exact readMatrix_serialized opt0 opt comma hopt hc hcq hcl rs (fun r hr => (hres r hr).1)
    hcrlf (fun k hk hk0 r hr => (hres r hr).2 k hk hk0) (fun h => hz (by rw [← hfp, h]))

/-- C5 as amended, at the text `a,"b""c"` followed by a line feed and `"d` on one line and `e",f`
on the next: two records of two fields, with a quote and a line feed in fields. -/
theorem readMatrix_roundtrip_witness :
    readMatrix (splitLines (serialize [44] [[[97], [98, 34, 99]], [[100, 10, 101], [102]]]))
        ⟨none, none, none, none, some 2⟩ =
      (.ok [[[97], [98, 34, 99]], [[100, 10, 101], [102]]], []) :=
  readMatrix_roundtrip
    [97, 44, 34, 98, 34, 34, 99, 34, 10, 34, 100, 10, 101, 34, 44, 102]
    ⟨none, none, none, none, some 2⟩ ⟨some [44], none, some false, none, some 2⟩ [44]
    [[[97], [98, 34, 99]], [[100, 10, 101], [102]]] [] rfl rfl (by decide) (by decide) rfl
    (by simp [NoCRLF]) (by intro h; simp at h)

/-- C5 fails as stated.  First, the text `"a\\r\\r\\nb"` is read as the one field `a\\r\\nb`; written
out, that field is on the two lines `"a` and `b"`, the carriage return going with the line
terminator, and is read back as `a\\nb`.  Second, with the delimiter `"x`, which `chkOptions`
accepts, the line `a"xb` is read as the fields `a` and `b`; written out they are `"a""x"b"`, where
the quote of the delimiter doubles the closing quote, and reading that fails with a quote
error. -/
theorem readMatrix_roundtrip_fails :
    (chkOptions ⟨none, none, none, none, none⟩ = .ok ⟨some [44], none, some false, none, none⟩ ∧
      readMatrix (splitLines [34, 97, 13, 13, 10, 98, 34]) ⟨none, none, none, none, none⟩ =
        (.ok [[[97, 13, 10, 98]]], []) ∧
      readMatrix (splitLines (serialize [44] [[[97, 13, 10, 98]]]))
          ⟨none, none, none, none, none⟩ =
        (.ok [[[97, 10, 98]]], [])) ∧
    (chkOptions ⟨some [34, 120], none, none, none, none⟩ =
        .ok ⟨some [34, 120], none, some false, none, none⟩ ∧
      readMatrix (splitLines [97, 34, 120, 98]) ⟨some [34, 120], none, none, none, none⟩ =
        (.ok [[[97], [98]]], []) ∧
      readMatrix (splitLines (serialize [34, 120] [[[97], [98]]]))
          ⟨some [34, 120], none, none, none, none⟩ =
        (.error (.parseError ⟨1, 1, some 5, .ERR_QUOTE⟩), [])) := by
  refine ⟨⟨by rfl, by rfl, by rfl⟩, ⟨by rfl, by rfl, by rfl⟩⟩

/-! ### Objects and their properties -/

theorem Obj.any_eq_false {V : Type} (out : Obj V) (k : Str) (h : k ∉ out.keys) :
    out.any (fun p => p.1 == k) = false := by
  rw [List.any_eq_false]
  intro p hp hk
  apply h
  have : p.1 = k := by simpa using hk
  rw [← this]
  exact List.mem_map_of_mem _ hp

theorem Obj.set_new {V : Type} (out : Obj V) (k : Str) (v : Value V)
    (h : k ∉ out.keys) : out.set k v = out ++ [(k, v)] := by
  unfold Obj.set
  rw [Obj.any_eq_false out k h]
  rfl

theorem Obj.get_set_self {V : Type} (out : Obj V) (k : Str) (v : Value V) :
    (out.set k v).get k = some v := by
  unfold Obj.set
  induction out with
  | nil => simp [Obj.get]
  | cons p out ih =>
    by_cases hp : p.1 = k
    · simp [Obj.get, hp]
    · have e : ((p :: out).any fun q => q.1 == k) = out.any fun q => q.1 == k := by
        simp [hp]
      rw [e]
      by_cases ha : (out.any fun q => q.1 == k) = true
      · rw [if_pos ha] at ih ⊢
        simpa [Obj.get, hp] using ih
      · rw [if_neg ha] at ih ⊢
        simpa [Obj.get, hp] using ih

theorem Obj.get_map_other {V : Type} (out : Obj V) (k k' : Str) (v : Value V) (hk : k' ≠ k) :
    Obj.get (out.map (fun p => if p.1 = k then (k, v) else p)) k' = Obj.get out k' := by
  induction out with
  | nil => rfl
  | cons p out ih =>
    unfold Obj.get at ih ⊢
    rw [List.map_cons, List.find?_cons, List.find?_cons]
    by_cases hq : p.1 = k
    · have h1 : (p.1 == k') = false := by
        rw [hq]; exact beq_false_of_ne (fun h => hk h.symm)
      have h2 : ((if p.1 = k then (k, v) else p).1 == k') = false := by
        rw [if_pos hq]; exact beq_false_of_ne (fun h => hk h.symm)
      rw [h1, h2]
      exact ih
    · rw [if_neg hq]
      cases h1 : (p.1 == k')
      · exact ih
      · rfl

theorem Obj.get_set_other {V : Type} (out : Obj V) (k k' : Str) (v : Value V) (hk : k' ≠ k) :
    (out.set k v).get k' = out.get k' := by
  unfold Obj.set
  split
  · exact Obj.get_map_other out k k' v hk
  · unfold Obj.get
    congr 1
    rw [List.find?_append]
    have : ((k, v).1 == k') = false := beq_false_of_ne (fun h => hk h.symm)
    simp [List.find?_cons, this]

theorem Obj.keys_set {V : Type} (out : Obj V) (k k' : Str) (v : Value V) :
    k' ∈ (out.set k v).keys → k' ∈ out.keys ∨ k' = k := by
  unfold Obj.set
  split
  · intro h
    unfold Obj.keys at h ⊢
    rw [List.mem_map] at h
    obtain ⟨q, hq, rfl⟩ := h
    rw [List.mem_map] at hq
    obtain ⟨p, hp, rfl⟩ := hq
    by_cases e : p.1 = k
    · right; rw [if_pos e]
    · left; rw [if_neg e]; exact List.mem_map_of_mem _ hp
  · intro h
    unfold Obj.keys at h ⊢
    simp at h ⊢
    rcases h with h | h
    · exact Or.inl h
    · exact Or.inr h

/-! ### The object made of a record -/

theorem fillObject_get_other {V : Type} (headers : List (HeaderOptions V)) (e : List Str)
    (out : Obj V) (k : Str) (hk : k ∉ headers.map (fun h => h.name)) :
    (fillObject headers e out).get k = out.get k := by
  induction headers generalizing e out with
  | nil => cases e <;> rfl
  | cons h headers ih =>
    cases e with
    | nil => rfl
    | cons f e =>
      rw [List.map_cons, List.mem_cons, not_or] at hk
      show (fillObject headers e (out.set h.name (cellValue h f))).get k = out.get k
      rw [ih e _ hk.2, Obj.get_set_other _ _ _ _ hk.1]

/-- The value stored last under a name is the one that is found there. -/
theorem fillObject_get {V : Type} (headers : List (HeaderOptions V)) (e : List Str)
    (out : Obj V) (j : Nat) (hj : j < headers.length) (he : j < e.length)
    (hlast : (headers.get ⟨j, hj⟩).name ∉ (headers.drop (j + 1)).map (fun h => h.name)) :
    (fillObject headers e out).get (headers.get ⟨j, hj⟩).name =
      some (cellValue (headers.get ⟨j, hj⟩) (e.get ⟨j, he⟩)) := by
  induction headers generalizing e out j with
  | nil => exact absurd hj (Nat.not_lt_zero _)
  | cons h headers ih =>
    cases e with
    | nil => exact absurd he (Nat.not_lt_zero _)
    | cons f e =>
      cases j with
      | zero =>
        have hl : h.name ∉ headers.map (fun h => h.name) := hlast
        show (fillObject headers e (out.set h.name (cellValue h f))).get h.name = _
        rw [fillObject_get_other headers e _ _ hl]
        exact Obj.get_set_self _ _ _
      | succ j =>
        exact ih e _ j (Nat.lt_of_succ_lt_succ hj) (Nat.lt_of_succ_lt_succ he) hlast

theorem fillObject_keys_subset {V : Type} (headers : List (HeaderOptions V)) (e : List Str)
    (out : Obj V) (k : Str) (hk : k ∈ (fillObject headers e out).keys) :
    k ∈ out.keys ∨ k ∈ headers.map (fun h => h.name) := by
  induction headers generalizing e out with
  | nil => cases e <;> exact Or.inl hk
  | cons h headers ih =>
    cases e with
    | nil => exact Or.inl hk
    | cons f e =>
      rcases ih e _ hk with h1 | h1
      · rcases Obj.keys_set _ _ _ _ h1 with h2 | h2
        · exact Or.inl h2
        · right; rw [h2]; exact List.mem_cons_self _ _
      · right; exact List.mem_cons_of_mem _ h1

/-- When the names are pairwise distinct and none is in the object yet, the loop adds one
property for every field, in the order of the fields. -/
theorem fillObject_nodup {V : Type} (headers : List (HeaderOptions V)) (e : List Str)
    (out : Obj V) (hlen : e.length = headers.length)
    (hnd : (headers.map (fun h => h.name)).Nodup)
    (hnew : ∀ k ∈ headers.map (fun h => h.name), k ∉ out.keys) :
    fillObject headers e out =
      out ++ List.zipWith (fun h f => (h.name, cellValue h f)) headers e := by
  induction headers generalizing e out with
  | nil => cases e <;> simp [fillObject]
  | cons h headers ih =>
    cases e with
    | nil => simp at hlen
    | cons f e =>
      rw [List.map_cons, List.nodup_cons] at hnd
      show fillObject headers e (out.set h.name (cellValue h f)) = _
      have hs : out.set h.name (cellValue h f) = out ++ [(h.name, cellValue h f)] :=
        Obj.set_new _ _ _ (hnew _ (List.mem_cons_self _ _))
      rw [hs, ih e _ (by simpa using hlen) hnd.2]
      · simp
      · intro k hk hmem
        unfold Obj.keys at hmem
        rw [List.map_append, List.mem_append] at hmem
        rcases hmem with h1 | h1
        · exact hnew k (List.mem_cons_of_mem _ hk) h1
        · simp at h1
          rw [h1] at hk
          exact hnd.1 hk

/-! ### The records mapped in header mode -/

theorem mapRows_ok {V E : Type} (headers : List (HeaderOptions V)) (conv : Option (Row V → E))
    (r : List (List Str)) (i : Nat) (h : ∀ e ∈ r, e.length = headers.length) :
    mapRows headers conv r i =
      .ok (r.map (fun e => finishRow conv (fillObject headers e []))) := by
  induction r generalizing i with
  | nil => rfl
  | cons e r ih =>
    unfold mapRows
    rw [if_neg (not_not.mpr (h e (List.mem_cons_self _ _))),
      ih (i + 1) (fun x hx => h x (List.mem_cons_of_mem _ hx))]
    rfl

theorem mapRows_error {V E : Type} (headers : List (HeaderOptions V))
    (conv : Option (Row V → E)) (pre : List (List Str)) (bad : List Str)
    (post : List (List Str)) (i : Nat) (h : ∀ e ∈ pre, e.length = headers.length)
    (hb : bad.length ≠ headers.length) :
    mapRows headers conv (pre ++ bad :: post) i = .error (.numberOfFields (i + pre.length)) := by
  induction pre generalizing i with
  | nil =>
    show mapRows headers conv (bad :: post) i = _
    unfold mapRows
    rw [if_pos hb]
    rfl
  | cons e pre ih =>
    show mapRows headers conv (e :: (pre ++ bad :: post)) i = _
    unfold mapRows
    rw [if_neg (not_not.mpr (h e (List.mem_cons_self _ _))),
      ih (i + 1) (fun x hx => h x (List.mem_cons_of_mem _ hx))]
    simp only [List.length_cons]
    congr 2
    omega

/-- A list of records is all of the width `n`, or has a first record of another width. -/
theorem exists_first_other_width (n : Nat) (r : List (List Str)) :
    (∀ e ∈ r, e.length = n) ∨
      ∃ pre bad post, r = pre ++ bad :: post ∧ (∀ e ∈ pre, e.length = n) ∧ bad.length ≠ n := by
  induction r with
  | nil => left; intro e he; cases he
  | cons e r ih =>
    by_cases h : e.length = n
    · rcases ih with h1 | ⟨pre, bad, post, h1, h2, h3⟩
      · left
        intro x hx
        rcases List.mem_cons.mp hx with rfl | hx
        · exact h
        · exact h1 x hx
      · right
        refine ⟨e :: pre, bad, post, by rw [h1]; rfl, ?_, h3⟩
        intro x hx
        rcases List.mem_cons.mp hx with rfl | hx
        · exact h
        · exact h2 x hx
    · right
      exact ⟨[], e, r, rfl, fun x hx => absurd hx (List.not_mem_nil x), h⟩

theorem mapRows_ok_iff {V E : Type} (headers : List (HeaderOptions V))
    (conv : Option (Row V → E)) (r : List (List Str)) (i : Nat) :
    (∃ out, mapRows headers conv r i = .ok out) ↔ ∀ e ∈ r, e.length = headers.length := by
  constructor
  · rintro ⟨out, ho⟩
    rcases exists_first_other_width headers.length r with h | ⟨pre, bad, post, h1, h2, h3⟩
    · exact h
    · rw [h1, mapRows_error headers conv pre bad post i h2 h3] at ho
      cases ho
  · intro h
    exact ⟨_, mapRows_ok headers conv r i h⟩

/-! ### `parse` in terms of `readMatrix` -/

theorem parse_of_error {V E : Type} (input : Input) (opt : ParseOptions V E) (e : CsvError)
    (rd : Reader) (hm : readMatrix input.toReader opt.toReadOptions = (.error e, rd)) :
    parse input opt = (.error (.csv e), rd) := by
  unfold parse
  rw [hm]

theorem parse_of_header {V E : Type} (input : Input) (opt : ParseOptions V E)
    (r : List (List Str)) (rd : Reader)
    (hm : readMatrix input.toReader opt.toReadOptions = (.ok r, rd))
    (ht : truthyHeader opt.header = true) (headers : List (HeaderOptions V))
    (rows : List (List Str)) (i : Nat) (hb : headerBlock opt.header r = .ok (headers, rows, i)) :
    parse input opt = (mapRows headers opt.parse rows i, rd) := by
  unfold parse
  rw [hm]
  simp only [ht, if_true, hb]

theorem parse_of_assert {V E : Type} (input : Input) (opt : ParseOptions V E)
    (r : List (List Str)) (rd : Reader)
    (hm : readMatrix input.toReader opt.toReadOptions = (.ok r, rd))
    (ht : truthyHeader opt.header = true) (x : ParseFailure)
    (hb : headerBlock opt.header r = .error x) :
    parse input opt = (.error x, rd) := by
  unfold parse
  rw [hm]
  simp only [ht, if_true, hb]

theorem parse_of_no_header {V E : Type} (input : Input) (opt : ParseOptions V E)
    (r : List (List Str)) (rd : Reader)
    (hm : readMatrix input.toReader opt.toReadOptions = (.ok r, rd))
    (ht : truthyHeader opt.header = false) :
    parse input opt =
      match opt.parse with
      | some p => (.ok (r.map (fun e => .converted (p (.fields e)))), rd)
      | none => (.ok (r.map (fun e => .row (.fields e))), rd) := by
  unfold parse
  rw [hm]
  simp only [ht]
  rfl

theorem map_named_name {V : Type} (r0 : List Str) :
    (r0.map (named : Str → HeaderOptions V)).map (fun h => h.name) = r0 := by
  induction r0 with
  | nil => rfl
  | cons a r ih => rw [List.map_cons, List.map_cons, ih]; rfl

theorem fillObject_named {V : Type} (r0 e : List Str) (hlen : e.length = r0.length)
    (hnd : r0.Nodup) :
    fillObject (r0.map (named : Str → HeaderOptions V)) e [] = r0.zip (e.map Value.str) := by
  rw [fillObject_nodup _ e [] (by rw [List.length_map]; exact hlen)
    (by rw [map_named_name]; exact hnd)
    (fun k _ hk => absurd hk (List.not_mem_nil k))]
  rw [List.nil_append]
  clear hlen hnd
  induction r0 generalizing e with
  | nil => cases e <;> rfl
  | cons a r ih =>
    cases e with
    | nil => rfl
    | cons f e =>
      rw [List.map_cons, List.map_cons, List.zipWith_cons_cons, List.zip_cons_cons, ih e]
      rfl

theorem zip_keys {V : Type} (r0 : List Str) (vs : List (Value V)) (h : vs.length = r0.length) :
    Obj.keys (r0.zip vs) = r0 := by
  unfold Obj.keys
  induction r0 generalizing vs with
  | nil => rfl
  | cons a r ih =>
    cases vs with
    | nil => simp at h
    | cons v vs =>
      rw [List.zip_cons_cons, List.map_cons, ih vs (by simpa using h)]

/-! ### Header mode -/

/-- C11: with `header: true` and no whole-record converter, when the raw records are
`r0, r1, ..., rn`, the names in `r0` are pairwise distinct and every `ri` has as many fields
as `r0`, `parse` returns exactly the `n` objects made of `r1, ..., rn`, in this order; the
object of `ri` has exactly the names of `r0` as property names and holds under the `j`-th
name the `j`-th field of `ri` as a string. -/
theorem parse_header_row {V E : Type} (input : Input) (opt : ParseOptions V E)
    (r0 : List Str) (rs : List (List Str)) (rd : Reader)
    (hh : opt.header = .flag true) (hc : opt.parse = none)
    (hm : readMatrix input.toReader opt.toReadOptions = (.ok (r0 :: rs), rd))
    (hnd : r0.Nodup) (hw : ∀ r ∈ rs, r.length = r0.length) :
    parse input opt =
        (.ok (rs.map (fun r => .row (.object (r0.zip (r.map Value.str))))), rd) ∧
      ∀ r ∈ rs, Obj.keys (r0.zip (r.map (Value.str : Str → Value V))) = r0 ∧
        ∀ (j : Nat) (h0 : j < r0.length) (h1 : j < r.length),
          Obj.get (r0.zip (r.map (Value.str : Str → Value V))) (r0.get ⟨j, h0⟩) =
            some (.str (r.get ⟨j, h1⟩)) := by
  have hb : headerBlock opt.header (r0 :: rs) = .ok (r0.map named, rs, 1) := by rw [hh]; rfl
  have hfill : ∀ r ∈ rs, fillObject (r0.map (named : Str → HeaderOptions V)) r [] =
      r0.zip (r.map Value.str) := fun r hr => fillObject_named r0 r (hw r hr) hnd
  refine ⟨?_, ?_⟩
  · rw [parse_of_header input opt _ rd hm (by rw [hh]; rfl) _ _ _ hb,
      mapRows_ok _ _ _ _ (by intro e he; rw [List.length_map]; exact hw e he), hc]
    congr 2
    apply List.map_congr_left
    intro r hr
    show Out.row (Row.object (fillObject _ r [])) = _
    rw [hfill r hr]
  · intro r hr
    refine ⟨zip_keys r0 _ (by rw [List.length_map]; exact hw r hr), ?_⟩
    intro j h0 h1
    have hj : j < (r0.map (named : Str → HeaderOptions V)).length := by
      rw [List.length_map]; exact h0
    have hg : ((r0.map (named : Str → HeaderOptions V)).get ⟨j, hj⟩) = named (r0.get ⟨j, h0⟩) := by
      simp
    have h := fillObject_get (r0.map (named : Str → HeaderOptions V)) r [] j hj h1
      (by
        rw [hg, ← List.map_drop, map_named_name]
        intro hx
        have hn := hnd
        rw [← List.take_append_drop (j + 1) r0, List.nodup_append] at hn
        refine hn.2.2 ?_ hx
        show r0.get ⟨j, h0⟩ ∈ List.take (j + 1) r0
        rw [List.mem_take_iff_getElem]
        exact ⟨j, by omega, rfl⟩)
    rw [hg, hfill r hr] at h
    exact h

/-- C11 at the input `name,age` / `Ada,30` / `Lin,25`. -/
theorem parse_header_row_witness :
    parse (.text [110, 97, 109, 101, 44, 97, 103, 101, 10, 65, 100, 97, 44, 51, 48, 10,
          76, 105, 110, 44, 50, 53])
        (⟨⟨none, none, none, none, none⟩, .flag true, none⟩ : ParseOptions Nat Nat) =
      (.ok [.row (.object [([110, 97, 109, 101], .str [65, 100, 97]),
              ([97, 103, 101], .str [51, 48])]),
            .row (.object [([110, 97, 109, 101], .str [76, 105, 110]),
              ([97, 103, 101], .str [50, 53])])], []) :=
  (parse_header_row
    (.text [110, 97, 109, 101, 44, 97, 103, 101, 10, 65, 100, 97, 44, 51, 48, 10,
          76, 105, 110, 44, 50, 53])
    (⟨⟨none, none, none, none, none⟩, .flag true, none⟩ : ParseOptions Nat Nat)
    [[110, 97, 109, 101], [97, 103, 101]]
    [[[65, 100, 97], [51, 48]], [[76, 105, 110], [50, 53]]] [] rfl rfl (by rfl)
    (by decide) (by decide)).1

theorem zipWith_keys {V : Type} (headers : List (HeaderOptions V)) (e : List Str)
    (hl : e.length = headers.length) :
    Obj.keys (List.zipWith (fun h f => (h.name, cellValue h f)) headers e) =
      headers.map (fun h => h.name) := by
  unfold Obj.keys
  induction headers generalizing e with
  | nil => cases e <;> rfl
  | cons h hs ih =>
    cases e with
    | nil => simp at hl
    | cons f e =>
      rw [List.zipWith_cons_cons, List.map_cons, List.map_cons, ih e (by simpa using hl)]

/-- C12: with an explicit list of names or of descriptors whose names are pairwise distinct,
when every raw record has as many fields as there are names, `parse` takes no row off the
data: it returns one element for every raw record, the first included, in the order of the
records.  The element is the object made of the record (given to the whole-record converter
when there is one), and the property names of that object are exactly the listed names. -/
theorem parse_explicit_header {V E : Type} (input : Input) (opt : ParseOptions V E)
    (headers : List (HeaderOptions V)) (r : List (List Str)) (rd : Reader)
    (hh : opt.header = .descriptors headers ∨
      ∃ ns, opt.header = .names ns ∧ headers = ns.map named)
    (hnd : (headers.map (fun h => h.name)).Nodup)
    (hm : readMatrix input.toReader opt.toReadOptions = (.ok r, rd))
    (hw : ∀ e ∈ r, e.length = headers.length) :
    ∃ ms : List (Obj V),
      parse input opt = (.ok (ms.map (finishRow opt.parse)), rd) ∧
      ms.length = r.length ∧
      ∀ (i : Nat) (h1 : i < ms.length) (h2 : i < r.length),
        ms.get ⟨i, h1⟩ = fillObject headers (r.get ⟨i, h2⟩) [] ∧
        (ms.get ⟨i, h1⟩).keys = headers.map (fun h => h.name) := by
  have ht : truthyHeader opt.header = true := by
    rcases hh with hh | ⟨ns, hh, _⟩ <;> rw [hh] <;> rfl
  have hb : headerBlock opt.header r = .ok (headers, r, 0) := by
    rcases hh with hh | ⟨ns, hh, hn⟩
    · rw [hh]; rfl
    · rw [hh, hn]; rfl
  refine ⟨r.map (fun e => fillObject headers e []), ?_, by rw [List.length_map], ?_⟩
  · rw [parse_of_header input opt r rd hm ht _ _ _ hb, mapRows_ok _ _ _ _ hw, List.map_map]
    rfl
  · intro i h1 h2
    have e1 : (r.map (fun e => fillObject headers e [])).get ⟨i, h1⟩ =
        fillObject headers (r.get ⟨i, h2⟩) [] := by simp
    refine ⟨e1, ?_⟩
    rw [e1, fillObject_nodup headers _ [] (hw _ (List.get_mem _ _ _)) hnd
      (fun k _ hk => absurd hk (List.not_mem_nil k)), List.nil_append]
    exact zipWith_keys headers _ (hw _ (List.get_mem _ _ _))

/-- C12 at the names `n`, `a` and the input `Ada,30` / `Lin,25`. -/
theorem parse_explicit_header_witness :
    ∃ ms : List (Obj Nat),
      parse (.text [65, 100, 97, 44, 51, 48, 10, 76, 105, 110, 44, 50, 53])
          (⟨⟨none, none, none, none, none⟩, .names [[110], [97]], none⟩ :
            ParseOptions Nat Nat) =
        (.ok (ms.map (finishRow none)), []) ∧
      ms.length = [[[65, 100, 97], [51, 48]], [[76, 105, 110], [50, 53]]].length ∧
      ∀ (i : Nat) (h1 : i < ms.length)
        (h2 : i < [[[65, 100, 97], [51, 48]], [[76, 105, 110], [50, 53]]].length),
        ms.get ⟨i, h1⟩ = fillObject [named [110], named [97]]
          ([[[65, 100, 97], [51, 48]], [[76, 105, 110], [50, 53]]].get ⟨i, h2⟩) [] ∧
        (ms.get ⟨i, h1⟩).keys =
          [named [110], named [97]].map (fun h : HeaderOptions Nat => h.name) :=
  parse_explicit_header
    (.text [65, 100, 97, 44, 51, 48, 10, 76, 105, 110, 44, 50, 53])
    (⟨⟨none, none, none, none, none⟩, .names [[110], [97]], none⟩ : ParseOptions Nat Nat)
    [named [110], named [97]] [[[65, 100, 97], [51, 48]], [[76, 105, 110], [50, 53]]] []
    (Or.inr ⟨_, rfl, rfl⟩) (by decide) (by rfl) (by decide)

/-- On lines that are all empty or comments, the loop of `readMatrix` collects nothing and
reads them all. -/
theorem readMatrixLoop_skipped (opt : ReadOptions) (reader : Reader)
    (hbl : ∀ l ∈ reader, l = [] ∨ ∃ c rest, l = c :: rest ∧ opt.comment = some [c] ∧ LF ∉ l) :
    ∀ (f : Nat), reader.length < f → ∀ (result : List (List Str)) (nb : Option Nat)
      (first : Bool) (li : Nat),
      readMatrixLoop opt f reader result nb first li = (.ok result, []) := by
  induction reader with
  | nil =>
    intro f hf result nb first li
    cases f with
    | zero => exact absurd hf (Nat.not_lt_zero _)
    | succ f => simp only [readMatrixLoop, readRecord_nil]
  | cons l tp ih =>
    intro f hf result nb first li
    cases f with
    | zero => exact absurd hf (Nat.not_lt_zero _)
    | succ f =>
      have hr : readRecord li (l :: tp) opt = (.ok (some []), tp) := by
        rcases hbl l (List.mem_cons_self _ _) with h | ⟨c, rest, h, hc, hl⟩
        · rw [h]; exact readRecord_blank li opt tp
        · rw [h] at hl ⊢; exact readRecord_comment li opt tp c rest hc hl
      simp only [readMatrixLoop, hr, List.length_nil, gt_iff_lt, lt_self_iff_false, if_false]
      exact ih (fun x hx => hbl x (List.mem_cons_of_mem _ hx)) f
        (by simp only [List.length_cons] at hf; omega) _ _ _ _

/-- C13, as stated, fails when a name occurs at two positions: with the names `a`, `a` on the
record `1,2`, the object holds `2` under `a`, which is not the field at position 0. -/
theorem parse_converters_repeated_name :
    parse (.text [49, 44, 50])
        (⟨⟨none, none, none, none, none⟩, .names [[97], [97]], none⟩ : ParseOptions Nat Nat) =
      (.ok [.row (.object [([97], .str [50])])], []) ∧
    Obj.get ([([97], .str [50])] : Obj Nat) [97] ≠ some (.str [49]) := by
  refine ⟨by rfl, by decide⟩

/-- C13 (amended): in header mode, when every data record has as many fields as the header,
the element that `parse` returns for a record is the whole-record converter applied to the
object made of the record when there is such a converter, and that object otherwise.  For
every position `j` whose name does not occur at a later position, the object holds under the
`j`-th name the converter of position `j` applied to the `j`-th field when the descriptor has
one, and the field itself otherwise. -/
theorem parse_converters {V E : Type} (input : Input) (opt : ParseOptions V E)
    (r : List (List Str)) (rd : Reader) (headers : List (HeaderOptions V))
    (rows : List (List Str)) (i : Nat)
    (hm : readMatrix input.toReader opt.toReadOptions = (.ok r, rd))
    (ht : truthyHeader opt.header = true)
    (hb : headerBlock opt.header r = .ok (headers, rows, i))
    (hw : ∀ e ∈ rows, e.length = headers.length) :
    parse input opt =
        (.ok (rows.map (fun e =>
          match opt.parse with
          | some p => .converted (p (.object (fillObject headers e [])))
          | none => .row (.object (fillObject headers e [])))), rd) ∧
      ∀ e ∈ rows, ∀ (j : Nat) (hj : j < headers.length) (he : j < e.length),
        (headers.get ⟨j, hj⟩).name ∉ (headers.drop (j + 1)).map (fun h => h.name) →
        (fillObject headers e []).get (headers.get ⟨j, hj⟩).name =
          some (match (headers.get ⟨j, hj⟩).parse with
            | some p => .converted (p (e.get ⟨j, he⟩))
            | none => .str (e.get ⟨j, he⟩)) := by
  refine ⟨?_, ?_⟩
  · rw [parse_of_header input opt r rd hm ht _ _ _ hb, mapRows_ok _ _ _ _ hw]
    rfl
  · intro e _ j hj he hlast
    exact fillObject_get headers e [] j hj he hlast

/-- C13 at the record `Ada,30` with a converter for the second field (the length of the
field) and a whole-record converter (the constant 7). -/
theorem parse_converters_witness :
    parse (.text [65, 100, 97, 44, 51, 48])
        (⟨⟨none, none, none, none, none⟩,
          .descriptors [⟨[110], none⟩, ⟨[97], some (fun s => s.length)⟩],
          some (fun _ => 7)⟩ : ParseOptions Nat Nat) =
      (.ok [.converted 7], []) ∧
    (fillObject [⟨[110], none⟩, ⟨[97], some (fun s => s.length)⟩] [[65, 100, 97], [51, 48]]
        ([] : Obj Nat)).get [97] = some (.converted 2) := by
  have h := parse_converters (.text [65, 100, 97, 44, 51, 48])
    (⟨⟨none, none, none, none, none⟩,
      .descriptors [⟨[110], none⟩, ⟨[97], some (fun s => s.length)⟩],
      some (fun _ => 7)⟩ : ParseOptions Nat Nat)
    [[[65, 100, 97], [51, 48]]] [] [⟨[110], none⟩, ⟨[97], some (fun s => s.length)⟩]
    [[[65, 100, 97], [51, 48]]] 0 (by rfl) rfl rfl (by decide)
  exact ⟨h.1, h.2 [[65, 100, 97], [51, 48]] (List.mem_cons_self _ _) 1 (by decide) (by decide)
    (by decide)⟩

theorem get?_append_length {α : Type} (pre : List α) (bad : α) (post : List α) :
    (pre ++ bad :: post).get? pre.length = some bad := by
  induction pre with
  | nil => rfl
  | cons a pre ih => exact ih

/-- C14: in header mode, when `readMatrix` succeeds, `parse` succeeds if and only if every
data record has as many fields as the header, and otherwise fails with the number of the
first data record of another width, the raw records being numbered from 0.  With
`header: true` the header row is record 0 and the data records follow it; with an explicit
list every raw record is a data record. -/
theorem parse_header_width {V E : Type} (input : Input) (opt : ParseOptions V E)
    (r : List (List Str)) (rd : Reader)
    (hm : readMatrix input.toReader opt.toReadOptions = (.ok r, rd)) :
    (opt.header = .flag true → ∀ r0 rs, r = r0 :: rs →
      ((∃ out, parse input opt = (.ok out, rd)) ↔ ∀ e ∈ rs, e.length = r0.length) ∧
      ∀ pre bad post, rs = pre ++ bad :: post → (∀ e ∈ pre, e.length = r0.length) →
        bad.length ≠ r0.length →
        parse input opt = (.error (.numberOfFields (pre.length + 1)), rd) ∧
          r.get? (pre.length + 1) = some bad) ∧
    (∀ headers, (opt.header = .descriptors headers ∨
        ∃ ns, opt.header = .names ns ∧ headers = ns.map named) →
      ((∃ out, parse input opt = (.ok out, rd)) ↔ ∀ e ∈ r, e.length = headers.length) ∧
      ∀ pre bad post, r = pre ++ bad :: post → (∀ e ∈ pre, e.length = headers.length) →
        bad.length ≠ headers.length →
        parse input opt = (.error (.numberOfFields pre.length), rd) ∧
          r.get? pre.length = some bad) := by
  have key : ∀ (headers : List (HeaderOptions V)) (rows : List (List Str)) (i : Nat),
      truthyHeader opt.header = true → headerBlock opt.header r = .ok (headers, rows, i) →
      ((∃ out, parse input opt = (.ok out, rd)) ↔ ∀ e ∈ rows, e.length = headers.length) ∧
      ∀ pre bad post, rows = pre ++ bad :: post → (∀ e ∈ pre, e.length = headers.length) →
        bad.length ≠ headers.length →
        parse input opt = (.error (.numberOfFields (i + pre.length)), rd) := by
    intro headers rows i ht hb
    have hp := parse_of_header input opt r rd hm ht _ _ _ hb
    refine ⟨?_, ?_⟩
    · rw [← mapRows_ok_iff headers opt.parse rows i, hp]
      constructor
      · rintro ⟨out, ho⟩
        exact ⟨out, (Prod.mk.inj ho).1⟩
      · rintro ⟨out, ho⟩
        exact ⟨out, by rw [ho]⟩
    · intro pre bad post h1 h2 h3
      rw [hp, h1, mapRows_error headers opt.parse pre bad post i h2 h3]
  refine ⟨?_, ?_⟩
  · intro hh r0 rs hr
    have hb : headerBlock opt.header r = .ok (r0.map named, rs, 1) := by rw [hh, hr]; rfl
    have k := key _ _ _ (by rw [hh]; rfl) hb
    rw [List.length_map] at k
    refine ⟨k.1, ?_⟩
    intro pre bad post h1 h2 h3
    refine ⟨by rw [k.2 pre bad post h1 h2 h3, Nat.add_comm], ?_⟩
    rw [hr, h1]
    exact get?_append_length pre bad post
  · intro headers hh
    have ht : truthyHeader opt.header = true := by
      rcases hh with hh | ⟨ns, hh, _⟩ <;> rw [hh] <;> rfl
    have hb : headerBlock opt.header r = .ok (headers, r, 0) := by
      rcases hh with hh | ⟨ns, hh, hn⟩
      · rw [hh]; rfl
      · rw [hh, hn]; rfl
    have k := key _ _ _ ht hb
    refine ⟨k.1, ?_⟩
    intro pre bad post h1 h2 h3
    refine ⟨by rw [k.2 pre bad post h1 h2 h3, Nat.zero_add], ?_⟩
    rw [h1]
    exact get?_append_length pre bad post

/-- C14 at the input `a,b` / `1,2` / `3` with `header: true`: the record numbered 2 has
another width. -/
theorem parse_header_width_witness :
    parse (.text [97, 44, 98, 10, 49, 44, 50, 10, 51])
        (⟨⟨none, none, none, none, none⟩, .flag true, none⟩ : ParseOptions Nat Nat) =
      (.error (.numberOfFields 2), []) ∧
    [[[97], [98]], [[49], [50]], [[51]]].get? 2 = some [[51]] :=
  ((parse_header_width (.text [97, 44, 98, 10, 49, 44, 50, 10, 51])
    (⟨⟨none, none, none, none, none⟩, .flag true, none⟩ : ParseOptions Nat Nat)
    [[[97], [98]], [[49], [50]], [[51]]] [] (by rfl)).1 rfl [[97], [98]]
    [[[49], [50]], [[51]]] rfl).2 [[[49], [50]]] [[51]] [] rfl (by decide) (by decide)

/-- C15: when `header` is absent or false, `parse` fails as `readMatrix` fails, and when
`readMatrix` returns the records `r`, `parse` returns `r` itself, record by record in the
same order, when there is no whole-record converter, and the results of the converter on the
records of `r`, as many and in the same order, when there is one. -/
theorem parse_without_header {V E : Type} (input : Input) (opt : ParseOptions V E)
    (hh : opt.header = .absent ∨ opt.header = .flag false) :
    (∀ e rd, readMatrix input.toReader opt.toReadOptions = (.error e, rd) →
      parse input opt = (.error (.csv e), rd)) ∧
    ∀ r rd, readMatrix input.toReader opt.toReadOptions = (.ok r, rd) →
      (opt.parse = none → parse input opt = (.ok (r.map (fun e => .row (.fields e))), rd)) ∧
      ∀ p, opt.parse = some p →
        parse input opt = (.ok (r.map (fun e => .converted (p (.fields e)))), rd) ∧
        (r.map (fun e => (Out.converted (p (.fields e)) : Out V E))).length = r.length := by
  have ht : truthyHeader opt.header = false := by
    rcases hh with hh | hh <;> rw [hh] <;> rfl
  refine ⟨fun e rd hm => parse_of_error input opt e rd hm, ?_⟩
  intro r rd hm
  have h := parse_of_no_header input opt r rd hm ht
  refine ⟨?_, ?_⟩
  · intro hp
    rw [h, hp]
  · intro p hp
    rw [h, hp]
    exact ⟨rfl, List.length_map _ _⟩

/-- C15 at the input `a,b` / `c,d` with `header: false` and a whole-record converter. -/
theorem parse_without_header_witness :
    parse (.text [97, 44, 98, 10, 99, 44, 100])
        (⟨⟨none, none, none, none, none⟩, .flag false, some (fun _ => 7)⟩ :
          ParseOptions Nat Nat) =
      (.ok [.converted 7, .converted 7], []) :=
  (((parse_without_header (.text [97, 44, 98, 10, 99, 44, 100])
    (⟨⟨none, none, none, none, none⟩, .flag false, some (fun _ => 7)⟩ : ParseOptions Nat Nat)
    (Or.inr rfl)).2 [[[97], [98]], [[99], [100]]] [] (by rfl)).2 (fun _ => 7) rfl).1

/-- C24: with `header: true`, when `readMatrix` returns no record `parse` fails with the error
of `assert`, and it does so on every input whose lines are all empty or comments, the input
without any line included; when `readMatrix` returns exactly one record, `parse` succeeds and
returns the empty sequence. -/
theorem parse_header_no_record {V E : Type} (input : Input) (opt : ParseOptions V E)
    (hh : opt.header = .flag true) :
    (∀ rd, readMatrix input.toReader opt.toReadOptions = (.ok [], rd) →
      parse input opt = (.error (.csv .assertion), rd)) ∧
    (∀ r0 rd, readMatrix input.toReader opt.toReadOptions = (.ok [r0], rd) →
      parse input opt = (.ok [], rd)) ∧
    ∀ o, chkOptions opt.toReadOptions = .ok o →
      (∀ l ∈ input.toReader,
        l = [] ∨ ∃ c rest, l = c :: rest ∧ o.comment = some [c] ∧ LF ∉ l) →
      parse input opt = (.error (.csv .assertion), []) := by
  have ht : truthyHeader opt.header = true := by rw [hh]; rfl
  have h0 : ∀ rd, readMatrix input.toReader opt.toReadOptions = (.ok [], rd) →
      parse input opt = (.error (.csv .assertion), rd) := by
    intro rd hm
    exact parse_of_assert input opt [] rd hm ht _ (by rw [hh]; rfl)
  refine ⟨h0, ?_, ?_⟩
  · intro r0 rd hm
    rw [parse_of_header input opt [r0] rd hm ht (r0.map named) [] 1 (by rw [hh]; rfl)]
    rfl
  · intro o ho hbl
    apply h0
    rw [readMatrix_eq_loop _ _ o ho]
    exact readMatrixLoop_skipped o _ hbl _ (Nat.lt_succ_self _) _ _ _ _

/-- C24 at an input of an empty line and a comment line. -/
theorem parse_header_no_record_witness :
    parse (.text [10, 35, 120, 10])
        (⟨⟨none, some [35], none, none, none⟩, .flag true, none⟩ : ParseOptions Nat Nat) =
      (.error (.csv .assertion), []) :=
  (parse_header_no_record (.text [10, 35, 120, 10])
    (⟨⟨none, some [35], none, none, none⟩, .flag true, none⟩ : ParseOptions Nat Nat)
    rfl).2.2 ⟨some [44], some [35], some false, none, none⟩ (by rfl)
    (by
      intro l hl
      have h : l = [] ∨ l = [35, 120] := by
        have e : Input.toReader (.text [10, 35, 120, 10]) = [[], [35, 120]] := by rfl
        rw [e] at hl
        simpa using hl
      rcases h with h | h
      · exact Or.inl h
      · exact Or.inr ⟨35, [120], h, rfl, by rw [h]; decide⟩)

/-! ### Every pass makes progress -/

/-- A pass that stays in the loops has shortened the line buffer, or has taken one more line
from the reader. -/
theorem step_progress (opt : ReadOptions) (comma : Str) (n : Nat) (s s1 : Scan)
    (hc : comma ≠ []) (h : step opt comma n s = .next s1) :
    (s1.line.length < s.line.length ∧ s1.tp = s.tp) ∨ s1.tp.length + 1 = s.tp.length := by
  have hcl : 0 < comma.length := List.length_pos.2 hc
  cases hm : s.mode with
  | parseField =>
    simp only [step, hm] at h
    have htl := trimmed_length_le opt s.line
    cases hq : startsWith (trimmed opt s.line) [QUOTE] with
    | true =>
      rw [stepField_quote _ _ _ _ hq] at h
      have := startsWith_length _ _ hq
      simp only [List.length_singleton] at this
      simp only [Step.next.injEq] at h
      subst h
      left
      exact ⟨by simp only [List.length_drop]; omega, rfl⟩
    | false =>
      cases hb : bareQuote opt (fieldUpTo (trimmed opt s.line) (indexOf (trimmed opt s.line) comma)) with
      | some j => rw [stepField_bare _ _ _ _ _ hq hb] at h; simp at h
      | none =>
        cases hi : indexOf (trimmed opt s.line) comma with
        | none =>
          rw [hi] at hb
          rw [stepField_last _ _ _ _ hq hi hb] at h; simp at h
        | some i =>
          rw [hi] at hb
          rw [stepField_sep _ _ _ _ _ hq hi hb] at h
          have := indexOf_bound _ _ _ hi
          simp only [Step.next.injEq] at h
          subst h
          left
          exact ⟨by simp only [List.length_drop]; omega, rfl⟩
  | quoted =>
    simp only [step, hm] at h
    cases hi : indexOf s.line [QUOTE] with
    | some i =>
      have hb := indexOf_bound _ _ _ hi
      simp only [List.length_singleton] at hb
      cases hq : startsWith (s.line.drop (i + 1)) [QUOTE] with
      | true =>
        rw [stepQuoted_escaped _ _ _ _ _ hi hq] at h
        simp only [Step.next.injEq] at h
        subst h
        left
        exact ⟨by simp only [List.length_drop]; omega, rfl⟩
      | false =>
        cases hs : startsWith (s.line.drop (i + 1)) comma with
        | true =>
          rw [stepQuoted_sep _ _ _ _ _ hi hq hs] at h
          simp only [Step.next.injEq] at h
          subst h
          left
          exact ⟨by simp only [List.length_drop]; omega, rfl⟩
        | false =>
          by_cases hl : s.line.drop (i + 1) = []
          · rw [hl] at hs
            rw [stepQuoted_close _ _ _ _ _ hi hs hl] at h; simp at h
          · rw [stepQuoted_stray _ _ _ _ _ hi hq hs hl] at h
            split at h
            · simp only [Step.next.injEq] at h
              subst h
              left
              exact ⟨by simp only [List.length_drop]; omega, rfl⟩
            · simp at h
    | none =>
      cases htp : s.tp with
      | nil =>
        rw [stepQuoted_eof _ _ _ _ hi htp] at h
        split at h
        · simp at h
        · split at h <;> simp at h
      | cons r0 tp1 =>
        have hr := readLine_cons_eq r0 tp1
        rw [← htp] at hr
        rw [stepQuoted_nextLine _ _ _ _ _ _ hi hr] at h
        simp only [Step.next.injEq] at h
        subst h
        right
        rfl

/-- With more fuel than there are lines, the loop of `readMatrix` does not use up its fuel. -/
theorem readMatrixLoop_terminates (opt : ReadOptions) (comma : Str) (hc : opt.comma = some comma)
    (hc0 : comma ≠ []) (f : Nat) :
    ∀ (reader : Reader) (result : List (List Str)) (nb : Option Nat) (first : Bool) (li : Nat),
      reader.length < f →
      (readMatrixLoop opt f reader result nb first li).1 ≠ .error .outOfFuel := by
  induction f with
  | zero => intro reader result nb first li hf; exact absurd hf (Nat.not_lt_zero _)
  | succ f ih =>
    intro reader result nb first li hf
    simp only [readMatrixLoop]
    have hT := readRecord_terminates li reader opt comma hc hc0
    have hS := (readRecord_spec li reader opt).1
    cases hr : readRecord li reader opt with
    | mk a tp =>
      rw [hr] at hT hS
      simp only at hT hS
      cases a with
      | error e => simpa using hT
      | ok v =>
        cases v with
        | none => simp
        | some r =>
          have hlt := hS r rfl
          simp only
          split
          · split
            · simp
            · exact ih _ _ _ _ _ (by omega)
          · exact ih _ _ _ _ _ (by omega)

/-- C23: for options that `chkOptions` accepts, every pass of the loops of `readRecord` that
does not leave them shortens the line buffer or takes one more line from the reader;
`readRecord` does not run out of fuel on any reader, and a call that returns a record has
taken at least one line from the reader; `readMatrix` does not run out of fuel on any reader:
both return a result or an error. -/
theorem readMatrix_terminates (opt0 opt : ReadOptions) (hopt : chkOptions opt0 = .ok opt) :
    (∃ comma, opt.comma = some comma ∧
      ∀ n s s1, step opt comma n s = .next s1 →
        (s1.line.length < s.line.length ∧ s1.tp = s.tp) ∨ s1.tp.length + 1 = s.tp.length) ∧
    (∀ n reader, (readRecord n reader opt).1 ≠ .error .outOfFuel ∧
      ∀ r, (readRecord n reader opt).1 = .ok (some r) →
        (readRecord n reader opt).2.length < reader.length) ∧
    ∀ reader, (readMatrix reader opt0).1 ≠ .error .outOfFuel := by
  obtain ⟨comma, hc, hc0, _⟩ := chkOptions_ok opt0 opt hopt
  refine ⟨⟨comma, hc, fun n s s1 h => step_progress opt comma n s s1 hc0 h⟩, ?_, ?_⟩
  · intro n reader
    exact ⟨readRecord_terminates n reader opt comma hc hc0, (readRecord_spec n reader opt).1⟩
  · intro reader
    rw [readMatrix_eq_loop reader opt0 opt hopt]
    exact readMatrixLoop_terminates opt comma hc hc0 _ _ _ _ _ _ (Nat.lt_succ_self _)

/-- C23 at the default options, on a reader with a quoted field over two lines. -/
theorem readMatrix_terminates_witness :
    (readMatrix [[34, 97], [98, 34, 44, 99], [100]] ⟨none, none, none, none, none⟩).1 ≠
      .error .outOfFuel :=
  (readMatrix_terminates ⟨none, none, none, none, none⟩
    ⟨some [44], none, some false, none, none⟩ (by rfl)).2.2 [[34, 97], [98, 34, 44, 99], [100]]

/-! ### Which lines are skipped -/

theorem trimLeft_whitespace (line : Str) (h : ∀ c ∈ line, isWhiteSpace c = true) :
    trimLeft line = [] := by
  unfold trimLeft
  rw [List.dropWhile_eq_nil_iff]
  exact h

/-- A line of white space only, read with `trimLeadingSpace` on, is a record of one empty
field. -/
theorem readRecord_whitespace (n : Nat) (reader : Reader) (opt : ReadOptions) (line : Str)
    (tp : Reader) (comma : Str) (hr : readLine reader = (some line, tp)) (hne : line ≠ [])
    (hcm : isCommentLine opt line = false) (hc : opt.comma = some comma) (hc0 : comma ≠ [])
    (ht : truthyBool opt.trimLeadingSpace = true) (hw : ∀ c ∈ line, isWhiteSpace c = true) :
    readRecord n reader opt = (.ok (some [[]]), tp) := by
  have htr : trimmed opt line = [] := by
    unfold trimmed
    rw [if_pos ht]
    exact trimLeft_whitespace line hw
  have hstep : step opt comma n ⟨.parseField, line, line, n + 1, [], [], tp⟩ =
      .done [] [0] tp := by
    simp only [step]
    rw [stepField_last opt comma n _ (by rw [htr]; exact startsWith_nil_quote)
      (by rw [htr]; simp [indexOf, startsWith_nil comma hc0])
      (by rw [htr]; exact bareQuote_of_not_mem opt [] (List.not_mem_nil _))]
    simp [htr]
  rw [readRecord_of_reach_done n reader opt line tp comma hr hne hcm hc hc0 _
    (Reach.refl _ _ _ _) _ _ tp hstep]
  rfl

/-- C21: for options that `chkOptions` accepts and a line as `readLine` hands it out,
`readRecord` returns the empty record, which `readMatrix` skips, if and only if the line is
empty or begins with the comment character; on every other line it fails with one of the two
quote errors or returns a record with at least one field.  A line of white space only that is
no comment, read with `trimLeadingSpace` on, is the record of one empty field, and
`readMatrix` checks its number of fields: when it is the first line and two or more fields
are asked for, `readMatrix` fails with the field-count error. -/
theorem readRecord_data_line (opt0 opt : ReadOptions) (hopt : chkOptions opt0 = .ok opt)
    (n : Nat) (reader : Reader) (line : Str) (tp : Reader)
    (hr : readLine reader = (some line, tp)) :
    ((readRecord n reader opt).1 = .ok (some []) ↔
      (line = [] ∨ isCommentLine opt line = true)) ∧
    (line ≠ [] → isCommentLine opt line = false →
      (∃ pe, (readRecord n reader opt).1 = .error (.parseError pe) ∧
        (pe.message = .ERR_BARE_QUOTE ∨ pe.message = .ERR_QUOTE)) ∨
      ∃ r, (readRecord n reader opt).1 = .ok (some r) ∧ r ≠ []) ∧
    (line ≠ [] → isCommentLine opt line = false → (∀ c ∈ line, isWhiteSpace c = true) →
      truthyBool opt0.trimLeadingSpace = true →
      readRecord n reader opt = (.ok (some [[]]), tp) ∧
      ∀ k, 2 ≤ k → opt0.fieldsPerRecord = some k →
        readMatrix reader opt0 =
          (.error (.parseError ⟨1, 1, none, .ERR_FIELD_COUNT⟩), tp)) := by
  obtain ⟨comma, hc, hc0, _, _, _, _, _, _, _, _, _, hf, htrim⟩ := chkOptions_ok opt0 opt hopt
  have hdata : line ≠ [] → isCommentLine opt line = false →
      (∃ pe, (readRecord n reader opt).1 = .error (.parseError pe) ∧
        (pe.message = .ERR_BARE_QUOTE ∨ pe.message = .ERR_QUOTE)) ∨
      ∃ r, (readRecord n reader opt).1 = .ok (some r) ∧ r ≠ [] := by
    intro hne hcm
    cases h : (readRecord n reader opt).1 with
    | error e =>
      obtain ⟨pe, he, hk⟩ := readRecord_error_kind n reader opt comma hc hc0 e h
      exact Or.inl ⟨pe, by rw [he], hk⟩
    | ok v =>
      cases v with
      | none =>
        cases reader with
        | nil => rw [readLine_nil] at hr; cases hr
        | cons r0 rest => exact absurd h (readRecord_cons_ne_null opt n r0 rest)
      | some r =>
        exact Or.inr ⟨r, rfl, readRecord_data_ne_nil n reader opt line tp hr hne hcm r h⟩
  refine ⟨?_, hdata, ?_⟩
  · constructor
    · intro h
      by_cases hne : line = []
      · exact Or.inl hne
      · right
        cases hcm : isCommentLine opt line with
        | true => rfl
        | false =>
          rcases hdata hne hcm with ⟨pe, h1, _⟩ | ⟨r, h1, h2⟩
          · rw [h] at h1; cases h1
          · rw [h] at h1
            simp only [Except.ok.injEq, Option.some.injEq] at h1
            exact absurd h1.symm h2
    · intro h
      unfold readRecord
      rw [hr]
      rcases h with h | h
      · simp [h]
      · simp [h]
  · intro hne hcm hw ht
    have hrec : ∀ m, readRecord m reader opt = (.ok (some [[]]), tp) := fun m =>
      readRecord_whitespace m reader opt line tp comma hr hne hcm hc hc0
        (by rw [htrim, ht]; rfl) hw
    refine ⟨hrec n, ?_⟩
    intro k hk hfk
    rw [readMatrix_eq_loop reader opt0 opt hopt]
    simp only [readMatrixLoop, hrec 0]
    have hnb : nbFieldsAfter opt true none [[]] = some k := by
      unfold nbFieldsAfter
      rw [hf, hfk]
      have : (k == 0) = false := by simp; omega
      simp [this]
    have hwc : wrongCount (some k) [[]] = true := by
      unfold wrongCount truthyNat
      have h1 : (k != 0) = true := by simp; omega
      have h2 : (some k != some [([] : Str)].length) = true := by simp; omega
      show ((k != 0) && (some k != some [([] : Str)].length)) = true
      rw [h1, h2]
      rfl
    rw [hnb, hwc]
    simp

/-- C21 at a line of a space, a tab and a space, with `trimLeadingSpace` on and two fields
asked for. -/
theorem readRecord_data_line_witness :
    readRecord 0 [[32, 9, 32]] ⟨some [44], none, some true, none, some 2⟩ =
        (.ok (some [[]]), []) ∧
      readMatrix [[32, 9, 32]] ⟨none, none, some true, none, some 2⟩ =
        (.error (.parseError ⟨1, 1, none, .ERR_FIELD_COUNT⟩), []) := by
  have h := (readRecord_data_line ⟨none, none, some true, none, some 2⟩
    ⟨some [44], none, some true, none, some 2⟩ (by rfl) 0 [[32, 9, 32]] [32, 9, 32] []
    (by rfl)).2.2 (by decide) (by rfl) (by decide) (by rfl)
  exact ⟨h.1, h.2 2 (Nat.le_refl _) rfl⟩

/-! ### Leading white space and the delimiter -/

theorem trimLeft_cons_ws (c : CodeUnit) (t : Str) (h : isWhiteSpace c = true) :
    trimLeft (c :: t) = trimLeft t := by
  unfold trimLeft
  rw [List.dropWhile_cons_of_pos h]

theorem trimLeft_cons_other (c : CodeUnit) (t : Str) (h : isWhiteSpace c = false) :
    trimLeft (c :: t) = c :: t := by
  unfold trimLeft
  rw [List.dropWhile_cons_of_neg (by rw [h]; exact Bool.false_ne_true)]

theorem startsWith_ws_cons (c : CodeUnit) (t : Str) (a : CodeUnit) (rest : Str)
    (hc : isWhiteSpace c = true) (ha : isWhiteSpace a = false) :
    startsWith (c :: t) (a :: rest) = false := by
  have hne : a ≠ c := by
    intro h
    rw [h, hc] at ha
    exact Bool.noConfusion ha
  unfold startsWith
  rw [List.isPrefixOf, beq_false_of_ne hne]
  rfl

/-- Leading white space holds no occurrence of a delimiter that does not begin with white
space: where the untrimmed line has none, the trimmed line has none. -/
theorem indexOf_trimLeft_none (a : CodeUnit) (rest : Str) (ha : isWhiteSpace a = false)
    (line : Str) (h : indexOf line (a :: rest) = none) :
    indexOf (trimLeft line) (a :: rest) = none := by
  induction line with
  | nil => exact h
  | cons c t ih =>
    cases hc : isWhiteSpace c with
    | true =>
      rw [trimLeft_cons_ws c t hc]
      apply ih
      simp only [indexOf, startsWith_ws_cons c t a rest hc ha] at h
      cases hi : indexOf t (a :: rest) with
      | none => rfl
      | some i => rw [hi] at h; simp at h
    | false => rw [trimLeft_cons_other c t hc]; exact h

/-- Where the untrimmed line has its first delimiter, the trimmed line has its first one: the
field before it is the untrimmed field without its leading white space, and what follows it
is the same. -/
theorem indexOf_trimLeft_some (a : CodeUnit) (rest : Str) (ha : isWhiteSpace a = false)
    (line : Str) (i : Nat) (h : indexOf line (a :: rest) = some i) :
    ∃ k, indexOf (trimLeft line) (a :: rest) = some k ∧
      (trimLeft line).take k = trimLeft (line.take i) ∧
      (trimLeft line).drop (k + (a :: rest).length) = line.drop (i + (a :: rest).length) := by
  induction line generalizing i with
  | nil =>
    refine ⟨i, h, ?_, rfl⟩
    simp [trimLeft]
  | cons c t ih =>
    cases hc : isWhiteSpace c with
    | true =>
      simp only [indexOf, startsWith_ws_cons c t a rest hc ha] at h
      cases hi : indexOf t (a :: rest) with
      | none => rw [hi] at h; simp at h
      | some i0 =>
        rw [hi] at h
        simp only [Bool.false_eq_true, if_false, Option.map_some', Option.some.injEq] at h
        subst h
        obtain ⟨k, h1, h2, h3⟩ := ih i0 hi
        refine ⟨k, ?_, ?_, ?_⟩
        · rw [trimLeft_cons_ws c t hc]; exact h1
        · rw [trimLeft_cons_ws c t hc, h2, List.take_succ_cons, trimLeft_cons_ws c _ hc]
        · rw [trimLeft_cons_ws c t hc, h3]
          have e : i0 + 1 + (a :: rest).length = (i0 + (a :: rest).length) + 1 := by omega
          rw [e, List.drop_succ_cons]
    | false =>
      refine ⟨i, by rw [trimLeft_cons_other c t hc]; exact h, ?_, by
        rw [trimLeft_cons_other c t hc]⟩
      rw [trimLeft_cons_other c t hc]
      cases i with
      | zero => simp [trimLeft]
      | succ j => rw [List.take_succ_cons, trimLeft_cons_other c _ hc]

theorem not_mem_trimLeft (line : Str) (c : CodeUnit) (h : c ∉ line) : c ∉ trimLeft line :=
  fun hx => h ((List.dropWhile_sublist _).subset hx)

theorem trimmed_on (opt : ReadOptions) (l : Str) (h : truthyBool opt.trimLeadingSpace = true) :
    trimmed opt l = trimLeft l := by
  simp [trimmed, h]

/-- The passes of `parseField` over a line without quotes, with `trimLeadingSpace` off and
with it on, for a delimiter that does not begin with white space: the line is cut at the same
places, and with `trimLeadingSpace` on every field lacks its leading white space. -/
theorem reach_unquoted_trim (opt optT : ReadOptions) (n : Nat) (a : CodeUnit) (rest : Str)
    (ha : isWhiteSpace a = false) (ht : truthyBool opt.trimLeadingSpace = false)
    (htT : truthyBool optT.trimLeadingSpace = true) (m : Nat) :
    ∀ (line : Str), line.length ≤ m → QUOTE ∉ line →
      ∀ (fl : Str) (li : Nat) (buf : Str) (idx : List Nat) (bufT : Str) (idxT : List Nat)
        (tp : Reader),
        ∃ fields t tT, fields ≠ [] ∧
          Reach opt (a :: rest) n ⟨.parseField, line, fl, li, buf, idx, tp⟩ t ∧
          step opt (a :: rest) n t =
            .done (buf ++ fields.flatten) (idx ++ fieldEnds buf.length fields) tp ∧
          Reach optT (a :: rest) n ⟨.parseField, line, fl, li, bufT, idxT, tp⟩ tT ∧
          step optT (a :: rest) n tT =
            .done (bufT ++ (fields.map trimLeft).flatten)
              (idxT ++ fieldEnds bufT.length (fields.map trimLeft)) tp := by
  induction m with
  | zero =>
    intro line hl hq fl li buf idx bufT idxT tp
    have hnil : line = [] := List.length_eq_zero.1 (Nat.le_zero.1 hl)
    subst hnil
    have hi : indexOf [] (a :: rest) = none := by simp [indexOf, startsWith]
    refine ⟨[[]], _, _, by simp, Reach.refl _ _ _ _, ?_, Reach.refl _ _ _ _, ?_⟩
    · simp only [step]
      rw [stepField_last opt _ n _ (by simp [trimmed_off _ _ ht, startsWith_nil_quote])
        (by simpa [trimmed_off _ _ ht] using hi)
        (by simpa [trimmed_off _ _ ht] using bareQuote_of_not_mem opt [] hq)]
      simp [trimmed_off _ _ ht, fieldEnds]
    · simp only [step]
      have e : trimmed optT [] = [] := by rw [trimmed_on _ _ htT]; rfl
      rw [stepField_last optT _ n _ (by simp [e, startsWith_nil_quote])
        (by simpa [e] using hi)
        (by simpa [e] using bareQuote_of_not_mem optT [] hq)]
      simp [e, fieldEnds, trimLeft]
  | succ m ih =>
    intro line hl hq fl li buf idx bufT idxT tp
    have hqT : QUOTE ∉ trimLeft line := not_mem_trimLeft line QUOTE hq
    cases hi : indexOf line (a :: rest) with
    | none =>
      refine ⟨[line], _, _, by simp, Reach.refl _ _ _ _, ?_, Reach.refl _ _ _ _, ?_⟩
      · simp only [step]
        rw [stepField_last opt _ n _
          (by simpa [trimmed_off _ _ ht] using startsWith_quote_of_not_mem line hq)
          (by simpa [trimmed_off _ _ ht] using hi)
          (by simpa [trimmed_off _ _ ht] using bareQuote_of_not_mem opt line hq)]
        simp [trimmed_off _ _ ht, fieldEnds]
      · simp only [step]
        have e : trimmed optT line = trimLeft line := trimmed_on _ _ htT
        rw [stepField_last optT _ n _
          (by simpa [e] using startsWith_quote_of_not_mem _ hqT)
          (by simpa [e] using indexOf_trimLeft_none a rest ha line hi)
          (by simpa [e] using bareQuote_of_not_mem optT _ hqT)]
        simp [e, fieldEnds]
    | some i =>
      have hb := indexOf_bound line (a :: rest) i hi
      obtain ⟨k, hk1, hk2, hk3⟩ := indexOf_trimLeft_some a rest ha line i hi
      have hq1 : QUOTE ∉ line.take i := fun h => hq (List.mem_of_mem_take h)
      have hq1T : QUOTE ∉ (trimLeft line).take k := fun h => hqT (List.mem_of_mem_take h)
      have hq2 : QUOTE ∉ line.drop (i + (a :: rest).length) :=
        fun h => hq (List.mem_of_mem_drop h)
      have hlen : (line.drop (i + (a :: rest).length)).length ≤ m := by
        simp only [List.length_drop, List.length_cons] at hb hl ⊢; omega
      obtain ⟨fields, t, tT, hne, hreach, hdone, hreachT, hdoneT⟩ :=
        ih (line.drop (i + (a :: rest).length)) hlen hq2 fl li (buf ++ line.take i)
          (idx ++ [(buf ++ line.take i).length]) (bufT ++ trimLeft (line.take i))
          (idxT ++ [(bufT ++ trimLeft (line.take i)).length]) tp
      have hstep : step opt (a :: rest) n ⟨.parseField, line, fl, li, buf, idx, tp⟩ =
          .next ⟨.parseField, line.drop (i + (a :: rest).length), fl, li, buf ++ line.take i,
            idx ++ [(buf ++ line.take i).length], tp⟩ := by
        simp only [step]
        rw [stepField_sep opt _ n _ i
          (by simpa [trimmed_off _ _ ht] using startsWith_quote_of_not_mem line hq)
          (by simpa [trimmed_off _ _ ht] using hi)
          (by simpa [trimmed_off _ _ ht] using bareQuote_of_not_mem opt _ hq1)]
        simp [trimmed_off _ _ ht]
      have e : trimmed optT line = trimLeft line := trimmed_on _ _ htT
      have hstepT : step optT (a :: rest) n ⟨.parseField, line, fl, li, bufT, idxT, tp⟩ =
          .next ⟨.parseField, line.drop (i + (a :: rest).length), fl, li,
            bufT ++ trimLeft (line.take i),
            idxT ++ [(bufT ++ trimLeft (line.take i)).length], tp⟩ := by
        simp only [step]
        rw [stepField_sep optT _ n _ k
          (by simpa [e] using startsWith_quote_of_not_mem _ hqT)
          (by simpa [e] using hk1)
          (by simpa [e] using bareQuote_of_not_mem optT _ hq1T)]
        simp only [e, hk2, hk3]
      refine ⟨line.take i :: fields, t, tT, by simp, (Reach.of_step hstep).trans hreach, ?_,
        (Reach.of_step hstepT).trans hreachT, ?_⟩
      · rw [hdone]
        simp [fieldEnds, List.append_assoc]
      · rw [hdoneT]
        simp [fieldEnds, List.append_assoc]

theorem chkOptions_eq (opt0 opt : ReadOptions) (h : chkOptions opt0 = .ok opt) :
    opt = defaultTrim (defaultComma opt0) := by
  unfold chkOptions at h
  simp only at h
  split at h
  · cases h
  · injection h with h
    exact h.symm

theorem defaultComma_comma (opt0 : ReadOptions) (t : Option Bool) :
    (defaultComma { opt0 with trimLeadingSpace := t }).comma = (defaultComma opt0).comma ∧
    (defaultComma { opt0 with trimLeadingSpace := t }).comment = opt0.comment ∧
    (defaultComma { opt0 with trimLeadingSpace := t }).trimLeadingSpace = t := by
  unfold defaultComma
  split <;> exact ⟨rfl, rfl, rfl⟩

theorem defaultTrim_fields (opt : ReadOptions) :
    (defaultTrim opt).comma = opt.comma ∧ (defaultTrim opt).comment = opt.comment ∧
      truthyBool (defaultTrim opt).trimLeadingSpace = truthyBool opt.trimLeadingSpace := by
  unfold defaultTrim
  split
  · rename_i h
    refine ⟨rfl, rfl, ?_⟩
    cases ht : truthyBool opt.trimLeadingSpace with
    | true => rw [ht] at h; simp at h
    | false => rfl
  · exact ⟨rfl, rfl, rfl⟩

/-- C22, as stated, fails for a delimiter that is white space: with the tab as delimiter,
the line `a`, tab, tab, `b` has three fields with `trimLeadingSpace` off and two with it on,
both option sets being accepted by `chkOptions`. -/
theorem readRecord_trim_tab :
    chkOptions ⟨some [9], none, some false, none, none⟩ =
        .ok ⟨some [9], none, some false, none, none⟩ ∧
      chkOptions ⟨some [9], none, some true, none, none⟩ =
        .ok ⟨some [9], none, some true, none, none⟩ ∧
      readRecord 0 [[97, 9, 9, 98]] ⟨some [9], none, some false, none, none⟩ =
        (.ok (some [[97], [], [98]]), []) ∧
      readRecord 0 [[97, 9, 9, 98]] ⟨some [9], none, some true, none, none⟩ =
        (.ok (some [[97], [98]]), []) := by
  refine ⟨by rfl, by rfl, by rfl, by rfl⟩

/-- C22 (amended): for options that `chkOptions` accepts with `trimLeadingSpace` off and the
same options with `trimLeadingSpace` on, when the delimiter does not begin with a white-space
character, on every non-empty line without quote characters that does not begin with the
comment character `readRecord` returns with `trimLeadingSpace` on as many fields as with it
off, and its `j`-th field is the `j`-th field of the untrimmed result without its leading
white space. -/
theorem readRecord_trimLeadingSpace (opt0 opt optT : ReadOptions)
    (hoff : truthyBool opt0.trimLeadingSpace = false)
    (hopt : chkOptions opt0 = .ok opt)
    (hoptT : chkOptions { opt0 with trimLeadingSpace := some true } = .ok optT)
    (a : CodeUnit) (rest : Str) (hc : opt.comma = some (a :: rest))
    (ha : isWhiteSpace a = false)
    (n : Nat) (reader : Reader) (line : Str) (tp : Reader)
    (hr : readLine reader = (some line, tp)) (hne : line ≠ []) (hq : QUOTE ∉ line)
    (hcm : isCommentLine opt line = false) :
    ∃ fields fieldsT,
      readRecord n reader opt = (.ok (some fields), tp) ∧
      readRecord n reader optT = (.ok (some fieldsT), tp) ∧
      fieldsT.length = fields.length ∧
      ∀ (j : Nat) (h1 : j < fields.length) (h2 : j < fieldsT.length),
        fieldsT.get ⟨j, h2⟩ = trimLeft (fields.get ⟨j, h1⟩) := by
  have e1 := chkOptions_eq opt0 opt hopt
  have e2 := chkOptions_eq _ optT hoptT
  have hd := defaultComma_comma opt0 (some true)
  have hd1 := defaultTrim_fields (defaultComma opt0)
  have hd2 := defaultTrim_fields (defaultComma { opt0 with trimLeadingSpace := some true })
  have hd0 := defaultComma_comma opt0 opt0.trimLeadingSpace
  have hcT : optT.comma = some (a :: rest) := by
    rw [e2, hd2.1, hd.1, ← hd1.1, ← e1, hc]
  have hcmt : optT.comment = opt.comment := by
    rw [e2, hd2.2.1, hd.2.1, e1, hd1.2.1]
    exact hd0.2.1.symm
  have ht : truthyBool opt.trimLeadingSpace = false := by
    rw [e1, hd1.2.2]
    have := hd0.2.2
    rw [this]
    exact hoff
  have htT : truthyBool optT.trimLeadingSpace = true := by
    rw [e2, hd2.2.2, hd.2.2]
    rfl
  have hcmT : isCommentLine optT line = false := by
    unfold isCommentLine at hcm ⊢
    rw [hcmt]
    exact hcm
  obtain ⟨fields, t, tT, _, hreach, hdone, hreachT, hdoneT⟩ :=
    reach_unquoted_trim opt optT n a rest ha ht htT line.length line (le_refl _) hq line
      (n + 1) [] [] [] [] tp
  have s1 := sliceFields_fieldEnds [] fields []
  have s2 := sliceFields_fieldEnds [] (fields.map trimLeft) []
  simp only [List.nil_append, List.append_nil, List.length_nil] at s1 s2
  refine ⟨fields, fields.map trimLeft, ?_, ?_, List.length_map _ _, ?_⟩
  · rw [readRecord_of_reach_done n reader opt line tp _ hr hne hcm hc (List.cons_ne_nil _ _) t
      hreach _ _ tp hdone]
    simp only [List.nil_append, List.length_nil]
    rw [s1]
  · rw [readRecord_of_reach_done n reader optT line tp _ hr hne hcmT hcT (List.cons_ne_nil _ _)
      tT hreachT _ _ tp hdoneT]
    simp only [List.nil_append, List.length_nil]
    rw [s2]
  · intro j h1 h2
    simp

/-- C22 (amended) at the line ` a,  b,c` with the comma as delimiter. -/
theorem readRecord_trimLeadingSpace_witness :
    ∃ fields fieldsT,
      readRecord 0 [[32, 97, 44, 32, 32, 98, 44, 99]] ⟨some [44], none, some false, none, none⟩ =
        (.ok (some fields), []) ∧
      readRecord 0 [[32, 97, 44, 32, 32, 98, 44, 99]] ⟨some [44], none, some true, none, none⟩ =
        (.ok (some fieldsT), []) ∧
      fieldsT.length = fields.length ∧
      ∀ (j : Nat) (h1 : j < fields.length) (h2 : j < fieldsT.length),
        fieldsT.get ⟨j, h2⟩ = trimLeft (fields.get ⟨j, h1⟩) :=
  readRecord_trimLeadingSpace ⟨none, none, none, none, none⟩
    ⟨some [44], none, some false, none, none⟩ ⟨some [44], none, some true, none, none⟩
    rfl (by rfl) (by rfl) 44 [] rfl (by decide) 0 [[32, 97, 44, 32, 32, 98, 44, 99]]
    [32, 97, 44, 32, 32, 98, 44, 99] [] (by rfl) (by decide) (by decide) (by rfl)

/-! ### Bare quotes with `lazyQuotes` -/

theorem bareQuote_lazy (opt : ReadOptions) (l : Str) (h : truthyBool opt.lazyQuotes = true) :
    bareQuote opt l = none := by
  simp [bareQuote, h]

theorem bareQuote_strict (opt : ReadOptions) (l : Str) (h : truthyBool opt.lazyQuotes = false) :
    bareQuote opt l = indexOf l [QUOTE] := by
  simp [bareQuote, h]

theorem startsWith_quote_of_head (l : Str) (h : l.head? ≠ some QUOTE) :
    startsWith l [QUOTE] = false := by
  cases l with
  | nil => exact startsWith_nil_quote
  | cons c t =>
    rw [startsWith_quote_cons]
    have : c ≠ QUOTE := fun h2 => h (by rw [h2]; rfl)
    simp [this]

theorem indexOf_quote_of_mem (l : Str) (h : QUOTE ∈ l) : ∃ j, indexOf l [QUOTE] = some j := by
  cases hi : indexOf l [QUOTE] with
  | some j => exact ⟨j, rfl⟩
  | none =>
    exfalso
    apply indexOf_none_not_infix l [QUOTE] hi
    obtain ⟨a, b, rfl⟩ := List.append_of_mem h
    exact ⟨a, b, by simp⟩

/-- With `lazyQuotes` and `trimLeadingSpace` off, a pass of `parseField` over an unquoted
field that holds a quote raises the bare-quote error. -/
theorem step_bare_strict (optS : ReadOptions) (comma : Str) (n : Nat) (line fl : Str) (li : Nat)
    (buf : Str) (idx : List Nat) (tp : Reader)
    (htS : truthyBool optS.trimLeadingSpace = false) (hlS : truthyBool optS.lazyQuotes = false)
    (hsw : startsWith line [QUOTE] = false)
    (hqm : QUOTE ∈ fieldUpTo line (indexOf line comma)) :
    ∃ e, step optS comma n ⟨.parseField, line, fl, li, buf, idx, tp⟩ = .fail e tp ∧
      e.message = .ERR_BARE_QUOTE ∧ e.startLine = n + 1 ∧ e.line = li := by
  obtain ⟨j, hj⟩ := indexOf_quote_of_mem _ hqm
  have hf := stepField_bare optS comma n ⟨.parseField, line, fl, li, buf, idx, tp⟩ j
    (by simpa [trimmed_off _ _ htS] using hsw)
    (by
      simp only [trimmed_off _ _ htS]
      rw [bareQuote_strict optS _ hlS]
      exact hj)
  exact ⟨_, hf, rfl, rfl, rfl⟩

/-- What is left of a line after a delimiter does not begin with a quote when no delimiter of
the line is followed by a quote. -/
theorem drop_head_ne_quote (line comma : Str) (i : Nat) (hi : indexOf line comma = some i)
    (h : ¬ (comma ++ [QUOTE]) <:+: line) :
    (line.drop (i + comma.length)).head? ≠ some QUOTE ∧
      ¬ (comma ++ [QUOTE]) <:+: line.drop (i + comma.length) := by
  have hs := indexOf_split line comma i hi
  constructor
  · intro hq
    apply h
    cases hd : line.drop (i + comma.length) with
    | nil => rw [hd] at hq; cases hq
    | cons c t =>
      rw [hd] at hq hs
      simp only [List.head?_cons, Option.some.injEq] at hq
      subst hq
      have e : line.take i ++ (comma ++ [QUOTE]) ++ t = line.take i ++ comma ++ QUOTE :: t := by
        simp
      exact ⟨line.take i, t, e.trans hs.symm⟩
  · intro hx
    apply h
    exact List.IsInfix.trans hx (List.drop_suffix _ _).isInfix

/-- The passes of `parseField` over a line in which no field begins with a quote, with
`trimLeadingSpace` off: with `lazyQuotes` on the line is cut at the delimiter, quotes being
kept; with `lazyQuotes` off the same passes are made until a field with a quote is met, which
raises the bare-quote error. -/
theorem reach_lazy (opt optS : ReadOptions) (comma : Str) (n : Nat) (hc0 : comma ≠ [])
    (ht : truthyBool opt.trimLeadingSpace = false)
    (htS : truthyBool optS.trimLeadingSpace = false)
    (hl : truthyBool opt.lazyQuotes = true) (hlS : truthyBool optS.lazyQuotes = false)
    (m : Nat) :
    ∀ (line : Str), line.length ≤ m → line.head? ≠ some QUOTE →
      ¬ (comma ++ [QUOTE]) <:+: line →
      ∀ (fl : Str) (li : Nat) (buf : Str) (idx : List Nat) (tp : Reader),
        ∃ fields t, fields ≠ [] ∧
          Reach opt comma n ⟨.parseField, line, fl, li, buf, idx, tp⟩ t ∧
          step opt comma n t =
            .done (buf ++ fields.flatten) (idx ++ fieldEnds buf.length fields) tp ∧
          comma.intercalate fields = line ∧ (∀ f ∈ fields, ¬ comma <:+: f) ∧
          ((∀ f ∈ fields, QUOTE ∉ f) ∨
            ∃ tS e, Reach optS comma n ⟨.parseField, line, fl, li, buf, idx, tp⟩ tS ∧
              step optS comma n tS = .fail e tp ∧ e.message = .ERR_BARE_QUOTE ∧
              e.startLine = n + 1 ∧ e.line = li) := by
  induction m with
  | zero =>
    intro line hlen hq hinf fl li buf idx tp
    have hnil : line = [] := List.length_eq_zero.1 (Nat.le_zero.1 hlen)
    subst hnil
    have hi : indexOf [] comma = none := by simp [indexOf, startsWith_nil comma hc0]
    refine ⟨[[]], _, by simp, Reach.refl _ _ _ _, ?_, by simp [List.intercalate], ?_, ?_⟩
    · simp only [step]
      rw [stepField_last opt comma n _ (by simp [trimmed_off _ _ ht, startsWith_nil_quote])
        (by simpa [trimmed_off _ _ ht] using hi)
        (bareQuote_lazy opt _ hl)]
      simp [trimmed_off _ _ ht, fieldEnds]
    · intro f hf
      simp only [List.mem_singleton] at hf
      subst hf
      simpa using hc0
    · left
      intro f hf
      simp only [List.mem_singleton] at hf
      subst hf
      exact List.not_mem_nil _
  | succ m ih =>
    intro line hlen hq hinf fl li buf idx tp
    have hsw : startsWith line [QUOTE] = false := startsWith_quote_of_head line hq
    cases hi : indexOf line comma with
    | none =>
      refine ⟨[line], _, by simp, Reach.refl _ _ _ _, ?_, by simp [List.intercalate], ?_, ?_⟩
      · simp only [step]
        rw [stepField_last opt comma n _
          (by simpa [trimmed_off _ _ ht] using hsw)
          (by simpa [trimmed_off _ _ ht] using hi)
          (bareQuote_lazy opt _ hl)]
        simp [trimmed_off _ _ ht, fieldEnds]
      · intro f hf
        simp only [List.mem_singleton] at hf
        subst hf
        exact indexOf_none_not_infix f comma hi
      · by_cases hqm : QUOTE ∈ line
        · right
          obtain ⟨e, he, hm⟩ := step_bare_strict optS comma n line fl li buf idx tp htS hlS hsw
            (by rw [hi]; exact hqm)
          exact ⟨_, e, Reach.refl _ _ _ _, he, hm⟩
        · left
          intro f hf
          simp only [List.mem_singleton] at hf
          subst hf
          exact hqm
    | some i =>
      have hb := indexOf_bound line comma i hi
      have hcl : 0 < comma.length := List.length_pos.2 hc0
      obtain ⟨hq2, hinf2⟩ := drop_head_ne_quote line comma i hi hinf
      have hlen2 : (line.drop (i + comma.length)).length ≤ m := by
        simp only [List.length_drop]; omega
      obtain ⟨fields, t, hne, hreach, hdone, hint, hnin, hS⟩ :=
        ih (line.drop (i + comma.length)) hlen2 hq2 hinf2 fl li (buf ++ line.take i)
          (idx ++ [(buf ++ line.take i).length]) tp
      have hstep : step opt comma n ⟨.parseField, line, fl, li, buf, idx, tp⟩ =
          .next ⟨.parseField, line.drop (i + comma.length), fl, li, buf ++ line.take i,
            idx ++ [(buf ++ line.take i).length], tp⟩ := by
        simp only [step]
        rw [stepField_sep opt comma n _ i
          (by simpa [trimmed_off _ _ ht] using hsw)
          (by simpa [trimmed_off _ _ ht] using hi)
          (bareQuote_lazy opt _ hl)]
        simp [trimmed_off _ _ ht]
      refine ⟨line.take i :: fields, t, by simp, (Reach.of_step hstep).trans hreach, ?_, ?_, ?_,
        ?_⟩
      · rw [hdone]
        simp [fieldEnds, List.append_assoc]
      · obtain ⟨g, gs, rfl⟩ := List.exists_cons_of_ne_nil hne
        rw [intercalate_cons_cons, hint]
        exact (indexOf_split line comma i hi).symm
      · intro f hf
        rcases List.mem_cons.1 hf with rfl | hf
        · exact indexOf_some_not_infix line comma i hc0 hi
        · exact hnin f hf
      · by_cases hqm : QUOTE ∈ line.take i
        · right
          obtain ⟨e, he, hm⟩ := step_bare_strict optS comma n line fl li buf idx tp htS hlS hsw
            (by rw [hi]; exact hqm)
          exact ⟨_, e, Reach.refl _ _ _ _, he, hm⟩
        · have hstepS : step optS comma n ⟨.parseField, line, fl, li, buf, idx, tp⟩ =
              .next ⟨.parseField, line.drop (i + comma.length), fl, li, buf ++ line.take i,
                idx ++ [(buf ++ line.take i).length], tp⟩ := by
            simp only [step]
            rw [stepField_sep optS comma n _ i
              (by simpa [trimmed_off _ _ htS] using hsw)
              (by simpa [trimmed_off _ _ htS] using hi)
              (by simpa [trimmed_off _ _ htS] using bareQuote_of_not_mem optS _ hqm)]
            simp [trimmed_off _ _ htS]
          rcases hS with hS | ⟨tS, e, hrS, hfS, hmS⟩
          · left
            intro f hf
            rcases List.mem_cons.1 hf with rfl | hf
            · exact hqm
            · exact hS f hf
          · right
            exact ⟨tS, e, (Reach.of_step hstepS).trans hrS, hfS, hmS⟩

theorem readRecord_of_reach_fail (n : Nat) (reader : Reader) (opt : ReadOptions) (line : Str)
    (tp : Reader) (comma : Str) (hr : readLine reader = (some line, tp)) (hne : line ≠ [])
    (hcm : isCommentLine opt line = false) (hc : opt.comma = some comma) (hc0 : comma ≠ [])
    (t : Scan) (h : Reach opt comma n ⟨.parseField, line, line, n + 1, [], [], tp⟩ t)
    (e : ParseError) (tp1 : Reader) (hd : step opt comma n t = .fail e tp1) :
    readRecord n reader opt = (.error (.parseError e), tp1) := by
  rw [readRecord_data n reader opt line tp comma hr hne hcm hc,
    run_of_reach_fail hc0 h hd _ (Nat.lt_succ_self _)]
  rfl

/-- C17: with `trimLeadingSpace` off, on a non-empty line that does not begin with the comment
character, does not begin with a quote and in which no delimiter is followed by a quote,
`readRecord` with `lazyQuotes` on succeeds and returns the pieces into which the delimiter
cuts the line, quotes included: put together with the delimiter between them they are the
line, and none of them contains the delimiter.  With `lazyQuotes` off and otherwise the same
options, `readRecord` fails with the bare-quote error as soon as one of the pieces holds a
quote. -/
theorem readRecord_lazy_bare_quote (n : Nat) (reader : Reader) (line : Str) (tp : Reader)
    (opt : ReadOptions) (comma : Str) (lz : Option Bool)
    (hr : readLine reader = (some line, tp)) (hne : line ≠ [])
    (hcm : isCommentLine opt line = false)
    (hc : opt.comma = some comma) (hc0 : comma ≠ [])
    (ht : truthyBool opt.trimLeadingSpace = false)
    (hl : truthyBool opt.lazyQuotes = true) (hlz : truthyBool lz = false)
    (hq : line.head? ≠ some QUOTE) (hinf : ¬ (comma ++ [QUOTE]) <:+: line) :
    ∃ fields, readRecord n reader opt = (.ok (some fields), tp) ∧
      comma.intercalate fields = line ∧ (∀ f ∈ fields, ¬ comma <:+: f) ∧
      (∀ c, comma = [c] → fields = line.splitOn c) ∧
      ((∃ f ∈ fields, QUOTE ∈ f) →
        ∃ e, readRecord n reader { opt with lazyQuotes := lz } =
            (.error (.parseError e), tp) ∧
          e.message = .ERR_BARE_QUOTE ∧ e.startLine = n + 1 ∧ e.line = n + 1) := by
  obtain ⟨fields, t, hfne, hreach, hdone, hint, hnin, hS⟩ :=
    reach_lazy opt { opt with lazyQuotes := lz } comma n hc0 ht ht hl hlz line.length line
      (le_refl _) hq hinf line (n + 1) [] [] tp
  refine ⟨fields, ?_, hint, hnin, ?_, ?_⟩
  · rw [readRecord_of_reach_done n reader opt line tp comma hr hne hcm hc hc0 t hreach _ _ tp
      hdone]
    have := sliceFields_fieldEnds [] fields []
    simp only [List.nil_append, List.append_nil, List.length_nil] at this ⊢
    rw [this]
  · intro c hcc
    subst hcc
    have hmem : ∀ f ∈ fields, c ∉ f := by
      intro f hf hcf
      obtain ⟨a, b, rfl⟩ := List.append_of_mem hcf
      exact hnin _ hf ⟨a, b, by simp⟩
    rw [← hint, List.splitOn_intercalate _ c hmem hfne]
  · rintro ⟨f, hf, hqf⟩
    rcases hS with hS | ⟨tS, e, hrS, hfS, hm1, hm2, hm3⟩
    · exact absurd hqf (hS f hf)
    · exact ⟨e, readRecord_of_reach_fail n reader { opt with lazyQuotes := lz } line tp comma hr
        hne hcm hc hc0 tS hrS e tp hfS, hm1, hm2, hm3⟩

/-- C17 at the line `a"b,c`. -/
theorem readRecord_lazy_bare_quote_witness :
    ∃ fields, readRecord 0 [[97, 34, 98, 44, 99]] ⟨some [44], none, some false, some true, none⟩ =
        (.ok (some fields), []) ∧
      [44].intercalate fields = [97, 34, 98, 44, 99] ∧ (∀ f ∈ fields, ¬ [44] <:+: f) ∧
      (∀ c, [44] = [c] → fields = [97, 34, 98, 44, 99].splitOn c) ∧
      ((∃ f ∈ fields, QUOTE ∈ f) →
        ∃ e, readRecord 0 [[97, 34, 98, 44, 99]]
            { (⟨some [44], none, some false, some true, none⟩ : ReadOptions) with
              lazyQuotes := some false } =
            (.error (.parseError e), []) ∧
          e.message = .ERR_BARE_QUOTE ∧ e.startLine = 0 + 1 ∧ e.line = 0 + 1) :=
  readRecord_lazy_bare_quote 0 [[97, 34, 98, 44, 99]] [97, 34, 98, 44, 99] []
    ⟨some [44], none, some false, some true, none⟩ [44] (some false) (by rfl) (by decide)
    (by rfl) rfl (by decide) rfl rfl rfl (by decide) (by decide)

/-! ### The column of a quote error -/

theorem sliceTo_append (a b : Str) (k : Int) (hk : k = (a.length : Int)) :
    sliceTo (a ++ b) k = a := by
  unfold sliceTo
  subst hk
  rw [if_neg (by omega)]
  simp

/-- C18: when the loops of `readRecord` are inside a quoted field and the next quote of the
line buffer is followed by a character `c` that is not a quote and with which no delimiter
begins there, then with `lazyQuotes` off `readRecord` fails with the
missing-or-extraneous-quote error, on the line the scanner is on, and the column is the number
of code points of the line before that quote; with `lazyQuotes` on the pass does not fail: it
appends what precedes the quote and the quote itself to the field and goes on in the same
quoted field with `c` and what follows it. -/
theorem readRecord_stray_quote (n : Nat) (reader : Reader) (line : Str) (tp : Reader)
    (opt : ReadOptions) (comma : Str)
    (hr : readLine reader = (some line, tp)) (hne : line ≠ [])
    (hcm : isCommentLine opt line = false) (hc : opt.comma = some comma) (hc0 : comma ≠ [])
    (p content : Str) (c : CodeUnit) (rest fl : Str) (li : Nat) (buf : Str) (idx : List Nat)
    (tp1 : Reader)
    (hreach : Reach opt comma n ⟨.parseField, line, line, n + 1, [], [], tp⟩
      ⟨.quoted, content ++ QUOTE :: c :: rest, fl, li, buf, idx, tp1⟩)
    (hfl : fl = p ++ content ++ QUOTE :: c :: rest)
    (hcq : QUOTE ∉ content) (hcc : c ≠ QUOTE)
    (hsc : startsWith (c :: rest) comma = false) :
    (truthyBool opt.lazyQuotes = false →
      readRecord n reader opt =
        (.error (.parseError ⟨n + 1, li, some (runeCount (p ++ content)), .ERR_QUOTE⟩), tp1)) ∧
    (truthyBool opt.lazyQuotes = true →
      step opt comma n ⟨.quoted, content ++ QUOTE :: c :: rest, fl, li, buf, idx, tp1⟩ =
        .next ⟨.quoted, c :: rest, fl, li, buf ++ content ++ [QUOTE], idx, tp1⟩) := by
  have hi : indexOf (content ++ QUOTE :: c :: rest) [QUOTE] = some content.length :=
    indexOf_quote_append content (c :: rest) hcq
  have hd : (content ++ QUOTE :: c :: rest).drop (content.length + 1) = c :: rest := by
    rw [← List.drop_drop, List.drop_left]
    rfl
  have htk : (content ++ QUOTE :: c :: rest).take content.length = content := List.take_left _ _
  have hs := stepQuoted_stray opt comma n
    ⟨.quoted, content ++ QUOTE :: c :: rest, fl, li, buf, idx, tp1⟩ content.length hi
    (by
      show startsWith ((content ++ QUOTE :: c :: rest).drop (content.length + 1)) [QUOTE] = false
      rw [hd, startsWith_quote_cons]
      simp [hcc])
    (by
      show startsWith ((content ++ QUOTE :: c :: rest).drop (content.length + 1)) comma = false
      rw [hd]
      exact hsc)
    (by
      show (content ++ QUOTE :: c :: rest).drop (content.length + 1) ≠ []
      rw [hd]
      exact List.cons_ne_nil _ _)
  simp only [hd, htk] at hs
  refine ⟨?_, ?_⟩
  · intro hl
    rw [if_neg (by rw [hl]; exact Bool.false_ne_true)] at hs
    have hcol : sliceTo fl ((fl.length : Int) - ((c :: rest).length : Int) - 1) = p ++ content := by
      have e : fl = (p ++ content) ++ (QUOTE :: c :: rest) := by rw [hfl, List.append_assoc]
      rw [e]
      apply sliceTo_append
      simp only [List.length_append, List.length_cons]
      push_cast
      omega
    rw [hcol] at hs
    exact readRecord_of_reach_fail n reader opt line tp comma hr hne hcm hc hc0 _ hreach _ _ hs
  · intro hl
    rw [if_pos hl] at hs
    exact hs

/-- C18 at the line `"a"b",c`: column 2 with `lazyQuotes` off, the fields `a"b` and `c`
with it on. -/
theorem readRecord_stray_quote_witness :
    readRecord 0 [[34, 97, 34, 98, 34, 44, 99]] ⟨some [44], none, some false, none, none⟩ =
        (.error (.parseError ⟨1, 1, some 2, .ERR_QUOTE⟩), []) ∧
      readRecord 0 [[34, 97, 34, 98, 34, 44, 99]] ⟨some [44], none, some false, some true, none⟩ =
        (.ok (some [[97, 34, 98], [99]]), []) :=
  ⟨(readRecord_stray_quote 0 [[34, 97, 34, 98, 34, 44, 99]] [34, 97, 34, 98, 34, 44, 99] []
      ⟨some [44], none, some false, none, none⟩ [44] (by rfl) (by decide) (by rfl) rfl
      (by decide) [34] [97] 98 [34, 44, 99] [34, 97, 34, 98, 34, 44, 99] 1 [] [] []
      (reach_open _ _ _ _ _ _ _ _ _) rfl (by decide) (by decide) (by rfl)).1 rfl,
    by rfl⟩

/-! ### A quoted field that is not closed -/

theorem not_mem_handed (r : Str) (b : Bool) (h : QUOTE ∉ r) :
    QUOTE ∉ foldCRLF (dropFinalCR b r) := by
  have h1 : QUOTE ∉ dropFinalCR b r := by
    unfold dropFinalCR
    split
    · exact fun hx => h (List.mem_of_mem_take hx)
    · exact h
  unfold foldCRLF
  split
  · intro hx
    rcases List.mem_append.1 hx with hx | hx
    · exact h1 (List.mem_of_mem_take hx)
    · simp at hx
  · exact h1

/-- The passes of the inner loop over a line buffer and a reader without any quote: the lines
are read to the end of the stream and put into the field with a line feed between them; then
the field is closed when `lazyQuotes` is on, and the quote error is raised when it is off. -/
theorem reach_unterminated (opt : ReadOptions) (comma : Str) (n : Nat) (idx : List Nat) :
    ∀ (tp : Reader) (l fl : Str) (li : Nat) (buf : Str), QUOTE ∉ l → (∀ r ∈ tp, QUOTE ∉ r) →
      ∃ t, Reach opt comma n ⟨.quoted, l, fl, li, buf, idx, tp⟩ t ∧
        (truthyBool opt.lazyQuotes = true →
          step opt comma n t =
            .done (buf ++ [LF].intercalate (l :: handedOut tp))
              (idx ++ [(buf ++ [LF].intercalate (l :: handedOut tp)).length]) []) ∧
        (truthyBool opt.lazyQuotes = false →
          ∃ e, step opt comma n t = .fail e [] ∧ e.message = .ERR_QUOTE ∧
            e.startLine = n + 1) := by
  intro tp
  induction tp with
  | nil =>
    intro l fl li buf hq _
    have hs := stepQuoted_eof opt comma n ⟨.quoted, l, fl, li, buf, idx, []⟩
      (indexOf_quote_eq_none l hq) rfl
    refine ⟨_, Reach.refl _ _ _ _, ?_, ?_⟩
    · intro hl
      rw [if_pos hl] at hs
      simp only [handedOut, intercalate_singleton]
      exact hs
    · intro hl
      rw [if_neg (by rw [hl]; exact Bool.false_ne_true)] at hs
      by_cases h0 : l = []
      · rw [if_pos h0] at hs
        exact ⟨_, hs, rfl, rfl⟩
      · rw [if_neg h0] at hs
        exact ⟨_, hs, rfl, rfl⟩
  | cons r0 tp1 ih =>
    intro l fl li buf hq hqs
    have hr := readLine_cons_eq r0 tp1
    have hq1 : QUOTE ∉ foldCRLF (dropFinalCR (isEOF tp1) r0) :=
      not_mem_handed r0 _ (hqs r0 (List.mem_cons_self _ _))
    obtain ⟨t, hreach, h1, h2⟩ := ih (foldCRLF (dropFinalCR (isEOF tp1) r0))
      (foldCRLF (dropFinalCR (isEOF tp1) r0)) (li + 1) (buf ++ l ++ [LF]) hq1
      (fun r hr => hqs r (List.mem_cons_of_mem _ hr))
    have e : buf ++ l ++ [LF] ++
        [LF].intercalate (foldCRLF (dropFinalCR (isEOF tp1) r0) :: handedOut tp1) =
        buf ++ [LF].intercalate (l :: handedOut (r0 :: tp1)) := by
      simp only [handedOut]
      rw [intercalate_cons_cons]
      simp only [List.append_assoc]
    rw [e] at h1
    exact ⟨t, (reach_nextLine opt comma n l fl li buf idx (r0 :: tp1) _ tp1 hq hr).trans hreach,
      h1, h2⟩

/-! ### Errors of `readRecord` in `readMatrix` -/

/-- Over lines that give one record each, records that pass the field-count check, the loop
of `readMatrix` comes to the line after them with the call number raised by their number. -/
theorem readMatrixLoop_prefix (opt : ReadOptions) (rest : Reader) (f : Nat) :
    ∀ (pre : List Str) (li : Nat) (rs : List (List Str)), RecordPerLine opt li pre rest rs →
      ∀ (result : List (List Str)) (nb : Option Nat) (first : Bool) (R : List (List Str)),
        checkCounts opt rs result nb first li = .ok R →
        ∃ nb1 first1, readMatrixLoop opt (f + pre.length) (pre ++ rest) result nb first li =
          readMatrixLoop opt f rest R nb1 first1 (li + pre.length) := by
  intro pre
  induction pre with
  | nil =>
    intro li rs hrs result nb first R hR
    have : rs = [] := hrs
    subst this
    simp only [checkCounts, Except.ok.injEq] at hR
    subst hR
    exact ⟨nb, first, rfl⟩
  | cons l pre ih =>
    intro li rs hrs result nb first R hR
    obtain ⟨r, rs1, h1, h2, h3⟩ := hrs
    subst h1
    have e : f + (l :: pre).length = (f + pre.length) + 1 := rfl
    have e2 : li + (l :: pre).length = (li + 1) + pre.length := by
      simp only [List.length_cons]; omega
    rw [e, e2]
    simp only [readMatrixLoop, List.cons_append, h2]
    simp only [checkCounts] at hR
    by_cases hlen : r.length > 0
    · rw [if_pos hlen] at hR ⊢
      by_cases hw : wrongCount (nbFieldsAfter opt first nb r) r = true
      · rw [if_pos hw] at hR
        cases hR
      · rw [if_neg hw] at hR ⊢
        exact ih (li + 1) rs1 h3 _ _ _ R hR
    · rw [if_neg hlen] at hR ⊢
      exact ih (li + 1) rs1 h3 _ _ _ R hR

theorem readMatrixLoop_error (opt : ReadOptions) (f : Nat) (reader : Reader)
    (result : List (List Str)) (nb : Option Nat) (first : Bool) (li : Nat) (e : CsvError)
    (tp : Reader) (h : readRecord li reader opt = (.error e, tp)) :
    readMatrixLoop opt (f + 1) reader result nb first li = (.error e, tp) := by
  simp only [readMatrixLoop, h]

theorem indexOf_quote_get (s : Str) (j : Nat) (h : indexOf s [QUOTE] = some j) :
    s.get? j = some QUOTE := by
  have hs := indexOf_split s [QUOTE] j h
  have hb := indexOf_bound s [QUOTE] j h
  simp only [List.length_singleton] at hb
  rw [hs, List.append_assoc]
  have hl : (s.take j).length = j := by rw [List.length_take]; omega
  have := get?_append_length (s.take j) QUOTE (s.drop (j + 1))
  rw [hl] at this
  exact this

theorem sliceTo_nat (s : Str) (q : Nat) : sliceTo s (q : Int) = s.take q := by
  unfold sliceTo
  rw [if_neg (by omega)]
  rfl

theorem trimmed_suffix (opt : ReadOptions) (s : Str) : trimmed opt s <:+ s := by
  unfold trimmed
  split
  · exact List.dropWhile_suffix _
  · exact List.suffix_refl _

theorem get?_of_take {α : Type} (s : List α) (i j : Nat) (c : α)
    (h : (s.take i).get? j = some c) : s.get? j = some c := by
  induction s generalizing i j with
  | nil => simp at h
  | cons a s ih =>
    cases i with
    | zero => simp at h
    | succ i =>
      cases j with
      | zero => exact h
      | succ j => exact ih i j h

theorem get?_append_add {α : Type} (a b : List α) (j : Nat) :
    (a ++ b).get? (a.length + j) = b.get? j := by
  induction a with
  | nil => simp
  | cons x a ih =>
    have e : (x :: a).length + j = (a.length + j) + 1 := by simp only [List.length_cons]; omega
    rw [e]
    exact ih

theorem fieldUpTo_get (s : Str) (i : Option Nat) (j : Nat) (c : CodeUnit)
    (h : (fieldUpTo s i).get? j = some c) : s.get? j = some c := by
  cases i with
  | none => exact h
  | some i => exact get?_of_take s i j c h

/-- C16, as stated, fails in the column: on the line `a`, quote, `b` the quote is the second
character, and `readMatrix` reports the column 1, the number of characters before it. -/
theorem readMatrix_bare_quote_column :
    readMatrix [[97, 34, 98]] ⟨none, none, none, none, none⟩ =
      (.error (.parseError ⟨1, 1, some 1, .ERR_BARE_QUOTE⟩), []) := by
  rfl

/-- C16 (amended): with `lazyQuotes` off, when each of the lines `pre` before the line `l` is
read as one record and these records pass the field-count check, and on the line `l`, handed
out by `readLine` as `line`, the loops of `readRecord` come to the head of a field with `rest`
left of the line, a field that does not begin with a quote and holds a quote, then
`readMatrix` fails with the bare-quote error; its start line and its line are the number of
the line `l`, counted from 1, and its column is the number of code points of `line` before the
first quote of that field, the code unit at `q`. -/
theorem readMatrix_bare_quote (opt0 opt : ReadOptions) (hopt : chkOptions opt0 = .ok opt)
    (hlz : truthyBool opt.lazyQuotes = false)
    (pre : List Str) (l : Str) (tp : Reader) (rs R : List (List Str))
    (hpre : RecordPerLine opt 0 pre (l :: tp) rs)
    (hcnt : checkCounts opt rs [] none true 0 = .ok R)
    (line : Str) (hr : readLine (l :: tp) = (some line, tp)) (hne : line ≠ [])
    (hcm : isCommentLine opt line = false)
    (comma : Str) (hc : opt.comma = some comma)
    (p rest buf : Str) (idx : List Nat) (hline : line = p ++ rest)
    (hreach : Reach opt comma pre.length ⟨.parseField, line, line, pre.length + 1, [], [], tp⟩
      ⟨.parseField, rest, line, pre.length + 1, buf, idx, tp⟩)
    (hsw : startsWith (trimmed opt rest) [QUOTE] = false)
    (j : Nat)
    (hj : indexOf (fieldUpTo (trimmed opt rest) (indexOf (trimmed opt rest) comma)) [QUOTE] =
      some j)
    (q : Nat) (hq : q = line.length - (trimmed opt rest).length + j) :
    readMatrix (pre ++ l :: tp) opt0 =
        (.error (.parseError ⟨pre.length + 1, pre.length + 1, some (runeCount (line.take q)),
          .ERR_BARE_QUOTE⟩), tp) ∧
      line.get? q = some QUOTE := by
  obtain ⟨comma0, hc1, hc0, _⟩ := chkOptions_ok opt0 opt hopt
  rw [hc] at hc1
  simp only [Option.some.injEq] at hc1
  subst hc1
  obtain ⟨p1, hp1⟩ := trimmed_suffix opt rest
  have hfull : line = (p ++ p1) ++ trimmed opt rest := by
    rw [hline, List.append_assoc, hp1]
  have hlenL : line.length = (p ++ p1).length + (trimmed opt rest).length := by
    conv_lhs => rw [hfull]
    rw [List.length_append]
  have hjb : j + 1 ≤ (trimmed opt rest).length := by
    have h1 := indexOf_bound _ _ _ hj
    simp only [List.length_singleton] at h1
    have h2 : (fieldUpTo (trimmed opt rest) (indexOf (trimmed opt rest) comma)).length ≤
        (trimmed opt rest).length := by
      cases indexOf (trimmed opt rest) comma with
      | none => exact le_refl _
      | some i => exact (List.take_sublist _ _).length_le
    omega
  have hstep := stepField_bare opt comma pre.length
    ⟨.parseField, rest, line, pre.length + 1, buf, idx, tp⟩ j hsw
    (by rw [bareQuote_strict opt _ hlz]; exact hj)
  have hcol : sliceTo line ((line.length : Int) - (((trimmed opt rest).drop j).length : Int)) =
      line.take q := by
    rw [← sliceTo_nat]
    congr 1
    rw [List.length_drop, hq]
    omega
  simp only [hcol] at hstep
  have hrec := readRecord_of_reach_fail pre.length (l :: tp) opt line tp comma hr hne hcm hc hc0
    _ hreach _ _ hstep
  refine ⟨?_, ?_⟩
  · rw [readMatrix_eq_loop _ opt0 opt hopt]
    have hf : (pre ++ l :: tp).length + 1 = (tp.length + 1 + 1) + pre.length := by
      simp only [List.length_append, List.length_cons]; omega
    rw [hf]
    obtain ⟨nb1, first1, hloop⟩ :=
      readMatrixLoop_prefix opt (l :: tp) (tp.length + 1 + 1) pre 0 rs hpre [] none true R hcnt
    rw [hloop, Nat.zero_add]
    exact readMatrixLoop_error opt (tp.length + 1) (l :: tp) R nb1 first1 pre.length _ tp hrec
  · have hg := fieldUpTo_get _ _ _ _ (indexOf_quote_get _ j hj)
    have hq2 : q = (p ++ p1).length + j := by rw [hq, hlenL]; omega
    rw [hq2]
    conv_lhs => rw [hfull]
    rw [get?_append_add]
    exact hg

/-- C16 (amended) at the lines `x,y` and a line that holds a surrogate pair, a comma, `a`, a
quote and `b`: the quote is at offset 4 and the column is 3. -/
theorem readMatrix_bare_quote_witness :
    readMatrix ([[120, 44, 121]] ++ [55357, 56832, 44, 97, 34, 98] :: [])
        ⟨none, none, none, none, none⟩ =
      (.error (.parseError ⟨[[120, 44, 121]].length + 1, [[120, 44, 121]].length + 1,
        some (runeCount ([55357, 56832, 44, 97, 34, 98].take 4)), .ERR_BARE_QUOTE⟩), []) ∧
    [55357, 56832, 44, 97, 34, 98].get? 4 = some QUOTE ∧
    runeCount ([55357, 56832, 44, 97, 34, 98].take 4) = 3 :=
  have h := readMatrix_bare_quote ⟨none, none, none, none, none⟩
    ⟨some [44], none, some false, none, none⟩ (by rfl) rfl [[120, 44, 121]]
    [55357, 56832, 44, 97, 34, 98] [] [[[120], [121]]] [[[120], [121]]]
    ⟨[[120], [121]], [], rfl, by rfl, rfl⟩ (by rfl) [55357, 56832, 44, 97, 34, 98] (by rfl)
    (by decide) (by rfl) [44] rfl [55357, 56832, 44] [97, 34, 98] [55357, 56832] [2] rfl
    ⟨1, fun _ => rfl⟩ (by rfl) 1 (by rfl) 4 (by rfl)
  ⟨h.1, h.2, by rfl⟩

/-- C20: `readMatrix` numbers the calls of `readRecord`, not the lines.  On the three lines
quote `a` / `b` quote / `c` quote `d`, whose first record takes two lines, the bare quote of
the third line is reported with start line 2 and line 2; and with the width of the first
record asked of every record, on the lines quote `a` / `b` quote / `c,d` the field-count
error of the third line is reported with line 2. -/
theorem readMatrix_line_numbers :
    readMatrix [[34, 97], [98, 34], [99, 34, 100]] ⟨none, none, none, none, none⟩ =
      (.error (.parseError ⟨2, 2, some 1, .ERR_BARE_QUOTE⟩), []) ∧
    readMatrix [[34, 97], [98, 34], [99, 44, 100]] ⟨none, none, none, none, some 0⟩ =
      (.error (.parseError ⟨2, 2, none, .ERR_FIELD_COUNT⟩), []) := by
  refine ⟨by rfl, by rfl⟩

/-! ### A quoted field that is not closed, with doubled quotes -/

theorem escapeQuotes_of_not_mem (s : Str) (h : QUOTE ∉ s) : escapeQuotes s = s := by
  induction s with
  | nil => rfl
  | cons c t ih =>
    have hc : c ≠ QUOTE := fun h2 => h (by rw [h2]; exact List.mem_cons_self _ _)
    have ht : QUOTE ∉ t := fun h2 => h (List.mem_cons_of_mem _ h2)
    simp only [escapeQuotes, if_neg hc, ih ht]

theorem escapeQuotes_append (a b : Str) :
    escapeQuotes (a ++ b) = escapeQuotes a ++ escapeQuotes b := by
  induction a with
  | nil => rfl
  | cons c t ih =>
    have e : (c :: t) ++ b = c :: (t ++ b) := rfl
    by_cases hc : c = QUOTE
    · rw [e]
      simp only [escapeQuotes, if_pos hc, ih, List.cons_append]
    · rw [e]
      simp only [escapeQuotes, if_neg hc, ih, List.cons_append]

/-- A string that holds a quote is cut at its last quote. -/
theorem exists_last_quote (s : Str) (h : QUOTE ∈ s) :
    ∃ s1 s3, s = s1 ++ QUOTE :: s3 ∧ QUOTE ∉ s3 := by
  induction s with
  | nil => exact absurd h (List.not_mem_nil _)
  | cons c t ih =>
    by_cases ht : QUOTE ∈ t
    · obtain ⟨s1, s3, h1, h2⟩ := ih ht
      exact ⟨c :: s1, s3, by rw [h1]; rfl, h2⟩
    · rcases List.mem_cons.1 h with h1 | h1
      · exact ⟨[], t, by rw [← h1]; rfl, ht⟩
      · exact absurd h1 ht

theorem handedOut_verbatim (tp : Reader) (h : Verbatim tp) : handedOut tp = tp := by
  induction tp with
  | nil => rfl
  | cons r tp ih =>
    have h1 : readLine (r :: tp) = (some r, tp) := h.1
    rw [readLine_cons_eq] at h1
    simp only [Prod.mk.injEq, Option.some.injEq, and_true] at h1
    simp only [handedOut, h1, ih h.2]

theorem intercalate_spell (l : Str) (tp : Reader) : [LF].intercalate (l :: tp) = spell l tp := by
  induction tp generalizing l with
  | nil => simp only [intercalate_singleton, spell]
  | cons r tp ih =>
    rw [intercalate_cons_cons, ih r]
    simp only [spell, List.append_assoc, List.singleton_append]

theorem not_mem_of_spell (l : Str) (tp : Reader) (c : CodeUnit) (h : c ∉ spell l tp) :
    c ∉ l ∧ ∀ r ∈ tp, c ∉ r := by
  induction tp generalizing l with
  | nil => exact ⟨by simpa [spell] using h, fun r hr => absurd hr (List.not_mem_nil r)⟩
  | cons r0 tp ih =>
    simp only [spell, List.mem_append, List.mem_cons, not_or] at h
    obtain ⟨h1, h2⟩ := ih r0 h.2.2
    refine ⟨h.1, ?_⟩
    intro r hr
    rcases List.mem_cons.1 hr with rfl | hr
    · exact h1
    · exact h2 r hr

/-- The passes of the inner loop over lines without any quote that `readLine` hands out as
they are: the field takes the text that the lines stand for. -/
theorem reach_unterminated_plain (opt : ReadOptions) (comma : Str) (n : Nat) (idx : List Nat)
    (tp : Reader) (l fl : Str) (li : Nat) (buf : Str) (hL : Lines l tp)
    (hq : QUOTE ∉ spell l tp) :
    ∃ t, Reach opt comma n ⟨.quoted, l, fl, li, buf, idx, tp⟩ t ∧
      (truthyBool opt.lazyQuotes = true →
        step opt comma n t =
          .done (buf ++ spell l tp) (idx ++ [(buf ++ spell l tp).length]) []) ∧
      (truthyBool opt.lazyQuotes = false →
        ∃ e, step opt comma n t = .fail e [] ∧ e.message = .ERR_QUOTE ∧
          e.startLine = n + 1) := by
  obtain ⟨h1, h2⟩ := not_mem_of_spell l tp QUOTE hq
  obtain ⟨t, hr, hlazy, hstrict⟩ := reach_unterminated opt comma n idx tp l fl li buf h1 h2
  rw [handedOut_verbatim tp hL.2.2, intercalate_spell] at hlazy
  exact ⟨t, hr, hlazy, hstrict⟩

/-- The passes of the inner loop over the text of an unclosed quoted field in which every
quote is doubled: the field takes the text with one quote for every doubled one; at the end
of the stream it is closed when `lazyQuotes` is on, and the quote error is raised when it is
off. -/
theorem reach_unterminated_text (opt : ReadOptions) (comma : Str) (n : Nat) (idx : List Nat)
    (s : Str) (tp : Reader) (l fl : Str) (li : Nat) (buf : Str) (hL : Lines l tp)
    (hs : spell l tp = escapeQuotes s) :
    ∃ t, Reach opt comma n ⟨.quoted, l, fl, li, buf, idx, tp⟩ t ∧
      (truthyBool opt.lazyQuotes = true →
        step opt comma n t = .done (buf ++ s) (idx ++ [(buf ++ s).length]) []) ∧
      (truthyBool opt.lazyQuotes = false →
        ∃ e, step opt comma n t = .fail e [] ∧ e.message = .ERR_QUOTE ∧
          e.startLine = n + 1) := by
  by_cases hq : QUOTE ∈ s
  · obtain ⟨s1, s3, hs1, hq3⟩ := exists_last_quote s hq
    have he : escapeQuotes s = escapeQuotes s1 ++ QUOTE :: (QUOTE :: s3) := by
      rw [hs1, escapeQuotes_append]
      simp only [escapeQuotes, if_true, escapeQuotes_of_not_mem s3 hq3]
    rw [he] at hs
    obtain ⟨line1, tp1, fl1, li1, hreach, hL1, hsp1⟩ :=
      reach_quoted_text opt comma n (QUOTE :: s3) idx s1 l tp fl li buf hL hs
    obtain ⟨l2, hl2, hsp2⟩ := spell_cons_ne line1 tp1 QUOTE (QUOTE :: s3) hL1.1 hsp1 (by decide)
    subst hl2
    have hL2 : Lines l2 tp1 := hL1.tail
    obtain ⟨l3, hl3, hsp3⟩ := spell_cons_ne l2 tp1 QUOTE s3 hL2.1 hsp2 (by decide)
    subst hl3
    have hL3 : Lines l3 tp1 := hL2.tail
    obtain ⟨t, hr, hlazy, hstrict⟩ := reach_unterminated_plain opt comma n idx tp1 l3 fl1 li1
      (buf ++ s1 ++ [QUOTE]) hL3 (by rw [hsp3]; exact hq3)
    have e : buf ++ s1 ++ [QUOTE] ++ spell l3 tp1 = buf ++ s := by
      rw [hsp3, hs1]
      simp only [List.append_assoc, List.singleton_append]
    rw [e] at hlazy
    exact ⟨t, (hreach.trans (reach_escaped opt comma n l3 fl1 li1 (buf ++ s1) idx tp1)).trans hr,
      hlazy, hstrict⟩
  · rw [escapeQuotes_of_not_mem s hq] at hs
    obtain ⟨t, hr, hlazy, hstrict⟩ := reach_unterminated_plain opt comma n idx tp l fl li buf hL
      (by rw [hs]; exact hq)
    rw [hs] at hlazy
    exact ⟨t, hr, hlazy, hstrict⟩

/-- C19, as stated, fails when a doubled quote follows the opening quote: on the stream that
holds only a quote, `a`, two quotes and `b`, no quote closes the field, and `readRecord` with
`lazyQuotes` on returns the field `a`, quote, `b`, which is not all that follows the opening
quote; with `lazyQuotes` off it fails as the claim says. -/
theorem readRecord_unterminated_doubled :
    readRecord 0 [[34, 97, 34, 34, 98]] ⟨some [44], none, some false, some true, none⟩ =
      (.ok (some [[97, 34, 98]]), []) ∧
    readRecord 0 [[34, 97, 34, 34, 98]] ⟨some [44], none, some false, none, none⟩ =
      (.error (.parseError ⟨1, 2, some 0, .ERR_QUOTE⟩), []) := by
  refine ⟨by rfl, by rfl⟩

/-- C19 (amended): when the loops of `readRecord` have read the fields `fs` and are inside a
quoted field, with `l` left of the line and `tp1` left of the stream, and no quote closes the
field before the end of the stream, then with `lazyQuotes` off `readRecord` fails with the
missing-or-extraneous-quote error, with the stream read to its end, and with `lazyQuotes` on
it succeeds and the record is `fs` followed by one last field.  When `l` and `tp1` hold no
quote at all, the value of that field is `l` and the lines of `tp1`, as `readLine` hands them
out, with a line feed between them: all that follows the opening quote.  When every quote of
`l` and `tp1` is doubled, that is when `l` and the lines of `tp1`, handed out as they are, are
the text `s` with its quotes doubled, the value of that field is `s`: all that follows the
opening quote, with one quote for every doubled one. -/
theorem readRecord_unterminated (n : Nat) (reader : Reader) (line : Str) (tp : Reader)
    (opt : ReadOptions) (comma : Str)
    (hr : readLine reader = (some line, tp)) (hne : line ≠ [])
    (hcm : isCommentLine opt line = false) (hc : opt.comma = some comma) (hc0 : comma ≠ [])
    (fs : List Str) (l fl : Str) (li : Nat) (tp1 : Reader)
    (hreach : Reach opt comma n ⟨.parseField, line, line, n + 1, [], [], tp⟩
      ⟨.quoted, l, fl, li, fs.flatten, fieldEnds 0 fs, tp1⟩) :
    (QUOTE ∉ l → (∀ r ∈ tp1, QUOTE ∉ r) →
      (truthyBool opt.lazyQuotes = false →
        ∃ e, readRecord n reader opt = (.error (.parseError e), []) ∧
          e.message = .ERR_QUOTE ∧ e.startLine = n + 1) ∧
      (truthyBool opt.lazyQuotes = true →
        readRecord n reader opt =
          (.ok (some (fs ++ [[LF].intercalate (l :: handedOut tp1)])), []))) ∧
    (∀ s, Lines l tp1 → spell l tp1 = escapeQuotes s →
      (truthyBool opt.lazyQuotes = false →
        ∃ e, readRecord n reader opt = (.error (.parseError e), []) ∧
          e.message = .ERR_QUOTE ∧ e.startLine = n + 1) ∧
      (truthyBool opt.lazyQuotes = true →
        readRecord n reader opt = (.ok (some (fs ++ [s])), []))) := by
  have key : ∀ (v : Str) (t : Scan),
      Reach opt comma n ⟨.quoted, l, fl, li, fs.flatten, fieldEnds 0 fs, tp1⟩ t →
      (truthyBool opt.lazyQuotes = true →
        step opt comma n t =
          .done (fs.flatten ++ v) (fieldEnds 0 fs ++ [(fs.flatten ++ v).length]) []) →
      (truthyBool opt.lazyQuotes = false →
        ∃ e, step opt comma n t = .fail e [] ∧ e.message = .ERR_QUOTE ∧
          e.startLine = n + 1) →
      (truthyBool opt.lazyQuotes = false →
        ∃ e, readRecord n reader opt = (.error (.parseError e), []) ∧
          e.message = .ERR_QUOTE ∧ e.startLine = n + 1) ∧
      (truthyBool opt.lazyQuotes = true →
        readRecord n reader opt = (.ok (some (fs ++ [v])), [])) := by
    intro v t hreach1 h1 h2
    refine ⟨?_, ?_⟩
    · intro hl
      obtain ⟨e, he, hm⟩ := h2 hl
      exact ⟨e, readRecord_of_reach_fail n reader opt line tp comma hr hne hcm hc hc0 t
        (hreach.trans hreach1) e [] he, hm⟩
    · intro hl
      rw [readRecord_of_reach_done n reader opt line tp comma hr hne hcm hc hc0 t
        (hreach.trans hreach1) _ _ [] (h1 hl)]
      have s := sliceFields_fieldEnds [] (fs ++ [v]) []
      rw [fieldEnds_append] at s
      simp only [List.nil_append, List.append_nil, List.length_nil, List.flatten_append,
        List.flatten_cons, List.flatten_nil, fieldEnds, Nat.zero_add, List.length_append] at s ⊢
      rw [s]
  refine ⟨?_, ?_⟩
  · intro hq hqs
    obtain ⟨t, hreach1, h1, h2⟩ :=
      reach_unterminated opt comma n (fieldEnds 0 fs) tp1 l fl li fs.flatten hq hqs
    exact key _ t hreach1 h1 h2
  · intro s hL hs
    obtain ⟨t, hreach1, h1, h2⟩ :=
      reach_unterminated_text opt comma n (fieldEnds 0 fs) s tp1 l fl li fs.flatten hL hs
    exact key _ t hreach1 h1 h2

/-- C19 (amended) at the lines `x,"a""b` and `cd`: the last field is `a`, quote, `b`, line
feed, `cd` with `lazyQuotes` on. -/
theorem readRecord_unterminated_witness :
    readRecord 0 [[120, 44, 34, 97, 34, 34, 98], [99, 100]]
        ⟨some [44], none, some false, none, none⟩ =
      (.error (.parseError ⟨1, 3, some 0, .ERR_QUOTE⟩), []) ∧
    readRecord 0 [[120, 44, 34, 97, 34, 34, 98], [99, 100]]
        ⟨some [44], none, some false, some true, none⟩ =
      (.ok (some ([[120]] ++ [[97, 34, 98, 10, 99, 100]])), []) := by
  refine ⟨by rfl, ?_⟩
  exact ((readRecord_unterminated 0 [[120, 44, 34, 97, 34, 34, 98], [99, 100]]
    [120, 44, 34, 97, 34, 34, 98] [[99, 100]] ⟨some [44], none, some false, some true, none⟩
    [44] (by rfl) (by decide) (by rfl) rfl (by decide) [[120]] [97, 34, 34, 98]
    [120, 44, 34, 97, 34, 34, 98] 1 [[99, 100]] ⟨2, fun _ => rfl⟩).2
    [97, 34, 98, 10, 99, 100]
    ⟨by decide, by decide, ⟨by rfl, trivial⟩⟩ (by rfl)).2 rfl

end Csv
